import Mathlib

/-!
# Orphan transaction pool (`src/txorphanage.cpp`)

A shallow embedding of `TxOrphanage` and a verification of its specification.

Modelling conventions.

* `std::map<K, V>` is a list of key/value pairs kept in strictly increasing key
  order; `std::set<K>` is a strictly increasing list.  The functions below are
  the container operations the source uses (`find`, `count`, `emplace`,
  `operator[]`, `erase`, `insert`).
* A handle (`std::map<TxId, COrphanTx>::iterator`) is represented by the key of
  the entry it points to: map iterators stay valid until their own entry is
  erased, and one entry has one key.  A handle whose key is not in the primary
  store is a dangling iterator; dereferencing it is undefined behaviour and the
  operation returns `none`.  A failed `assert` and an out-of-range
  `g_orphan_list[...]` also return `none`.
* The buckets of the reverse index are ordered by entry address in the source
  (`IteratorComparator`), which the embedding does not represent; they are kept
  in key order here.  Only the order in which `EraseForBlock` erases the
  collected ids depends on it.
* `GetTime()` is the argument `now`/`nNow`; `FastRandomContext` is a stream
  `rng : Nat → Nat` whose `k`-th value, reduced modulo the range, is the `k`-th
  `randrange` result.  Logging is not modelled.
* Times and peer ids are `int64_t` in the source and `Int` here; sizes and
  counters (`size_t`, `unsigned int`) are `Nat`.  The clock is far from
  `2^63 - 1200` and a counter never exceeds the number of resident entries, so
  none of them wraps.
-/

namespace TxOrphanageModel

/-! ## Data model -/

/-- Transaction identifier (`TxId`, an opaque totally ordered 256-bit value). -/
abbrev TxId := Nat

/-- Peer identifier (`NodeId`, `int64_t`). -/
abbrev NodeId := Int

/-- Outpoint `COutPoint`: parent transaction id and output index. -/
structure COutPoint where
  txid : TxId
  n : Nat
deriving DecidableEq, Repr

/-- Transaction input `CTxIn`; the orphanage reads only `prevout`. -/
structure CTxIn where
  prevout : COutPoint
deriving DecidableEq, Repr

/-- Transaction output `CTxOut`; the orphanage reads only the position. -/
structure CTxOut where
  nValue : Int
deriving DecidableEq, Repr

/-- Transaction `CTransaction` as the orphanage sees it: `GetId()`, `vin`,
`vout` and `GetTotalSize()`. -/
structure CTransaction where
  id : TxId
  vin : List CTxIn
  vout : List CTxOut
  totalSize : Nat
deriving DecidableEq, Repr

/-- Block `CBlock`: the ordered transactions `vtx`. -/
structure CBlock where
  vtx : List CTransaction
deriving DecidableEq, Repr

/-- Orphan record `COrphanTx`. -/
structure COrphanTx where
  tx : CTransaction
  fromPeer : NodeId
  nTimeExpire : Int
  list_pos : Nat
deriving DecidableEq, Repr

/-- The order of `COutPoint` (`operator<`): by `txid`, then by `n`. -/
instance : LinearOrder COutPoint :=
  LinearOrder.lift' (fun p : COutPoint => toLex (p.txid, p.n))
    (by
      intro a b h
      have h2 : (a.txid, a.n) = (b.txid, b.n) := h
      cases a
      cases b
      simp only [Prod.mk.injEq] at h2
      simp [h2.1, h2.2])

/-- Expiration time for orphan transactions in seconds. -/
def ORPHAN_TX_EXPIRE_TIME : Int := 20 * 60

/-- Minimum time between orphan transactions expire time checks in seconds. -/
def ORPHAN_TX_EXPIRE_INTERVAL : Int := 5 * 60

/-- Modelled from the spec: `MAX_STANDARD_TX_SIZE` is declared in
`policy/policy.h`, which is not part of the sources at hand; the specification
gives 100 000 bytes. -/
def MAX_STANDARD_TX_SIZE : Nat := 100000

/-! ## Ordered containers -/

section Containers

variable {K V : Type} [LinearOrder K]

/-- The keys of a map, in iteration order. -/
def mapKeys (m : List (K × V)) : List K := m.map Prod.fst

/-- The call `std::map::find`: the value stored under `k`, if any. -/
def mapFind : List (K × V) → K → Option V
  | [], _ => none
  | (a, w) :: l, k => if a = k then some w else mapFind l k

/-- The call `std::map::count`. -/
def mapCount (m : List (K × V)) (k : K) : Nat :=
  if (mapFind m k).isSome then 1 else 0

/-- The call `std::map::emplace`: inserts at the ordered position unless the
key is present; the flag tells whether the insertion took place. -/
def mapEmplace : List (K × V) → K → V → List (K × V) × Bool
  | [], k, v => ([(k, v)], true)
  | (a, w) :: l, k, v =>
    if k < a then ((k, v) :: (a, w) :: l, true)
    else if a < k then ((a, w) :: (mapEmplace l k v).1, (mapEmplace l k v).2)
    else ((a, w) :: l, false)

/-- The call `std::map::erase` on the entry with key `k`. -/
def mapErase : List (K × V) → K → List (K × V)
  | [], _ => []
  | (a, w) :: l, k => if a = k then l else (a, w) :: mapErase l k

/-- Assignment through an iterator: replaces the value under `k` by `f` of it. -/
def mapModify : List (K × V) → K → (V → V) → List (K × V)
  | [], _, _ => []
  | (a, w) :: l, k, f => if a = k then (a, f w) :: l else (a, w) :: mapModify l k f

/-- The call `std::set::insert`. -/
def setInsert : List K → K → List K
  | [], k => [k]
  | a :: l, k =>
    if k < a then k :: a :: l
    else if a < k then a :: setInsert l k
    else a :: l

/-- The call `std::set::erase` by value. -/
def setErase (s : List K) (k : K) : List K := s.erase k

end Containers

/-! ## The orphanage state -/

/-- The members of `TxOrphanage` together with the function-local static
`nNextSweep` of `LimitOrphans`. -/
structure TxOrphanage where
  mapOrphanTransactions : List (TxId × COrphanTx)
  mapOrphanTransactionsByPrev : List (COutPoint × List TxId)
  g_orphan_list : List TxId
  nNextSweep : Int
deriving DecidableEq, Repr

/-- The orphanage at start-up: empty containers, `nNextSweep` zero-initialised. -/
def TxOrphanage.empty : TxOrphanage :=
  { mapOrphanTransactions := []
    mapOrphanTransactionsByPrev := []
    g_orphan_list := []
    nNextSweep := 0 }

/-- The statement `mapOrphanTransactionsByPrev[p].insert(h)`. -/
def byPrevInsert (m : List (COutPoint × List TxId)) (p : COutPoint) (h : TxId) :
    List (COutPoint × List TxId) :=
  mapModify (mapEmplace m p []).1 p (fun b => setInsert b h)

/-- One round of the reverse-index loop of `EraseTx`: find the bucket of `p`,
erase the handle `h` from it, drop the bucket when it became empty. -/
def byPrevErase (m : List (COutPoint × List TxId)) (p : COutPoint) (h : TxId) :
    List (COutPoint × List TxId) :=
  match mapFind m p with
  | none => m
  | some b =>
    if setErase b h = [] then mapErase m p
    else mapModify m p (fun _ => setErase b h)

/-- The reverse-index loop of `AddTx`: one insertion for each input. -/
def byPrevInsertAll (m : List (COutPoint × List TxId)) (vin : List CTxIn) (h : TxId) :
    List (COutPoint × List TxId) :=
  vin.foldl (fun b txin => byPrevInsert b txin.prevout h) m

/-- The reverse-index loop of `EraseTx`: one round for each input. -/
def byPrevEraseAll (m : List (COutPoint × List TxId)) (vin : List CTxIn) (h : TxId) :
    List (COutPoint × List TxId) :=
  vin.foldl (fun b txin => byPrevErase b txin.prevout h) m

/-! ## Operations -/

/-- The method `TxOrphanage::AddTx` called when `GetTime()` is `now`. -/
def AddTx (s : TxOrphanage) (tx : CTransaction) (peer : NodeId) (now : Int) :
    Option (TxOrphanage × Bool) :=
  if mapCount s.mapOrphanTransactions tx.id ≠ 0 then some (s, false)
  else if tx.totalSize > MAX_STANDARD_TX_SIZE then some (s, false)
  else
    let ret := mapEmplace s.mapOrphanTransactions tx.id
      { tx := tx, fromPeer := peer, nTimeExpire := now + ORPHAN_TX_EXPIRE_TIME,
        list_pos := s.g_orphan_list.length }
    if ret.2 = false then none
    else some
      ({ mapOrphanTransactions := ret.1
         mapOrphanTransactionsByPrev :=
           byPrevInsertAll s.mapOrphanTransactionsByPrev tx.vin tx.id
         g_orphan_list := s.g_orphan_list ++ [tx.id]
         nNextSweep := s.nNextSweep }, true)

/-- The list compaction of `EraseTx` for an entry at `old_pos`: unless it is
the last one, the last handle moves to `old_pos` and its record's `list_pos`
is updated; then the list loses its last slot. -/
def compactList (m : List (TxId × COrphanTx)) (l : List TxId) (old_pos : Nat) :
    Option (List (TxId × COrphanTx) × List TxId) :=
  if old_pos + 1 ≠ l.length then
    match l.getLast? with
    | none => none
    | some it_last =>
      match mapFind m it_last with
      | none => none
      | some _ =>
        some (mapModify m it_last (fun r => { r with list_pos := old_pos }),
              (l.set old_pos it_last).dropLast)
  else some (m, l.dropLast)

/-- The method `TxOrphanage::EraseTx`. -/
def EraseTx (s : TxOrphanage) (txid : TxId) : Option (TxOrphanage × Int) :=
  match mapFind s.mapOrphanTransactions txid with
  | none => some (s, 0)
  | some rec =>
    match s.g_orphan_list[rec.list_pos]? with
    | none => none
    | some h =>
      if h ≠ txid then none
      else
        match compactList s.mapOrphanTransactions s.g_orphan_list rec.list_pos with
        | none => none
        | some (m, l) =>
          some ({ mapOrphanTransactions := mapErase m txid
                  mapOrphanTransactionsByPrev :=
                    byPrevEraseAll s.mapOrphanTransactionsByPrev rec.tx.vin txid
                  g_orphan_list := l
                  nNextSweep := s.nNextSweep }, 1)

/-- The traversal of `EraseForPeer` over the keys still to visit.  The cursor
is advanced before the erase; a key that no longer resolves means the cursor
was invalidated. -/
def eraseForPeerLoop (peer : NodeId) : List TxId → TxOrphanage → Option TxOrphanage
  | [], s => some s
  | k :: rest, s =>
    match mapFind s.mapOrphanTransactions k with
    | none => none
    | some rec =>
      if rec.fromPeer = peer then
        match EraseTx s rec.tx.id with
        | none => none
        | some r => eraseForPeerLoop peer rest r.1
      else eraseForPeerLoop peer rest s

/-- The method `TxOrphanage::EraseForPeer`. -/
def EraseForPeer (s : TxOrphanage) (peer : NodeId) : Option TxOrphanage :=
  eraseForPeerLoop peer (mapKeys s.mapOrphanTransactions) s

/-- The expiry sweep of `LimitOrphans`: the traversal over the keys still to
visit, carrying `nMinExpTime`. -/
def sweepLoop (nNow : Int) : List TxId → TxOrphanage → Int → Option (TxOrphanage × Int)
  | [], s, nMinExpTime => some (s, nMinExpTime)
  | k :: rest, s, nMinExpTime =>
    match mapFind s.mapOrphanTransactions k with
    | none => none
    | some rec =>
      if rec.nTimeExpire ≤ nNow then
        match EraseTx s rec.tx.id with
        | none => none
        | some r => sweepLoop nNow rest r.1 nMinExpTime
      else sweepLoop nNow rest s (min rec.nTimeExpire nMinExpTime)

/-- The first phase of `LimitOrphans`: the sweep, when it is due. -/
def sweepPhase (s : TxOrphanage) (nNow : Int) : Option TxOrphanage :=
  if s.nNextSweep ≤ nNow then
    match sweepLoop nNow (mapKeys s.mapOrphanTransactions) s
        (nNow + ORPHAN_TX_EXPIRE_TIME - ORPHAN_TX_EXPIRE_INTERVAL) with
    | none => none
    | some r => some { r.1 with nNextSweep := r.2 + ORPHAN_TX_EXPIRE_INTERVAL }
  else some s

/-- The overflow loop of `LimitOrphans`.  The first argument bounds the number
of rounds; `LimitOrphans` passes the number of resident entries. -/
def evictLoop (rng : Nat → Nat) (nMaxOrphans : Nat) :
    Nat → TxOrphanage → Nat → Option (TxOrphanage × Nat)
  | fuel, s, nEvicted =>
    if s.mapOrphanTransactions.length > nMaxOrphans then
      match fuel with
      | 0 => none
      | fuel + 1 =>
        if s.g_orphan_list.length = 0 then none
        else
          match s.g_orphan_list[rng nEvicted % s.g_orphan_list.length]? with
          | none => none
          | some h =>
            match mapFind s.mapOrphanTransactions h with
            | none => none
            | some _ =>
              match EraseTx s h with
              | none => none
              | some r => evictLoop rng nMaxOrphans fuel r.1 (nEvicted + 1)
    else some (s, nEvicted)

/-- The method `TxOrphanage::LimitOrphans` called when `GetTime()` is `nNow`. -/
def LimitOrphans (s : TxOrphanage) (nMaxOrphans : Nat) (nNow : Int) (rng : Nat → Nat) :
    Option (TxOrphanage × Nat) :=
  match sweepPhase s nNow with
  | none => none
  | some s1 => evictLoop rng nMaxOrphans s1.mapOrphanTransactions.length s1 0

/-- The ids `(*mi)->second.tx->GetId()` of the handles of one bucket. -/
def bucketIds (s : TxOrphanage) : List TxId → Option (List TxId)
  | [] => some []
  | h :: l =>
    match mapFind s.mapOrphanTransactions h with
    | none => none
    | some rec =>
      match bucketIds s l with
      | none => none
      | some ids => some (rec.tx.id :: ids)

/-- The inner collection loop of `EraseForBlock` over the inputs of one block
transaction. -/
def collectInputs (s : TxOrphanage) : List CTxIn → Option (List TxId)
  | [] => some []
  | txin :: l =>
    match mapFind s.mapOrphanTransactionsByPrev txin.prevout with
    | none => collectInputs s l
    | some b =>
      match bucketIds s b with
      | none => none
      | some ids =>
        match collectInputs s l with
        | none => none
        | some more => some (ids ++ more)

/-- The collection pass of `EraseForBlock`: the vector `vOrphanErase`. -/
def collectBlock (s : TxOrphanage) : List CTransaction → Option (List TxId)
  | [] => some []
  | tx :: l =>
    match collectInputs s tx.vin with
    | none => none
    | some ids =>
      match collectBlock s l with
      | none => none
      | some more => some (ids ++ more)

/-- The erase pass of `EraseForBlock`. -/
def eraseAll : List TxId → TxOrphanage → Option TxOrphanage
  | [], s => some s
  | orphanId :: l, s =>
    match EraseTx s orphanId with
    | none => none
    | some r => eraseAll l r.1

/-- The method `TxOrphanage::EraseForBlock`. -/
def EraseForBlock (s : TxOrphanage) (block : CBlock) : Option TxOrphanage :=
  match collectBlock s block.vtx with
  | none => none
  | some vOrphanErase => eraseAll vOrphanErase s

/-- The inner loop of `AddChildrenToWorkSet` over one bucket: inserts
`elem->first` for each handle. -/
def addBucket (s : TxOrphanage) : List TxId → List TxId → Option (List TxId)
  | [], ws => some ws
  | h :: l, ws =>
    match mapFind s.mapOrphanTransactions h with
    | none => none
    | some _ => addBucket s l (setInsert ws h)

/-- The outer loop of `AddChildrenToWorkSet` over the output indices still to
visit. -/
def addChildrenLoop (s : TxOrphanage) (txid : TxId) : List Nat → List TxId → Option (List TxId)
  | [], ws => some ws
  | i :: l, ws =>
    match mapFind s.mapOrphanTransactionsByPrev { txid := txid, n := i } with
    | none => addChildrenLoop s txid l ws
    | some b =>
      match addBucket s b ws with
      | none => none
      | some ws1 => addChildrenLoop s txid l ws1

/-- The method `TxOrphanage::AddChildrenToWorkSet`; the work set is a
`std::set<TxId>`.  The loop index is the output position; it is below the
number of outputs, hence below `2^32`, and `COutPoint(tx.GetId(), i)` stores
it unchanged. -/
def AddChildrenToWorkSet (s : TxOrphanage) (tx : CTransaction) (orphan_work_set : List TxId) :
    Option (List TxId) :=
  addChildrenLoop s tx.id (List.range tx.vout.length) orphan_work_set

/-- The method `TxOrphanage::HaveTx`. -/
def HaveTx (s : TxOrphanage) (txid : TxId) : Bool :=
  mapCount s.mapOrphanTransactions txid ≠ 0

/-- The method `TxOrphanage::GetTx`; `none` is the null transaction reference. -/
def GetTx (s : TxOrphanage) (txid : TxId) : Option CTransaction × NodeId :=
  match mapFind s.mapOrphanTransactions txid with
  | none => (none, -1)
  | some rec => (some rec.tx, rec.fromPeer)

/-! ## Invariants and reachability -/

/-- An id is resident when the primary store has an entry under it. -/
def Resident (s : TxOrphanage) (txid : TxId) : Prop :=
  (mapFind s.mapOrphanTransactions txid).isSome = true

instance (s : TxOrphanage) (txid : TxId) : Decidable (Resident s txid) := by
  unfold Resident
  infer_instance

/-- Container well-formedness: keys of both maps strictly increasing, every
bucket strictly increasing. -/
def WF (s : TxOrphanage) : Prop :=
  (mapKeys s.mapOrphanTransactions).Pairwise (· < ·) ∧
  (mapKeys s.mapOrphanTransactionsByPrev).Pairwise (· < ·) ∧
  ∀ p b, mapFind s.mapOrphanTransactionsByPrev p = some b → b.Pairwise (· < ·)

/-- Positional-list consistency of a primary store `m` and a list `l`: `l` is
as long as `m` and the handle at position `i` resolves to a record whose
`list_pos` is `i`. -/
def ListOK (m : List (TxId × COrphanTx)) (l : List TxId) : Prop :=
  l.length = m.length ∧
  ∀ i, i < l.length → ∃ h ∈ l[i]?, ∃ rec ∈ mapFind m h, rec.list_pos = i

instance (m : List (TxId × COrphanTx)) (l : List TxId) : Decidable (ListOK m l) := by
  unfold ListOK
  infer_instance

/-- Positional-list consistency of a state. -/
def ListInv (s : TxOrphanage) : Prop :=
  ListOK s.mapOrphanTransactions s.g_orphan_list

instance (s : TxOrphanage) : Decidable (ListInv s) := by
  unfold ListInv
  infer_instance

/-- The part of a record that is fixed at admission: transaction, source peer
and expiry time. -/
def COrphanTx.core (r : COrphanTx) : CTransaction × NodeId × Int :=
  (r.tx, r.fromPeer, r.nTimeExpire)

/-- What one round of the reverse-index loop of `EraseTx` leaves of a bucket
lookup: the bucket without the handle, or nothing when that is empty. -/
def eraseView (h : TxId) : Option (List TxId) → Option (List TxId)
  | none => none
  | some b => if setErase b h = [] then none else some (setErase b h)

/-- Reverse-index completeness: every input outpoint of a resident orphan has a
bucket holding the orphan's handle. -/
def RevComplete (s : TxOrphanage) : Prop :=
  ∀ txid rec, mapFind s.mapOrphanTransactions txid = some rec →
    ∀ txin ∈ rec.tx.vin,
      ∃ b, mapFind s.mapOrphanTransactionsByPrev txin.prevout = some b ∧ txid ∈ b

/-- Reverse-index soundness: no bucket is empty and every handle in the bucket
at `p` resolves to a resident orphan with an input referencing `p`. -/
def RevSound (s : TxOrphanage) : Prop :=
  ∀ p b, mapFind s.mapOrphanTransactionsByPrev p = some b →
    b ≠ [] ∧ ∀ h ∈ b, ∃ rec, mapFind s.mapOrphanTransactions h = some rec ∧
      ∃ txin ∈ rec.tx.vin, txin.prevout = p

/-- Key/id agreement: an entry's key is the id of the transaction it stores. -/
def KeyInv (s : TxOrphanage) : Prop :=
  ∀ txid rec, mapFind s.mapOrphanTransactions txid = some rec → rec.tx.id = txid

/-- The invariant of reachable states. -/
def Inv (s : TxOrphanage) : Prop :=
  WF s ∧ ListInv s ∧ RevComplete s ∧ RevSound s ∧ KeyInv s

/-- One public mutation that returns. -/
inductive Step : TxOrphanage → TxOrphanage → Prop
  | addTx (s : TxOrphanage) (tx : CTransaction) (peer : NodeId) (now : Int)
      (r : TxOrphanage × Bool) : AddTx s tx peer now = some r → Step s r.1
  | eraseTx (s : TxOrphanage) (txid : TxId) (r : TxOrphanage × Int) :
      EraseTx s txid = some r → Step s r.1
  | eraseForPeer (s : TxOrphanage) (peer : NodeId) (t : TxOrphanage) :
      EraseForPeer s peer = some t → Step s t
  | eraseForBlock (s : TxOrphanage) (block : CBlock) (t : TxOrphanage) :
      EraseForBlock s block = some t → Step s t
  | limitOrphans (s : TxOrphanage) (nMaxOrphans : Nat) (nNow : Int) (rng : Nat → Nat)
      (r : TxOrphanage × Nat) : LimitOrphans s nMaxOrphans nNow rng = some r → Step s r.1

/-- The states reachable from the empty orphanage by the public mutations. -/
inductive Reachable : TxOrphanage → Prop
  | empty : Reachable TxOrphanage.empty
  | step (s t : TxOrphanage) : Reachable s → Step s t → Reachable t

/-! ## Example data -/

/-- Example orphan `A`: id 10, three inputs of which two name the outpoint
`(1, 0)`, 200 bytes. -/
def exTxA : CTransaction :=
  { id := 10, vin := [⟨⟨1, 0⟩⟩, ⟨⟨1, 0⟩⟩, ⟨⟨0, 3⟩⟩], vout := [], totalSize := 200 }

/-- Example orphan `B`: id 5, one input spending `(1, 0)`, of exactly the
maximum size. -/
def exTxB : CTransaction :=
  { id := 5, vin := [⟨⟨1, 0⟩⟩], vout := [⟨0⟩], totalSize := 100000 }

/-- Example transaction one byte over the maximum size. -/
def exTxBig : CTransaction :=
  { id := 77, vin := [⟨⟨2, 1⟩⟩], vout := [], totalSize := 100001 }

/-- The orphanage after `AddTx(A, 7)` at time 100 on the empty orphanage. -/
def exStateA : TxOrphanage :=
  { mapOrphanTransactions := [(10, ⟨exTxA, 7, 1300, 0⟩)]
    mapOrphanTransactionsByPrev := [(⟨0, 3⟩, [10]), (⟨1, 0⟩, [10])]
    g_orphan_list := [10]
    nNextSweep := 0 }

/-- The orphanage after a further `AddTx(B, 8)` at time 150. -/
def exStateAB : TxOrphanage :=
  { mapOrphanTransactions := [(5, ⟨exTxB, 8, 1350, 1⟩), (10, ⟨exTxA, 7, 1300, 0⟩)]
    mapOrphanTransactionsByPrev := [(⟨0, 3⟩, [10]), (⟨1, 0⟩, [5, 10])]
    g_orphan_list := [10, 5]
    nNextSweep := 0 }

/-- The orphanage after `EraseTx(10)` on the previous one: `B` moved to list
position 0. -/
def exStateB : TxOrphanage :=
  { mapOrphanTransactions := [(5, ⟨exTxB, 8, 1350, 0⟩)]
    mapOrphanTransactionsByPrev := [(⟨1, 0⟩, [5])]
    g_orphan_list := [5]
    nNextSweep := 0 }

/-! ## Auxiliary definitions for the proofs -/

/-- The common shape of the two erasing traversals (`EraseForPeer` and the
expiry sweep): visit the keys in order and erase the entries whose fixed part
satisfies `cond`. -/
def condEraseLoop (cond : CTransaction × NodeId × Int → Bool) :
    List TxId → TxOrphanage → Option TxOrphanage
  | [], s => some s
  | k :: rest, s =>
    match mapFind s.mapOrphanTransactions k with
    | none => none
    | some rec =>
      if cond rec.core = true then
        match EraseTx s rec.tx.id with
        | none => none
        | some r => condEraseLoop cond rest r.1
      else condEraseLoop cond rest s

/-- The fixed part of the record stored under `txid`, if any. -/
def coreAt (s : TxOrphanage) (txid : TxId) : Option (CTransaction × NodeId × Int) :=
  (mapFind s.mapOrphanTransactions txid).map COrphanTx.core

/-- An outpoint spent by an input of a transaction of the block. -/
def blockSpends (block : CBlock) (p : COutPoint) : Prop :=
  ∃ tx ∈ block.vtx, ∃ txin ∈ tx.vin, txin.prevout = p

instance (block : CBlock) (p : COutPoint) : Decidable (blockSpends block p) := by
  unfold blockSpends
  infer_instance

/-- Example orphans for the peer scenario: `A` (id 1) and `C` (id 3) spend
`(7, 0)`, `B` (id 2) spends `(7, 1)`. -/
def exTxP1 : CTransaction := { id := 1, vin := [⟨⟨7, 0⟩⟩], vout := [], totalSize := 150 }

/-- Example orphan `B` of the peer scenario. -/
def exTxP2 : CTransaction := { id := 2, vin := [⟨⟨7, 1⟩⟩], vout := [], totalSize := 150 }

/-- Example orphan `C` of the peer scenario. -/
def exTxP3 : CTransaction := { id := 3, vin := [⟨⟨7, 0⟩⟩], vout := [], totalSize := 150 }

/-- The orphanage after `AddTx(A, 1)`, `AddTx(B, 2)`, `AddTx(C, 1)` at time 0. -/
def exStatePeers : TxOrphanage :=
  { mapOrphanTransactions :=
      [(1, ⟨exTxP1, 1, 1200, 0⟩), (2, ⟨exTxP2, 2, 1200, 1⟩), (3, ⟨exTxP3, 1, 1200, 2⟩)]
    mapOrphanTransactionsByPrev := [(⟨7, 0⟩, [1, 3]), (⟨7, 1⟩, [2])]
    g_orphan_list := [1, 2, 3]
    nNextSweep := 0 }

/-- The peer scenario after `EraseForPeer(1)`: only `B` is left, at list
position 0. -/
def exStatePeersB : TxOrphanage :=
  { mapOrphanTransactions := [(2, ⟨exTxP2, 2, 1200, 0⟩)]
    mapOrphanTransactionsByPrev := [(⟨7, 1⟩, [2])]
    g_orphan_list := [2]
    nNextSweep := 0 }

/-- Example block transaction `T` spending the outpoint `(1, 0)` that the
example orphans `A` and `B` spend. -/
def exTxSpend : CTransaction :=
  { id := 50, vin := [⟨⟨1, 0⟩⟩], vout := [⟨0⟩], totalSize := 120 }

/-- Example block transaction with id 1 and one output, the parent that the
example orphan `A` refers to by its input `(1, 0)`; it spends `(99, 0)`. -/
def exTxParent : CTransaction :=
  { id := 1, vin := [⟨⟨99, 0⟩⟩], vout := [⟨5⟩], totalSize := 120 }

/-- The two-orphan example after `LimitOrphans(5)` at time 200: nothing is
removed and the next sweep is due at time 1400. -/
def exStateABSwept : TxOrphanage := { exStateAB with nNextSweep := 1400 }

/-- Every id resident in both `s` and `t` has in `t` the transaction, source
peer and expiry it has in `s`. -/
def RecordsKept (s t : TxOrphanage) : Prop :=
  ∀ j rec rec2, mapFind s.mapOrphanTransactions j = some rec →
    mapFind t.mapOrphanTransactions j = some rec2 →
    rec2.tx = rec.tx ∧ rec2.fromPeer = rec.fromPeer ∧ rec2.nTimeExpire = rec.nTimeExpire

/-! ## Container lemmas -/

section ContainerLemmas

variable {K V : Type} [LinearOrder K]

theorem mapFind_isSome_iff (m : List (K × V)) (k : K) :
    (mapFind m k).isSome = true ↔ k ∈ mapKeys m := by
  induction m with
  | nil => simp [mapFind, mapKeys]
  | cons e l ih =>
    obtain ⟨a, w⟩ := e
    by_cases h : a = k
    · simp [mapFind, mapKeys, h]
    · have h2 : ¬ k = a := fun c => h c.symm
      simp only [mapFind, h, if_false, ih]
      simp [mapKeys, h2]

theorem mapFind_eq_none_iff (m : List (K × V)) (k : K) :
    mapFind m k = none ↔ k ∉ mapKeys m := by
  rw [← mapFind_isSome_iff]
  cases mapFind m k <;> simp

theorem mapFind_mem (m : List (K × V)) (k : K) (v : V) (h : mapFind m k = some v) :
    (k, v) ∈ m := by
  induction m with
  | nil => simp [mapFind] at h
  | cons e l ih =>
    obtain ⟨a, w⟩ := e
    by_cases c : a = k
    · simp [mapFind, c] at h
      simp [c, h]
    · simp only [mapFind, c, if_false] at h
      exact List.mem_cons_of_mem _ (ih h)

theorem mapFind_of_mem (m : List (K × V)) (hs : (mapKeys m).Pairwise (· < ·))
    (k : K) (v : V) (h : (k, v) ∈ m) : mapFind m k = some v := by
  induction m with
  | nil => simp at h
  | cons e l ih =>
    obtain ⟨a, w⟩ := e
    simp only [mapKeys, List.map_cons, List.pairwise_cons] at hs
    rcases List.mem_cons.1 h with h1 | h1
    · injection h1 with h2 h3
      simp [mapFind, h2, h3]
    · have hk : k ∈ l.map Prod.fst := List.mem_map.2 ⟨(k, v), h1, rfl⟩
      have hlt : a < k := hs.1 k hk
      simp only [mapFind, ne_of_lt hlt, if_false]
      exact ih hs.2 h1

theorem mapEmplace_cons_lt (l : List (K × V)) (a k : K) (w v : V) (h : k < a) :
    mapEmplace ((a, w) :: l) k v = ((k, v) :: (a, w) :: l, true) := by
  simp [mapEmplace, h]

theorem mapEmplace_cons_gt (l : List (K × V)) (a k : K) (w v : V) (h : a < k) :
    mapEmplace ((a, w) :: l) k v = ((a, w) :: (mapEmplace l k v).1, (mapEmplace l k v).2) := by
  simp [mapEmplace, h, not_lt_of_gt h]

theorem mapEmplace_cons_eq (l : List (K × V)) (k : K) (w v : V) :
    mapEmplace ((k, w) :: l) k v = ((k, w) :: l, false) := by
  simp [mapEmplace]

theorem mapFind_cons_eq (l : List (K × V)) (k : K) (w : V) :
    mapFind ((k, w) :: l) k = some w := by
  simp [mapFind]

theorem mapFind_cons_ne (l : List (K × V)) (a k : K) (w : V) (h : a ≠ k) :
    mapFind ((a, w) :: l) k = mapFind l k := by
  simp [mapFind, h]

theorem mapFind_emplace_of_none (m : List (K × V)) (k j : K) (v : V)
    (h : mapFind m k = none) :
    mapFind (mapEmplace m k v).1 j = if j = k then some v else mapFind m j := by
  induction m with
  | nil =>
    by_cases c : j = k
    · simp [mapEmplace, mapFind, c]
    · have c2 : ¬ k = j := fun e => c e.symm
      simp [mapEmplace, mapFind, c, c2]
  | cons e l ih =>
    obtain ⟨a, w⟩ := e
    have hak : a ≠ k := by
      intro c
      simp [mapFind, c] at h
    have hl : mapFind l k = none := by
      rw [mapFind_cons_ne l a k w hak] at h
      exact h
    by_cases c1 : k < a
    · rw [mapEmplace_cons_lt l a k w v c1]
      by_cases c : j = k
      · rw [if_pos c, c]
        exact mapFind_cons_eq _ _ _
      · rw [if_neg c]
        exact mapFind_cons_ne _ _ _ _ (fun e => c e.symm)
    · have c3 : a < k := lt_of_le_of_ne (not_lt.1 c1) hak
      rw [mapEmplace_cons_gt l a k w v c3]
      by_cases c4 : a = j
      · subst c4
        rw [mapFind_cons_eq, if_neg hak, mapFind_cons_eq]
      · rw [mapFind_cons_ne _ _ _ _ c4, mapFind_cons_ne _ _ _ _ c4]
        exact ih hl

theorem mapEmplace_snd_of_none (m : List (K × V)) (k : K) (v : V)
    (h : mapFind m k = none) : (mapEmplace m k v).2 = true := by
  induction m with
  | nil => simp [mapEmplace]
  | cons e l ih =>
    obtain ⟨a, w⟩ := e
    have hak : a ≠ k := by
      intro c
      simp [mapFind, c] at h
    have hl : mapFind l k = none := by
      rw [mapFind_cons_ne l a k w hak] at h
      exact h
    by_cases c1 : k < a
    · rw [mapEmplace_cons_lt l a k w v c1]
    · have c3 : a < k := lt_of_le_of_ne (not_lt.1 c1) hak
      rw [mapEmplace_cons_gt l a k w v c3]
      exact ih hl

theorem mapEmplace_length_of_none (m : List (K × V)) (k : K) (v : V)
    (h : mapFind m k = none) : (mapEmplace m k v).1.length = m.length + 1 := by
  induction m with
  | nil => simp [mapEmplace]
  | cons e l ih =>
    obtain ⟨a, w⟩ := e
    have hak : a ≠ k := by
      intro c
      simp [mapFind, c] at h
    have hl : mapFind l k = none := by
      rw [mapFind_cons_ne l a k w hak] at h
      exact h
    by_cases c1 : k < a
    · rw [mapEmplace_cons_lt l a k w v c1]
      simp
    · have c3 : a < k := lt_of_le_of_ne (not_lt.1 c1) hak
      rw [mapEmplace_cons_gt l a k w v c3]
      simp [ih hl]

theorem mem_keys_emplace (m : List (K × V)) (k j : K) (v : V) :
    j ∈ mapKeys (mapEmplace m k v).1 ↔ j = k ∨ j ∈ mapKeys m := by
  induction m with
  | nil => simp [mapEmplace, mapKeys]
  | cons e l ih =>
    obtain ⟨a, w⟩ := e
    by_cases c1 : k < a
    · rw [mapEmplace_cons_lt l a k w v c1]
      simp [mapKeys]
    · by_cases c3 : a < k
      · rw [mapEmplace_cons_gt l a k w v c3]
        simp only [mapKeys] at ih
        simp only [mapKeys, List.map_cons, List.mem_cons, ih]
        tauto
      · have hak : a = k := le_antisymm (not_lt.1 c1) (not_lt.1 c3)
        subst hak
        rw [mapEmplace_cons_eq]
        simp only [mapKeys, List.map_cons, List.mem_cons]
        tauto

theorem sorted_emplace (m : List (K × V)) (k : K) (v : V)
    (hs : (mapKeys m).Pairwise (· < ·)) :
    (mapKeys (mapEmplace m k v).1).Pairwise (· < ·) := by
  induction m with
  | nil => simp [mapEmplace, mapKeys]
  | cons e l ih =>
    obtain ⟨a, w⟩ := e
    have hs2 := hs
    simp only [mapKeys, List.map_cons, List.pairwise_cons] at hs2
    by_cases c1 : k < a
    · rw [mapEmplace_cons_lt l a k w v c1]
      simp only [mapKeys, List.map_cons, List.pairwise_cons]
      refine ⟨?_, hs2⟩
      intro x hx
      rcases List.mem_cons.1 hx with hx | hx
      · rw [hx]; exact c1
      · exact lt_trans c1 (hs2.1 x hx)
    · by_cases c3 : a < k
      · have ih2 := ih hs2.2
        rw [mapEmplace_cons_gt l a k w v c3]
        simp only [mapKeys, List.map_cons, List.pairwise_cons]
        refine ⟨?_, ih2⟩
        intro x hx
        rcases (mem_keys_emplace l k x v).1 hx with hx | hx
        · rw [hx]; exact c3
        · exact hs2.1 x hx
      · have hak : a = k := le_antisymm (not_lt.1 c1) (not_lt.1 c3)
        subst hak
        rw [mapEmplace_cons_eq]
        exact hs

theorem mapEmplace_of_some (m : List (K × V)) (k : K) (v w : V)
    (hs : (mapKeys m).Pairwise (· < ·)) (h : mapFind m k = some w) :
    (mapEmplace m k v).1 = m := by
  induction m with
  | nil => simp [mapFind] at h
  | cons e l ih =>
    obtain ⟨a, u⟩ := e
    have hs2 := hs
    simp only [mapKeys, List.map_cons, List.pairwise_cons] at hs2
    by_cases c : a = k
    · subst c
      rw [mapEmplace_cons_eq]
    · rw [mapFind_cons_ne _ _ _ _ c] at h
      have hk : k ∈ mapKeys l := (mapFind_isSome_iff l k).1 (by simp [h])
      have c3 : a < k := hs2.1 k hk
      rw [mapEmplace_cons_gt l a k u v c3, ih hs2.2 h]

theorem mapFind_emplace_sorted (m : List (K × V)) (k j : K) (v : V)
    (hs : (mapKeys m).Pairwise (· < ·)) :
    mapFind (mapEmplace m k v).1 j =
      if j = k then some ((mapFind m k).getD v) else mapFind m j := by
  cases hf : mapFind m k with
  | none => simpa using mapFind_emplace_of_none m k j v hf
  | some w =>
    rw [mapEmplace_of_some m k v w hs hf]
    by_cases c : j = k
    · simp [c, hf]
    · simp [c]

theorem mapFind_erase_ne (m : List (K × V)) (k j : K) (h : j ≠ k) :
    mapFind (mapErase m k) j = mapFind m j := by
  induction m with
  | nil => simp [mapErase]
  | cons e l ih =>
    obtain ⟨a, w⟩ := e
    by_cases c : a = k
    · subst c
      simp only [mapErase, if_true]
      rw [mapFind_cons_ne _ _ _ _ (fun e => h e.symm)]
    · simp only [mapErase, c, if_false]
      by_cases c2 : a = j
      · subst c2
        rw [mapFind_cons_eq, mapFind_cons_eq]
      · rw [mapFind_cons_ne _ _ _ _ c2, mapFind_cons_ne _ _ _ _ c2, ih]

theorem mapKeys_erase_sublist (m : List (K × V)) (k : K) :
    (mapKeys (mapErase m k)).Sublist (mapKeys m) := by
  induction m with
  | nil => simp [mapErase, mapKeys]
  | cons e l ih =>
    obtain ⟨a, w⟩ := e
    by_cases c : a = k
    · simp only [mapErase, c, if_true, mapKeys, List.map_cons]
      exact List.sublist_cons_self _ _
    · simp only [mapErase, c, if_false, mapKeys, List.map_cons]
      exact List.Sublist.cons₂ _ ih

theorem sorted_erase (m : List (K × V)) (k : K)
    (hs : (mapKeys m).Pairwise (· < ·)) :
    (mapKeys (mapErase m k)).Pairwise (· < ·) :=
  List.Pairwise.sublist (mapKeys_erase_sublist m k) hs

theorem mapFind_erase_self (m : List (K × V)) (k : K)
    (hs : (mapKeys m).Pairwise (· < ·)) :
    mapFind (mapErase m k) k = none := by
  induction m with
  | nil => simp [mapErase, mapFind]
  | cons e l ih =>
    obtain ⟨a, w⟩ := e
    have hs2 := hs
    simp only [mapKeys, List.map_cons, List.pairwise_cons] at hs2
    by_cases c : a = k
    · subst c
      simp only [mapErase, if_true]
      rw [mapFind_eq_none_iff]
      intro hk
      exact lt_irrefl _ (hs2.1 a hk)
    · simp only [mapErase, c, if_false]
      rw [mapFind_cons_ne _ _ _ _ c]
      exact ih hs2.2

theorem mapErase_length (m : List (K × V)) (k : K) (v : V) (h : mapFind m k = some v) :
    (mapErase m k).length + 1 = m.length := by
  induction m with
  | nil => simp [mapFind] at h
  | cons e l ih =>
    obtain ⟨a, w⟩ := e
    by_cases c : a = k
    · simp [mapErase, c]
    · rw [mapFind_cons_ne _ _ _ _ c] at h
      simp [mapErase, c, ih h]

theorem mapErase_of_none (m : List (K × V)) (k : K) (h : mapFind m k = none) :
    mapErase m k = m := by
  induction m with
  | nil => simp [mapErase]
  | cons e l ih =>
    obtain ⟨a, w⟩ := e
    by_cases c : a = k
    · simp [mapFind, c] at h
    · rw [mapFind_cons_ne _ _ _ _ c] at h
      simp [mapErase, c, ih h]

theorem mapFind_modify (m : List (K × V)) (k j : K) (f : V → V) :
    mapFind (mapModify m k f) j = if j = k then (mapFind m k).map f else mapFind m j := by
  induction m with
  | nil => simp [mapModify, mapFind]
  | cons e l ih =>
    obtain ⟨a, w⟩ := e
    by_cases c : a = k
    · subst c
      simp only [mapModify, if_true]
      by_cases c2 : j = a
      · subst c2
        simp [mapFind]
      · have c3 : a ≠ j := fun e => c2 e.symm
        rw [mapFind_cons_ne _ _ _ _ c3, mapFind_cons_ne _ _ _ _ c3, if_neg c2]
    · simp only [mapModify, c, if_false]
      by_cases c2 : a = j
      · subst c2
        rw [mapFind_cons_eq, mapFind_cons_eq, if_neg c]
      · rw [mapFind_cons_ne _ _ _ _ c2, mapFind_cons_ne _ _ _ _ c2, ih,
          mapFind_cons_ne _ _ _ _ c]

theorem mapKeys_modify (m : List (K × V)) (k : K) (f : V → V) :
    mapKeys (mapModify m k f) = mapKeys m := by
  induction m with
  | nil => simp [mapModify]
  | cons e l ih =>
    obtain ⟨a, w⟩ := e
    simp only [mapKeys] at ih
    by_cases c : a = k
    · simp [mapModify, c, mapKeys]
    · simp [mapModify, c, mapKeys, ih]

theorem mapModify_length (m : List (K × V)) (k : K) (f : V → V) :
    (mapModify m k f).length = m.length := by
  have h := congrArg List.length (mapKeys_modify m k f)
  simpa [mapKeys] using h

theorem mapErase_modify_self (m : List (K × V)) (k : K) (f : V → V) :
    mapErase (mapModify m k f) k = mapErase m k := by
  induction m with
  | nil => simp [mapModify]
  | cons e l ih =>
    obtain ⟨a, w⟩ := e
    by_cases c : a = k
    · simp [mapModify, mapErase, c]
    · simp [mapModify, mapErase, c, ih]

theorem mem_setInsert (s : List K) (k x : K) :
    x ∈ setInsert s k ↔ x = k ∨ x ∈ s := by
  induction s with
  | nil => simp [setInsert]
  | cons a l ih =>
    by_cases c1 : k < a
    · simp [setInsert, c1]
    · by_cases c3 : a < k
      · simp only [setInsert, c1, c3, if_true, if_false, List.mem_cons, ih]
        tauto
      · have hak : a = k := le_antisymm (not_lt.1 c1) (not_lt.1 c3)
        subst hak
        simp only [setInsert, lt_irrefl, if_false, List.mem_cons]
        tauto

theorem sorted_setInsert (s : List K) (k : K) (hs : s.Pairwise (· < ·)) :
    (setInsert s k).Pairwise (· < ·) := by
  induction s with
  | nil => simp [setInsert]
  | cons a l ih =>
    have hs2 := hs
    simp only [List.pairwise_cons] at hs2
    by_cases c1 : k < a
    · simp only [setInsert, c1, if_true, List.pairwise_cons]
      refine ⟨?_, hs2⟩
      intro x hx
      rcases List.mem_cons.1 hx with hx | hx
      · rw [hx]; exact c1
      · exact lt_trans c1 (hs2.1 x hx)
    · by_cases c3 : a < k
      · simp only [setInsert, c1, c3, if_true, if_false, List.pairwise_cons]
        refine ⟨?_, ih hs2.2⟩
        intro x hx
        rcases (mem_setInsert l k x).1 hx with hx | hx
        · rw [hx]; exact c3
        · exact hs2.1 x hx
      · simpa [setInsert, c1, c3] using hs

theorem setInsert_idem (s : List K) (k : K) :
    setInsert (setInsert s k) k = setInsert s k := by
  induction s with
  | nil => simp [setInsert]
  | cons a l ih =>
    by_cases c1 : k < a
    · simp [setInsert, c1]
    · by_cases c3 : a < k
      · simp [setInsert, c1, c3, ih]
      · simp [setInsert, c1, c3]

theorem setInsert_ne_nil (s : List K) (k : K) : setInsert s k ≠ [] := by
  intro h
  have : k ∈ setInsert s k := (mem_setInsert s k k).2 (Or.inl rfl)
  rw [h] at this
  simp at this

theorem sorted_setErase (s : List K) (k : K) (hs : s.Pairwise (· < ·)) :
    (setErase s k).Pairwise (· < ·) :=
  List.Pairwise.sublist (List.erase_sublist k s) hs

theorem nodup_of_sorted (s : List K) (hs : s.Pairwise (· < ·)) : s.Nodup :=
  List.Pairwise.imp (fun h => ne_of_lt h) hs

theorem mem_setErase (s : List K) (k x : K) (hs : s.Pairwise (· < ·)) :
    x ∈ setErase s k ↔ x ≠ k ∧ x ∈ s :=
  List.Nodup.mem_erase_iff (nodup_of_sorted s hs)

theorem setErase_setInsert (s : List K) (k : K) (h : k ∉ s) :
    setErase (setInsert s k) k = s := by
  induction s with
  | nil => simp [setInsert, setErase]
  | cons a l ih =>
    have hak : a ≠ k := fun c => h (by simp [c])
    have hl : k ∉ l := fun c => h (List.mem_cons_of_mem _ c)
    by_cases c1 : k < a
    · simp [setInsert, c1, setErase]
    · have c3 : a < k := lt_of_le_of_ne (not_lt.1 c1) hak
      have ih2 := ih hl
      simp only [setErase] at ih2
      simp [setInsert, c1, c3, setErase, List.erase_cons_tail, hak, ih2]

end ContainerLemmas


/-! ## Reverse-index lemmas -/

theorem sorted_byPrevInsert (m : List (COutPoint × List TxId)) (p : COutPoint) (h : TxId)
    (hs : (mapKeys m).Pairwise (· < ·)) :
    (mapKeys (byPrevInsert m p h)).Pairwise (· < ·) := by
  unfold byPrevInsert
  rw [mapKeys_modify]
  exact sorted_emplace m p [] hs

theorem mapFind_byPrevInsert (m : List (COutPoint × List TxId)) (p q : COutPoint) (h : TxId)
    (hs : (mapKeys m).Pairwise (· < ·)) :
    mapFind (byPrevInsert m p h) q =
      if q = p then some (setInsert ((mapFind m p).getD []) h) else mapFind m q := by
  unfold byPrevInsert
  rw [mapFind_modify, mapFind_emplace_sorted m p p [] hs, mapFind_emplace_sorted m p q [] hs]
  by_cases c : q = p
  · simp [c]
  · simp [c]

theorem sorted_byPrevInsertAll (vin : List CTxIn) (h : TxId) :
    ∀ m : List (COutPoint × List TxId), (mapKeys m).Pairwise (· < ·) →
      (mapKeys (byPrevInsertAll m vin h)).Pairwise (· < ·) := by
  induction vin with
  | nil => intro m hs; exact hs
  | cons x l ih =>
    intro m hs
    exact ih _ (sorted_byPrevInsert m x.prevout h hs)

theorem mapFind_byPrevInsertAll (vin : List CTxIn) (h : TxId) :
    ∀ (m : List (COutPoint × List TxId)) (q : COutPoint), (mapKeys m).Pairwise (· < ·) →
      mapFind (byPrevInsertAll m vin h) q =
        if (∃ txin ∈ vin, txin.prevout = q) then some (setInsert ((mapFind m q).getD []) h)
        else mapFind m q := by
  induction vin with
  | nil => intro m q _; simp [byPrevInsertAll]
  | cons x l ih =>
    intro m q hs
    have e : byPrevInsertAll m (x :: l) h = byPrevInsertAll (byPrevInsert m x.prevout h) l h := rfl
    rw [e, ih _ q (sorted_byPrevInsert m x.prevout h hs), mapFind_byPrevInsert m x.prevout q h hs]
    by_cases c1 : q = x.prevout
    · subst c1
      by_cases c2 : ∃ txin ∈ l, txin.prevout = x.prevout
      · simp [c2, setInsert_idem]
      · simp [c2]
    · have c3 : ¬ x.prevout = q := fun e => c1 e.symm
      by_cases c2 : ∃ txin ∈ l, txin.prevout = q
      · simp [c1, c2, c3]
      · simp [c1, c2, c3]

theorem sorted_byPrevErase (m : List (COutPoint × List TxId)) (p : COutPoint) (h : TxId)
    (hs : (mapKeys m).Pairwise (· < ·)) :
    (mapKeys (byPrevErase m p h)).Pairwise (· < ·) := by
  unfold byPrevErase
  cases mapFind m p with
  | none => exact hs
  | some b =>
    by_cases c : setErase b h = []
    · simp only [c, if_true]
      exact sorted_erase m p hs
    · simp only [c, if_false]
      rw [mapKeys_modify]
      exact hs

theorem mapFind_byPrevErase (m : List (COutPoint × List TxId)) (p q : COutPoint) (h : TxId)
    (hs : (mapKeys m).Pairwise (· < ·)) :
    mapFind (byPrevErase m p h) q =
      if q = p then eraseView h (mapFind m p) else mapFind m q := by
  unfold byPrevErase
  cases hf : mapFind m p with
  | none =>
    by_cases c : q = p
    · simp [c, hf, eraseView]
    · simp [c]
  | some b =>
    by_cases c : setErase b h = []
    · simp only [c, if_true, eraseView]
      by_cases c2 : q = p
      · rw [if_pos c2, c2]
        exact mapFind_erase_self m p hs
      · rw [if_neg c2]
        exact mapFind_erase_ne m p q c2
    · simp only [c, if_false, eraseView]
      rw [mapFind_modify]
      by_cases c2 : q = p
      · simp [c2, hf]
      · simp [c2]

theorem eraseView_idem (h : TxId) (o : Option (List TxId))
    (hs : ∀ b, o = some b → b.Pairwise (· < ·)) :
    eraseView h (eraseView h o) = eraseView h o := by
  cases o with
  | none => rfl
  | some b =>
    have hb := hs b rfl
    have hn : h ∉ setErase b h := by
      intro c
      exact ((mem_setErase b h h hb).1 c).1 rfl
    have e : setErase (setErase b h) h = setErase b h := by
      unfold setErase at hn ⊢
      exact List.erase_of_not_mem hn
    by_cases c : setErase b h = []
    · simp [eraseView, c]
    · simp [eraseView, c, e]

theorem eraseView_sorted (h : TxId) (o : Option (List TxId))
    (hs : ∀ b, o = some b → b.Pairwise (· < ·)) :
    ∀ b, eraseView h o = some b → b.Pairwise (· < ·) := by
  intro b hb
  cases o with
  | none => simp [eraseView] at hb
  | some c =>
    by_cases e : setErase c h = []
    · simp [eraseView, e] at hb
    · simp only [eraseView, e, if_false, Option.some.injEq] at hb
      rw [← hb]
      exact sorted_setErase c h (hs c rfl)

theorem byPrevEraseAll_spec (vin : List CTxIn) (h : TxId) :
    ∀ m : List (COutPoint × List TxId), (mapKeys m).Pairwise (· < ·) →
      (∀ p b, mapFind m p = some b → b.Pairwise (· < ·)) →
      (mapKeys (byPrevEraseAll m vin h)).Pairwise (· < ·) ∧
      ∀ q, mapFind (byPrevEraseAll m vin h) q =
        if (∃ txin ∈ vin, txin.prevout = q) then eraseView h (mapFind m q)
        else mapFind m q := by
  induction vin with
  | nil => intro m hs _; exact ⟨hs, fun q => by simp [byPrevEraseAll]⟩
  | cons x l ih =>
    intro m hs hb
    have e : byPrevEraseAll m (x :: l) h = byPrevEraseAll (byPrevErase m x.prevout h) l h := rfl
    have hs1 := sorted_byPrevErase m x.prevout h hs
    have hb1 : ∀ p b, mapFind (byPrevErase m x.prevout h) p = some b → b.Pairwise (· < ·) := by
      intro p b hp
      rw [mapFind_byPrevErase m x.prevout p h hs] at hp
      by_cases c : p = x.prevout
      · rw [if_pos c] at hp
        exact eraseView_sorted h _ (fun b hb2 => hb _ b hb2) b hp
      · rw [if_neg c] at hp
        exact hb p b hp
    obtain ⟨ih1, ih2⟩ := ih _ hs1 hb1
    rw [e]
    refine ⟨ih1, ?_⟩
    intro q
    rw [ih2 q, mapFind_byPrevErase m x.prevout q h hs]
    by_cases c1 : q = x.prevout
    · subst c1
      by_cases c2 : ∃ txin ∈ l, txin.prevout = x.prevout
      · simp [c2, eraseView_idem h _ (fun b hb2 => hb _ b hb2)]
      · simp [c2]
    · have c3 : ¬ x.prevout = q := fun e => c1 e.symm
      by_cases c2 : ∃ txin ∈ l, txin.prevout = q
      · simp [c1, c2, c3]
      · simp [c1, c2, c3]

/-! ## Positional-list lemmas -/

theorem listOK_iff (m : List (TxId × COrphanTx)) (l : List TxId) :
    ListOK m l ↔ l.length = m.length ∧
      ∀ i, i < l.length →
        ∃ h rec, l[i]? = some h ∧ mapFind m h = some rec ∧ rec.list_pos = i := by
  unfold ListOK
  constructor
  · rintro ⟨h1, h2⟩
    refine ⟨h1, fun i hi => ?_⟩
    obtain ⟨h, hh, rec, hr, hp⟩ := h2 i hi
    exact ⟨h, rec, hh, hr, hp⟩
  · rintro ⟨h1, h2⟩
    refine ⟨h1, fun i hi => ?_⟩
    obtain ⟨h, rec, hh, hr, hp⟩ := h2 i hi
    exact ⟨h, hh, rec, hr, hp⟩

theorem compactList_core (m : List (TxId × COrphanTx)) (l : List TxId) (p : Nat)
    (m' : List (TxId × COrphanTx)) (l' : List TxId)
    (hc : compactList m l p = some (m', l')) :
    mapKeys m' = mapKeys m ∧
    ∀ j, (mapFind m' j).map COrphanTx.core = (mapFind m j).map COrphanTx.core := by
  unfold compactList at hc
  by_cases c : p + 1 = l.length
  · simp only [c, ne_eq, not_true_eq_false, if_false, Option.some.injEq, Prod.mk.injEq] at hc
    rw [← hc.1]
    exact ⟨rfl, fun _ => rfl⟩
  · simp only [c, ne_eq, not_false_eq_true, if_true] at hc
    cases hl : l.getLast? with
    | none => simp [hl] at hc
    | some it_last =>
      cases hf : mapFind m it_last with
      | none => simp [hl, hf] at hc
      | some r =>
        simp only [hl, hf, Option.some.injEq, Prod.mk.injEq] at hc
        rw [← hc.1]
        refine ⟨mapKeys_modify _ _ _, fun j => ?_⟩
        rw [mapFind_modify]
        by_cases c2 : j = it_last
        · simp [c2, hf, COrphanTx.core]
        · simp [c2]

theorem compactList_listOK (m : List (TxId × COrphanTx)) (l : List TxId) (txid : TxId)
    (rec : COrphanTx) (m' : List (TxId × COrphanTx)) (l' : List TxId)
    (hok : ListOK m l) (hf : mapFind m txid = some rec)
    (hl : l[rec.list_pos]? = some txid)
    (hc : compactList m l rec.list_pos = some (m', l')) :
    ListOK (mapErase m' txid) l' := by
  rw [listOK_iff] at hok ⊢
  obtain ⟨hlen, hpos⟩ := hok
  obtain ⟨hp, -⟩ := List.getElem?_eq_some.1 hl
  have huniq : ∀ i h r, l[i]? = some h → mapFind m h = some r → r.list_pos = i →
      h = txid → i = rec.list_pos := by
    intro i h r _ hr hi e
    rw [e, hf] at hr
    injection hr with hr
    rw [← hi, ← hr]
  unfold compactList at hc
  by_cases c : rec.list_pos + 1 = l.length
  · simp only [c, ne_eq, not_true_eq_false, if_false, Option.some.injEq, Prod.mk.injEq] at hc
    rw [← hc.1, ← hc.2]
    have hlen2 := mapErase_length m txid rec hf
    refine ⟨by rw [List.length_dropLast]; omega, ?_⟩
    intro i hi
    rw [List.length_dropLast] at hi
    obtain ⟨h, r, h1, h2, h3⟩ := hpos i (by omega)
    refine ⟨h, r, ?_, ?_, h3⟩
    · rw [List.getElem?_dropLast, if_pos hi]
      exact h1
    · have hne : h ≠ txid := by
        intro e
        have := huniq i h r h1 h2 h3 e
        omega
      rw [mapFind_erase_ne m txid h hne]
      exact h2
  · simp only [c, ne_eq, not_false_eq_true, if_true] at hc
    cases hlast : l.getLast? with
    | none => simp [hlast] at hc
    | some it_last =>
      cases hfl : mapFind m it_last with
      | none => simp [hlast, hfl] at hc
      | some rl =>
        simp only [hlast, hfl, Option.some.injEq, Prod.mk.injEq] at hc
        rw [← hc.1, ← hc.2]
        rw [List.getLast?_eq_getElem?] at hlast
        obtain ⟨h0, r0, e1, e2, e3⟩ := hpos (l.length - 1) (by omega)
        rw [hlast] at e1
        injection e1 with e1
        subst e1
        rw [hfl] at e2
        injection e2 with e2
        subst e2
        have hlt : it_last ≠ txid := by
          intro e
          have := huniq (l.length - 1) it_last rl hlast hfl e3 e
          omega
        have hft : mapFind (mapModify m it_last
            (fun r => { r with list_pos := rec.list_pos })) txid = some rec := by
          rw [mapFind_modify, if_neg (fun e => hlt e.symm)]
          exact hf
        have hlen2 := mapErase_length _ txid rec hft
        rw [mapModify_length] at hlen2
        refine ⟨by rw [List.length_dropLast, List.length_set]; omega, ?_⟩
        intro i hi
        rw [List.length_dropLast, List.length_set] at hi
        rw [List.getElem?_dropLast, List.length_set, if_pos hi, List.getElem?_set]
        by_cases ci : rec.list_pos = i
        · rw [if_pos ci, if_pos hp]
          refine ⟨it_last, { rl with list_pos := rec.list_pos }, rfl, ?_, ci⟩
          rw [mapFind_erase_ne _ txid it_last hlt, mapFind_modify, if_pos rfl, hfl]
          rfl
        · rw [if_neg ci]
          obtain ⟨h, r, h1, h2, h3⟩ := hpos i (by omega)
          have hne : h ≠ txid := by
            intro e
            exact ci (huniq i h r h1 h2 h3 e).symm
          have hne2 : h ≠ it_last := by
            intro e
            rw [e, hfl] at h2
            injection h2 with h2
            rw [← h2] at h3
            omega
          refine ⟨h, r, h1, ?_, h3⟩
          rw [mapFind_erase_ne _ txid h hne, mapFind_modify, if_neg hne2]
          exact h2

theorem listOK_nodup (m : List (TxId × COrphanTx)) (l : List TxId) (hok : ListOK m l) :
    l.Nodup := by
  rw [listOK_iff] at hok
  obtain ⟨-, hpos⟩ := hok
  rw [List.nodup_iff_getElem?_ne_getElem?]
  intro i j hij hj e
  obtain ⟨h1, r1, a1, a2, a3⟩ := hpos i (by omega)
  obtain ⟨h2, r2, b1, b2, b3⟩ := hpos j hj
  rw [a1, b1] at e
  injection e with e
  rw [e, b2] at a2
  injection a2 with a2
  rw [a2] at b3
  omega

theorem listOK_subset (m : List (TxId × COrphanTx)) (l : List TxId) (hok : ListOK m l) :
    l ⊆ mapKeys m := by
  rw [listOK_iff] at hok
  obtain ⟨-, hpos⟩ := hok
  intro x hx
  obtain ⟨n, hn⟩ := List.mem_iff_getElem?.1 hx
  obtain ⟨hlt, -⟩ := List.getElem?_eq_some.1 hn
  obtain ⟨h, r, a1, a2, -⟩ := hpos n hlt
  rw [hn] at a1
  injection a1 with a1
  rw [← mapFind_isSome_iff, a1, a2]
  rfl

theorem listOK_handle (m : List (TxId × COrphanTx)) (l : List TxId) (hok : ListOK m l)
    (txid : TxId) (rec : COrphanTx)
    (hf : mapFind m txid = some rec) : l[rec.list_pos]? = some txid := by
  have hsub := List.subperm_of_subset (listOK_nodup m l hok) (listOK_subset m l hok)
  have hlen : (mapKeys m).length ≤ l.length := by
    rw [hok.1]
    simp [mapKeys]
  have hperm := List.Subperm.perm_of_length_le hsub hlen
  have hk : txid ∈ mapKeys m := (mapFind_isSome_iff m txid).1 (by simp [hf])
  have hx : txid ∈ l := (List.Perm.mem_iff hperm).2 hk
  obtain ⟨n, hn⟩ := List.mem_iff_getElem?.1 hx
  obtain ⟨hlt, -⟩ := List.getElem?_eq_some.1 hn
  rw [listOK_iff] at hok
  obtain ⟨h, r, a1, a2, a3⟩ := hok.2 n hlt
  rw [hn] at a1
  injection a1 with a1
  rw [← a1, hf] at a2
  injection a2 with a2
  rw [a2, a3]
  exact hn

theorem compactList_isSome (m : List (TxId × COrphanTx)) (l : List TxId) (p : Nat)
    (hok : ListOK m l) (hp : p < l.length) : ∃ r, compactList m l p = some r := by
  rw [listOK_iff] at hok
  unfold compactList
  by_cases c : p + 1 = l.length
  · simp [c]
  · obtain ⟨h, r, a1, a2, -⟩ := hok.2 (l.length - 1) (by omega)
    rw [← List.getLast?_eq_getElem?] at a1
    simp [c, a1, a2]

theorem eraseTx_absent (s : TxOrphanage) (txid : TxId)
    (h : mapFind s.mapOrphanTransactions txid = none) : EraseTx s txid = some (s, 0) := by
  simp [EraseTx, h]

theorem eraseTx_cases (s : TxOrphanage) (txid : TxId) (r : TxOrphanage × Int)
    (h : EraseTx s txid = some r) :
    (mapFind s.mapOrphanTransactions txid = none ∧ r = (s, 0)) ∨
    ∃ rec m l, mapFind s.mapOrphanTransactions txid = some rec ∧
      s.g_orphan_list[rec.list_pos]? = some txid ∧
      compactList s.mapOrphanTransactions s.g_orphan_list rec.list_pos = some (m, l) ∧
      r = ({ mapOrphanTransactions := mapErase m txid
             mapOrphanTransactionsByPrev :=
               byPrevEraseAll s.mapOrphanTransactionsByPrev rec.tx.vin txid
             g_orphan_list := l
             nNextSweep := s.nNextSweep }, 1) := by
  unfold EraseTx at h
  cases hf : mapFind s.mapOrphanTransactions txid with
  | none =>
    left
    simp only [hf, Option.some.injEq] at h
    exact ⟨rfl, h.symm⟩
  | some rec =>
    right
    simp only [hf] at h
    cases hl : s.g_orphan_list[rec.list_pos]? with
    | none => simp [hl] at h
    | some x =>
      simp only [hl] at h
      by_cases c : x = txid
      · subst c
        simp only [ne_eq, not_true_eq_false, if_false] at h
        cases hc : compactList s.mapOrphanTransactions s.g_orphan_list rec.list_pos with
        | none => simp [hc] at h
        | some ml =>
          obtain ⟨m, l⟩ := ml
          simp only [hc, Option.some.injEq] at h
          exact ⟨rec, m, l, rfl, hl, hc, h.symm⟩
      · simp [c] at h

theorem eraseTx_present (s : TxOrphanage) (txid : TxId) (rec : COrphanTx)
    (hok : ListInv s)
    (hf : mapFind s.mapOrphanTransactions txid = some rec) :
    ∃ m l, compactList s.mapOrphanTransactions s.g_orphan_list rec.list_pos = some (m, l) ∧
      EraseTx s txid = some
        ({ mapOrphanTransactions := mapErase m txid
           mapOrphanTransactionsByPrev :=
             byPrevEraseAll s.mapOrphanTransactionsByPrev rec.tx.vin txid
           g_orphan_list := l
           nNextSweep := s.nNextSweep }, 1) := by
  have hl := listOK_handle _ _ hok txid rec hf
  obtain ⟨hp, -⟩ := List.getElem?_eq_some.1 hl
  obtain ⟨⟨m, l⟩, hc⟩ := compactList_isSome _ _ rec.list_pos hok hp
  refine ⟨m, l, hc, ?_⟩
  simp [EraseTx, hf, hl, hc]

theorem eraseTx_total (s : TxOrphanage) (txid : TxId) (hok : ListInv s) :
    ∃ r, EraseTx s txid = some r := by
  cases hf : mapFind s.mapOrphanTransactions txid with
  | none => exact ⟨_, eraseTx_absent s txid hf⟩
  | some rec =>
    obtain ⟨m, l, -, h⟩ := eraseTx_present s txid rec hok hf
    exact ⟨_, h⟩

/-! ## `EraseTx` preserves the invariants -/

theorem map_core_eq_some (o : Option COrphanTx) (o' : Option COrphanTx) (r : COrphanTx)
    (h : o'.map COrphanTx.core = o.map COrphanTx.core) (hr : o' = some r) :
    ∃ r0, o = some r0 ∧ r0.tx = r.tx ∧ r0.fromPeer = r.fromPeer ∧
      r0.nTimeExpire = r.nTimeExpire := by
  subst hr
  cases o with
  | none => simp at h
  | some r0 =>
    simp only [Option.map_some', Option.some.injEq, COrphanTx.core, Prod.mk.injEq] at h
    exact ⟨r0, rfl, h.1.symm, h.2.1.symm, h.2.2.symm⟩

theorem eraseTx_find_ne (s : TxOrphanage) (txid : TxId) (r : TxOrphanage × Int)
    (h : EraseTx s txid = some r) (j : TxId) (hj : j ≠ txid) :
    (mapFind r.1.mapOrphanTransactions j).map COrphanTx.core =
      (mapFind s.mapOrphanTransactions j).map COrphanTx.core := by
  rcases eraseTx_cases s txid r h with ⟨-, e⟩ | ⟨rec, m, l, -, -, hc, e⟩
  · rw [e]
  · rw [e]
    simp only
    rw [mapFind_erase_ne m txid j hj]
    exact (compactList_core _ _ _ m l hc).2 j

theorem eraseTx_find_self (s : TxOrphanage) (txid : TxId) (r : TxOrphanage × Int)
    (hs : (mapKeys s.mapOrphanTransactions).Pairwise (· < ·))
    (h : EraseTx s txid = some r) : mapFind r.1.mapOrphanTransactions txid = none := by
  rcases eraseTx_cases s txid r h with ⟨hf, e⟩ | ⟨rec, m, l, -, -, hc, e⟩
  · rw [e]
    exact hf
  · rw [e]
    simp only
    apply mapFind_erase_self
    rw [(compactList_core _ _ _ m l hc).1]
    exact hs

theorem eraseTx_listInv (s : TxOrphanage) (txid : TxId) (r : TxOrphanage × Int)
    (hok : ListInv s) (h : EraseTx s txid = some r) : ListInv r.1 := by
  rcases eraseTx_cases s txid r h with ⟨-, e⟩ | ⟨rec, m, l, hf, hl, hc, e⟩
  · rw [e]
    exact hok
  · rw [e]
    exact compactList_listOK _ _ txid rec m l hok hf hl hc

theorem eraseTx_wf (s : TxOrphanage) (txid : TxId) (r : TxOrphanage × Int)
    (hwf : WF s) (h : EraseTx s txid = some r) : WF r.1 := by
  obtain ⟨w1, w2, w3⟩ := hwf
  rcases eraseTx_cases s txid r h with ⟨-, e⟩ | ⟨rec, m, l, -, -, hc, e⟩
  · rw [e]
    exact ⟨w1, w2, w3⟩
  · rw [e]
    obtain ⟨b1, b2⟩ := byPrevEraseAll_spec rec.tx.vin txid _ w2 w3
    refine ⟨?_, b1, ?_⟩
    · apply sorted_erase
      rw [(compactList_core _ _ _ m l hc).1]
      exact w1
    · intro p b hp
      simp only at hp
      rw [b2 p] at hp
      by_cases c : ∃ txin ∈ rec.tx.vin, txin.prevout = p
      · rw [if_pos c] at hp
        exact eraseView_sorted txid _ (fun b hb => w3 p b hb) b hp
      · rw [if_neg c] at hp
        exact w3 p b hp

theorem eraseTx_keyInv (s : TxOrphanage) (txid : TxId) (r : TxOrphanage × Int)
    (hs : (mapKeys s.mapOrphanTransactions).Pairwise (· < ·))
    (hk : KeyInv s) (h : EraseTx s txid = some r) : KeyInv r.1 := by
  intro j rj hj
  by_cases c : j = txid
  · rw [c, eraseTx_find_self s txid r hs h] at hj
    simp at hj
  · have hc := eraseTx_find_ne s txid r h j c
    obtain ⟨r0, h0, h1, -, -⟩ := map_core_eq_some _ _ rj hc hj
    rw [← h1]
    exact hk j r0 h0

theorem eraseTx_byPrev (s : TxOrphanage) (txid : TxId) (r : TxOrphanage × Int)
    (hwf : WF s) (h : EraseTx s txid = some r) :
    (mapFind s.mapOrphanTransactions txid = none ∧ r = (s, 0)) ∨
    ∃ rec, mapFind s.mapOrphanTransactions txid = some rec ∧
      ∀ q, mapFind r.1.mapOrphanTransactionsByPrev q =
        if (∃ txin ∈ rec.tx.vin, txin.prevout = q)
        then eraseView txid (mapFind s.mapOrphanTransactionsByPrev q)
        else mapFind s.mapOrphanTransactionsByPrev q := by
  rcases eraseTx_cases s txid r h with ⟨hf, e⟩ | ⟨rec, m, l, hf, -, -, e⟩
  · exact Or.inl ⟨hf, e⟩
  · right
    refine ⟨rec, hf, ?_⟩
    rw [e]
    exact (byPrevEraseAll_spec rec.tx.vin txid _ hwf.2.1 hwf.2.2).2

theorem eraseView_mem (h x : TxId) (o : Option (List TxId)) (b : List TxId)
    (ho : o = some b) (hx : x ∈ b) (hne : x ≠ h) :
    ∃ b2, eraseView h o = some b2 ∧ x ∈ b2 := by
  subst ho
  have hm : x ∈ setErase b h := by
    unfold setErase
    exact (List.mem_erase_of_ne hne).2 hx
  have hn : setErase b h ≠ [] := by
    intro e
    rw [e] at hm
    simp at hm
  exact ⟨setErase b h, by simp [eraseView, hn], hm⟩

theorem eraseView_some (h : TxId) (o : Option (List TxId)) (b2 : List TxId)
    (hv : eraseView h o = some b2) :
    b2 ≠ [] ∧ ∃ b, o = some b ∧ b2 = setErase b h := by
  cases o with
  | none => simp [eraseView] at hv
  | some b =>
    by_cases c : setErase b h = []
    · simp [eraseView, c] at hv
    · simp only [eraseView, c, if_false, Option.some.injEq] at hv
      rw [← hv]
      exact ⟨c, b, rfl, rfl⟩

theorem eraseTx_revComplete (s : TxOrphanage) (txid : TxId) (r : TxOrphanage × Int)
    (hwf : WF s) (hc : RevComplete s) (h : EraseTx s txid = some r) : RevComplete r.1 := by
  intro j rj hj txin hin
  by_cases c : j = txid
  · rw [c, eraseTx_find_self s txid r hwf.1 h] at hj
    simp at hj
  · have hcore := eraseTx_find_ne s txid r h j c
    obtain ⟨r0, h0, h1, -, -⟩ := map_core_eq_some _ _ rj hcore hj
    rw [← h1] at hin
    obtain ⟨b, hb, hjb⟩ := hc j r0 h0 txin hin
    rcases eraseTx_byPrev s txid r hwf h with ⟨-, e⟩ | ⟨rec, -, hq⟩
    · rw [e]
      exact ⟨b, hb, hjb⟩
    · rw [hq txin.prevout]
      by_cases c2 : ∃ t ∈ rec.tx.vin, t.prevout = txin.prevout
      · rw [if_pos c2]
        exact eraseView_mem txid j _ b hb hjb c
      · rw [if_neg c2]
        exact ⟨b, hb, hjb⟩

theorem eraseTx_revSound (s : TxOrphanage) (txid : TxId) (r : TxOrphanage × Int)
    (hwf : WF s) (hsd : RevSound s) (h : EraseTx s txid = some r) : RevSound r.1 := by
  rcases eraseTx_byPrev s txid r hwf h with ⟨-, e⟩ | ⟨rec, hf, hq⟩
  · rw [e]
    exact hsd
  · intro p b2 hp
    rw [hq p] at hp
    have key : b2 ≠ [] ∧ ∃ b, mapFind s.mapOrphanTransactionsByPrev p = some b ∧
        ∀ x ∈ b2, x ∈ b ∧ x ≠ txid := by
      by_cases c2 : ∃ t ∈ rec.tx.vin, t.prevout = p
      · rw [if_pos c2] at hp
        obtain ⟨hne, b, hb, e⟩ := eraseView_some txid _ b2 hp
        refine ⟨hne, b, hb, ?_⟩
        intro x hx
        rw [e] at hx
        have := (mem_setErase b txid x (hwf.2.2 p b hb)).1 hx
        exact ⟨this.2, this.1⟩
      · rw [if_neg c2] at hp
        refine ⟨(hsd p b2 hp).1, b2, hp, ?_⟩
        intro x hx
        refine ⟨hx, ?_⟩
        intro e
        obtain ⟨rx, hrx, t, ht, htp⟩ := (hsd p b2 hp).2 x hx
        rw [e, hf] at hrx
        injection hrx with hrx
        rw [← hrx] at ht
        exact c2 ⟨t, ht, htp⟩
    obtain ⟨hne, b, hb, hall⟩ := key
    refine ⟨hne, ?_⟩
    intro x hx
    obtain ⟨hxb, hxne⟩ := hall x hx
    obtain ⟨rx, hrx, t, ht, htp⟩ := (hsd p b hb).2 x hxb
    have hcore := eraseTx_find_ne s txid r h x hxne
    rw [hrx] at hcore
    cases hfx : mapFind r.1.mapOrphanTransactions x with
    | none => simp [hfx] at hcore
    | some rx2 =>
      simp only [hfx, Option.map_some', Option.some.injEq, COrphanTx.core, Prod.mk.injEq] at hcore
      refine ⟨rx2, rfl, t, ?_, htp⟩
      rw [hcore.1]
      exact ht

theorem eraseTx_inv (s : TxOrphanage) (txid : TxId) (r : TxOrphanage × Int)
    (hi : Inv s) (h : EraseTx s txid = some r) : Inv r.1 := by
  obtain ⟨h1, h2, h3, h4, h5⟩ := hi
  exact ⟨eraseTx_wf s txid r h1 h, eraseTx_listInv s txid r h2 h,
    eraseTx_revComplete s txid r h1 h3 h, eraseTx_revSound s txid r h1 h4 h,
    eraseTx_keyInv s txid r h1.1 h5 h⟩

/-! ## `AddTx` -/

theorem mapCount_ne_zero_iff {K V : Type} [LinearOrder K] (m : List (K × V)) (k : K) :
    mapCount m k ≠ 0 ↔ (mapFind m k).isSome = true := by
  unfold mapCount
  cases mapFind m k <;> simp

/-- The state `AddTx` builds when it admits `tx`. -/
theorem addTx_eq (s : TxOrphanage) (tx : CTransaction) (peer : NodeId) (now : Int) :
    AddTx s tx peer now =
      if (mapFind s.mapOrphanTransactions tx.id).isSome = true ∨
          tx.totalSize > MAX_STANDARD_TX_SIZE then some (s, false)
      else some
        ({ mapOrphanTransactions := (mapEmplace s.mapOrphanTransactions tx.id
             { tx := tx, fromPeer := peer, nTimeExpire := now + ORPHAN_TX_EXPIRE_TIME,
               list_pos := s.g_orphan_list.length }).1
           mapOrphanTransactionsByPrev :=
             byPrevInsertAll s.mapOrphanTransactionsByPrev tx.vin tx.id
           g_orphan_list := s.g_orphan_list ++ [tx.id]
           nNextSweep := s.nNextSweep }, true) := by
  unfold AddTx
  by_cases c1 : (mapFind s.mapOrphanTransactions tx.id).isSome = true
  · have := (mapCount_ne_zero_iff s.mapOrphanTransactions tx.id).2 c1
    simp [this, c1]
  · have c1' : ¬ mapCount s.mapOrphanTransactions tx.id ≠ 0 :=
      fun h => c1 ((mapCount_ne_zero_iff s.mapOrphanTransactions tx.id).1 h)
    by_cases c2 : tx.totalSize > MAX_STANDARD_TX_SIZE
    · simp only [c1', c2, if_true, if_false, or_true]
    · have hn : mapFind s.mapOrphanTransactions tx.id = none := by
        cases hf : mapFind s.mapOrphanTransactions tx.id with
        | none => rfl
        | some x => simp [hf] at c1
      have hsnd := mapEmplace_snd_of_none s.mapOrphanTransactions tx.id
        { tx := tx, fromPeer := peer, nTimeExpire := now + ORPHAN_TX_EXPIRE_TIME,
          list_pos := s.g_orphan_list.length } hn
      simp [c1', c2, hsnd, hn]

theorem addTx_cases (s : TxOrphanage) (tx : CTransaction) (peer : NodeId) (now : Int)
    (r : TxOrphanage × Bool) (h : AddTx s tx peer now = some r) :
    (r = (s, false) ∧ ((mapFind s.mapOrphanTransactions tx.id).isSome = true ∨
        tx.totalSize > MAX_STANDARD_TX_SIZE)) ∨
    (mapFind s.mapOrphanTransactions tx.id = none ∧ tx.totalSize ≤ MAX_STANDARD_TX_SIZE ∧
      r = ({ mapOrphanTransactions := (mapEmplace s.mapOrphanTransactions tx.id
               { tx := tx, fromPeer := peer, nTimeExpire := now + ORPHAN_TX_EXPIRE_TIME,
                 list_pos := s.g_orphan_list.length }).1
             mapOrphanTransactionsByPrev :=
               byPrevInsertAll s.mapOrphanTransactionsByPrev tx.vin tx.id
             g_orphan_list := s.g_orphan_list ++ [tx.id]
             nNextSweep := s.nNextSweep }, true)) := by
  rw [addTx_eq] at h
  by_cases c : (mapFind s.mapOrphanTransactions tx.id).isSome = true ∨
      tx.totalSize > MAX_STANDARD_TX_SIZE
  · rw [if_pos c] at h
    injection h with h
    exact Or.inl ⟨h.symm, c⟩
  · rw [if_neg c] at h
    injection h with h
    right
    have c1 : mapFind s.mapOrphanTransactions tx.id = none := by
      cases hf : mapFind s.mapOrphanTransactions tx.id with
      | none => rfl
      | some x => exact absurd (Or.inl (by simp [hf])) c
    exact ⟨c1, not_lt.1 (fun h2 => c (Or.inr h2)), h.symm⟩

theorem addTx_listInv (s : TxOrphanage) (tx : CTransaction) (peer : NodeId) (now : Int)
    (r : TxOrphanage × Bool) (hok : ListInv s) (h : AddTx s tx peer now = some r) :
    ListInv r.1 := by
  rcases addTx_cases s tx peer now r h with ⟨e, -⟩ | ⟨hn, -, e⟩
  · rw [e]
    exact hok
  · rw [e]
    unfold ListInv at hok ⊢
    rw [listOK_iff] at hok ⊢
    obtain ⟨hlen, hpos⟩ := hok
    simp only
    refine ⟨by rw [mapEmplace_length_of_none _ _ _ hn]; simp [hlen], ?_⟩
    intro i hi
    rw [List.length_append, List.length_singleton] at hi
    by_cases c : i < s.g_orphan_list.length
    · obtain ⟨x, rx, a1, a2, a3⟩ := hpos i c
      refine ⟨x, rx, ?_, ?_, a3⟩
      · rw [List.getElem?_append_left c]
        exact a1
      · have hne : x ≠ tx.id := by
          intro e2
          rw [e2, hn] at a2
          simp at a2
        rw [mapFind_emplace_of_none _ _ _ _ hn, if_neg hne]
        exact a2
    · have hi2 : i = s.g_orphan_list.length := by omega
      subst hi2
      refine ⟨tx.id, COrphanTx.mk tx peer (now + ORPHAN_TX_EXPIRE_TIME) s.g_orphan_list.length,
        List.getElem?_concat_length _ _, ?_, rfl⟩
      rw [mapFind_emplace_of_none _ _ _ _ hn, if_pos rfl]

theorem addTx_wf (s : TxOrphanage) (tx : CTransaction) (peer : NodeId) (now : Int)
    (r : TxOrphanage × Bool) (hwf : WF s) (h : AddTx s tx peer now = some r) : WF r.1 := by
  obtain ⟨w1, w2, w3⟩ := hwf
  rcases addTx_cases s tx peer now r h with ⟨e, -⟩ | ⟨-, -, e⟩
  · rw [e]
    exact ⟨w1, w2, w3⟩
  · rw [e]
    refine ⟨sorted_emplace _ _ _ w1, sorted_byPrevInsertAll _ _ _ w2, ?_⟩
    intro p b hp
    simp only at hp
    rw [mapFind_byPrevInsertAll _ _ _ _ w2] at hp
    by_cases c : ∃ txin ∈ tx.vin, txin.prevout = p
    · rw [if_pos c] at hp
      injection hp with hp
      rw [← hp]
      apply sorted_setInsert
      cases hf : mapFind s.mapOrphanTransactionsByPrev p with
      | none => simp
      | some b0 => exact w3 p b0 hf
    · rw [if_neg c] at hp
      exact w3 p b hp

theorem addTx_keyInv (s : TxOrphanage) (tx : CTransaction) (peer : NodeId) (now : Int)
    (r : TxOrphanage × Bool) (hk : KeyInv s) (h : AddTx s tx peer now = some r) :
    KeyInv r.1 := by
  rcases addTx_cases s tx peer now r h with ⟨e, -⟩ | ⟨hn, -, e⟩
  · rw [e]
    exact hk
  · rw [e]
    intro j rj hj
    simp only at hj
    rw [mapFind_emplace_of_none _ _ _ _ hn] at hj
    by_cases c : j = tx.id
    · rw [if_pos c] at hj
      injection hj with hj
      rw [← hj, c]
    · rw [if_neg c] at hj
      exact hk j rj hj

theorem addTx_revComplete (s : TxOrphanage) (tx : CTransaction) (peer : NodeId) (now : Int)
    (r : TxOrphanage × Bool) (hwf : WF s) (hc : RevComplete s)
    (h : AddTx s tx peer now = some r) : RevComplete r.1 := by
  rcases addTx_cases s tx peer now r h with ⟨e, -⟩ | ⟨hn, -, e⟩
  · rw [e]
    exact hc
  · rw [e]
    intro j rj hj txin hin
    simp only at hj ⊢
    rw [mapFind_emplace_of_none _ _ _ _ hn] at hj
    rw [mapFind_byPrevInsertAll _ _ _ _ hwf.2.1]
    by_cases c : j = tx.id
    · rw [if_pos c] at hj
      injection hj with hj
      rw [← hj] at hin
      simp only at hin
      rw [if_pos ⟨txin, hin, rfl⟩]
      exact ⟨_, rfl, by rw [c]; exact (mem_setInsert _ _ _).2 (Or.inl rfl)⟩
    · rw [if_neg c] at hj
      obtain ⟨b, hb, hjb⟩ := hc j rj hj txin hin
      by_cases c2 : ∃ t ∈ tx.vin, t.prevout = txin.prevout
      · rw [if_pos c2]
        refine ⟨_, rfl, (mem_setInsert _ _ _).2 (Or.inr ?_)⟩
        rw [hb]
        exact hjb
      · rw [if_neg c2]
        exact ⟨b, hb, hjb⟩

theorem addTx_revSound (s : TxOrphanage) (tx : CTransaction) (peer : NodeId) (now : Int)
    (r : TxOrphanage × Bool) (hwf : WF s) (hsd : RevSound s)
    (h : AddTx s tx peer now = some r) : RevSound r.1 := by
  rcases addTx_cases s tx peer now r h with ⟨e, -⟩ | ⟨hn, -, e⟩
  · rw [e]
    exact hsd
  · rw [e]
    intro p b hp
    simp only at hp ⊢
    rw [mapFind_byPrevInsertAll _ _ _ _ hwf.2.1] at hp
    have old : ∀ b0, mapFind s.mapOrphanTransactionsByPrev p = some b0 → ∀ x ∈ b0,
        ∃ rec, mapFind (mapEmplace s.mapOrphanTransactions tx.id
          { tx := tx, fromPeer := peer, nTimeExpire := now + ORPHAN_TX_EXPIRE_TIME,
            list_pos := s.g_orphan_list.length }).1 x = some rec ∧
          ∃ txin ∈ rec.tx.vin, txin.prevout = p := by
      intro b0 hb0 x hx
      obtain ⟨rx, hrx, t, ht, htp⟩ := (hsd p b0 hb0).2 x hx
      have hne : x ≠ tx.id := by
        intro e2
        rw [e2, hn] at hrx
        simp at hrx
      refine ⟨rx, ?_, t, ht, htp⟩
      rw [mapFind_emplace_of_none _ _ _ _ hn, if_neg hne]
      exact hrx
    by_cases c : ∃ txin ∈ tx.vin, txin.prevout = p
    · rw [if_pos c] at hp
      injection hp with hp
      rw [← hp]
      refine ⟨setInsert_ne_nil _ _, ?_⟩
      intro x hx
      rcases (mem_setInsert _ _ _).1 hx with hx | hx
      · rw [hx, mapFind_emplace_of_none _ _ _ _ hn, if_pos rfl]
        exact ⟨_, rfl, c⟩
      · cases hf : mapFind s.mapOrphanTransactionsByPrev p with
        | none => simp [hf] at hx
        | some b0 =>
          rw [hf] at hx
          exact old b0 hf x hx
    · rw [if_neg c] at hp
      exact ⟨(hsd p b hp).1, old b hp⟩

theorem addTx_inv (s : TxOrphanage) (tx : CTransaction) (peer : NodeId) (now : Int)
    (r : TxOrphanage × Bool) (hi : Inv s) (h : AddTx s tx peer now = some r) : Inv r.1 := by
  obtain ⟨h1, h2, h3, h4, h5⟩ := hi
  exact ⟨addTx_wf s tx peer now r h1 h, addTx_listInv s tx peer now r h2 h,
    addTx_revComplete s tx peer now r h1 h3 h, addTx_revSound s tx peer now r h1 h4 h,
    addTx_keyInv s tx peer now r h5 h⟩

/-! ## Loops of `EraseTx` calls -/

theorem eraseForPeerLoop_preserves (P : TxOrphanage → Prop)
    (hE : ∀ s txid r, P s → EraseTx s txid = some r → P r.1) (peer : NodeId) :
    ∀ (ks : List TxId) (s t : TxOrphanage), P s → eraseForPeerLoop peer ks s = some t → P t := by
  intro ks
  induction ks with
  | nil =>
    intro s t hp h
    simp only [eraseForPeerLoop, Option.some.injEq] at h
    rw [← h]
    exact hp
  | cons k rest ih =>
    intro s t hp h
    unfold eraseForPeerLoop at h
    cases hf : mapFind s.mapOrphanTransactions k with
    | none => simp [hf] at h
    | some rec =>
      simp only [hf] at h
      by_cases c : rec.fromPeer = peer
      · simp only [c, if_true] at h
        cases he : EraseTx s rec.tx.id with
        | none => simp [he] at h
        | some r =>
          simp only [he] at h
          exact ih r.1 t (hE s rec.tx.id r hp he) h
      · simp only [c, if_false] at h
        exact ih s t hp h

theorem sweepLoop_preserves (P : TxOrphanage → Prop)
    (hE : ∀ s txid r, P s → EraseTx s txid = some r → P r.1) (nNow : Int) :
    ∀ (ks : List TxId) (s : TxOrphanage) (m : Int) (r : TxOrphanage × Int),
      P s → sweepLoop nNow ks s m = some r → P r.1 := by
  intro ks
  induction ks with
  | nil =>
    intro s m r hp h
    simp only [sweepLoop, Option.some.injEq] at h
    rw [← h]
    exact hp
  | cons k rest ih =>
    intro s m r hp h
    unfold sweepLoop at h
    cases hf : mapFind s.mapOrphanTransactions k with
    | none => simp [hf] at h
    | some rec =>
      simp only [hf] at h
      by_cases c : rec.nTimeExpire ≤ nNow
      · simp only [c, if_true] at h
        cases he : EraseTx s rec.tx.id with
        | none => simp [he] at h
        | some r1 =>
          simp only [he] at h
          exact ih r1.1 m r (hE s rec.tx.id r1 hp he) h
      · simp only [c, if_false] at h
        exact ih s _ r hp h

theorem evictLoop_preserves (P : TxOrphanage → Prop)
    (hE : ∀ s txid r, P s → EraseTx s txid = some r → P r.1) (rng : Nat → Nat)
    (nMaxOrphans : Nat) :
    ∀ (fuel : Nat) (s : TxOrphanage) (n : Nat) (r : TxOrphanage × Nat),
      P s → evictLoop rng nMaxOrphans fuel s n = some r → P r.1 := by
  intro fuel
  induction fuel with
  | zero =>
    intro s n r hp h
    unfold evictLoop at h
    by_cases c : s.mapOrphanTransactions.length > nMaxOrphans
    · simp [c] at h
    · simp only [c, if_false, Option.some.injEq] at h
      rw [← h]
      exact hp
  | succ fuel ih =>
    intro s n r hp h
    unfold evictLoop at h
    by_cases c : s.mapOrphanTransactions.length > nMaxOrphans
    · simp only [c, if_true] at h
      by_cases c0 : s.g_orphan_list.length = 0
      · simp [c0] at h
      · simp only [c0, if_false] at h
        cases hl : s.g_orphan_list[rng n % s.g_orphan_list.length]? with
        | none => simp [hl] at h
        | some x =>
          simp only [hl] at h
          cases hf : mapFind s.mapOrphanTransactions x with
          | none => simp [hf] at h
          | some rec =>
            simp only [hf] at h
            cases he : EraseTx s x with
            | none => simp [he] at h
            | some r1 =>
              simp only [he] at h
              exact ih r1.1 _ r (hE s x r1 hp he) h
    · simp only [c, if_false, Option.some.injEq] at h
      rw [← h]
      exact hp

theorem eraseAll_preserves (P : TxOrphanage → Prop)
    (hE : ∀ s txid r, P s → EraseTx s txid = some r → P r.1) :
    ∀ (ids : List TxId) (s t : TxOrphanage), P s → eraseAll ids s = some t → P t := by
  intro ids
  induction ids with
  | nil =>
    intro s t hp h
    simp only [eraseAll, Option.some.injEq] at h
    rw [← h]
    exact hp
  | cons k rest ih =>
    intro s t hp h
    unfold eraseAll at h
    cases he : EraseTx s k with
    | none => simp [he] at h
    | some r =>
      simp only [he] at h
      exact ih r.1 t (hE s k r hp he) h

theorem step_preserves (P : TxOrphanage → Prop)
    (hA : ∀ s tx peer now r, P s → AddTx s tx peer now = some r → P r.1)
    (hE : ∀ s txid r, P s → EraseTx s txid = some r → P r.1)
    (hN : ∀ (s : TxOrphanage) (n : Int), P s → P { s with nNextSweep := n })
    (s t : TxOrphanage) (hst : Step s t) (hp : P s) : P t := by
  cases hst with
  | addTx tx peer now r h => exact hA s tx peer now r hp h
  | eraseTx txid r h => exact hE s txid r hp h
  | eraseForPeer peer t0 h =>
    exact eraseForPeerLoop_preserves P hE peer _ s t hp h
  | eraseForBlock block t0 h =>
    unfold EraseForBlock at h
    cases hc : collectBlock s block.vtx with
    | none => simp [hc] at h
    | some ids =>
      simp only [hc] at h
      exact eraseAll_preserves P hE ids s t hp h
  | limitOrphans nMaxOrphans nNow rng r h =>
    unfold LimitOrphans at h
    cases hs : sweepPhase s nNow with
    | none => simp [hs] at h
    | some s1 =>
      simp only [hs] at h
      have hp1 : P s1 := by
        unfold sweepPhase at hs
        by_cases c : s.nNextSweep ≤ nNow
        · simp only [c, if_true] at hs
          cases hl : sweepLoop nNow (mapKeys s.mapOrphanTransactions) s
              (nNow + ORPHAN_TX_EXPIRE_TIME - ORPHAN_TX_EXPIRE_INTERVAL) with
          | none => simp [hl] at hs
          | some r1 =>
            simp only [hl, Option.some.injEq] at hs
            rw [← hs]
            exact hN _ _ (sweepLoop_preserves P hE nNow _ s _ r1 hp hl)
        · simp only [c, if_false, Option.some.injEq] at hs
          rw [← hs]
          exact hp
      exact evictLoop_preserves P hE rng nMaxOrphans _ s1 0 r hp1 h

theorem inv_empty : Inv TxOrphanage.empty := by
  refine ⟨?_, ?_, ?_, ?_, ?_⟩
  · refine ⟨?_, ?_, ?_⟩
    · simp [TxOrphanage.empty, mapKeys]
    · simp [TxOrphanage.empty, mapKeys]
    · intro p b h
      simp [TxOrphanage.empty, mapFind] at h
  · decide
  · intro j r h
    simp [TxOrphanage.empty, mapFind] at h
  · intro p b h
    simp [TxOrphanage.empty, mapFind] at h
  · intro j r h
    simp [TxOrphanage.empty, mapFind] at h

theorem step_inv (s t : TxOrphanage) (hst : Step s t) (hi : Inv s) : Inv t :=
  step_preserves Inv (fun s tx peer now r => addTx_inv s tx peer now r)
    (fun s txid r => eraseTx_inv s txid r) (fun _ _ h => h) s t hst hi

theorem reachable_inv (s : TxOrphanage) (h : Reachable s) : Inv s := by
  induction h with
  | empty => exact inv_empty
  | step s t _ hst ih => exact step_inv s t hst ih

theorem eraseTx_length (s : TxOrphanage) (txid : TxId) (r : TxOrphanage × Int)
    (h : EraseTx s txid = some r) (hres : Resident s txid) :
    r.2 = 1 ∧ r.1.mapOrphanTransactions.length + 1 = s.mapOrphanTransactions.length := by
  unfold Resident at hres
  rcases eraseTx_cases s txid r h with ⟨hf, -⟩ | ⟨rec, m, l, hf, -, hc, e⟩
  · rw [hf] at hres
    simp at hres
  · rw [e]
    refine ⟨rfl, ?_⟩
    simp only
    obtain ⟨hk, hcore⟩ := compactList_core _ _ _ m l hc
    have h1 := hcore txid
    rw [hf] at h1
    cases hm : mapFind m txid with
    | none => simp [hm] at h1
    | some rm =>
      rw [mapErase_length m txid rm hm]
      have := congrArg List.length hk
      simpa [mapKeys] using this

theorem eraseTx_resident_iff (s : TxOrphanage) (txid : TxId) (r : TxOrphanage × Int)
    (hs : (mapKeys s.mapOrphanTransactions).Pairwise (· < ·))
    (h : EraseTx s txid = some r) (j : TxId) :
    Resident r.1 j ↔ (Resident s j ∧ j ≠ txid) := by
  unfold Resident
  by_cases c : j = txid
  · rw [c, eraseTx_find_self s txid r hs h]
    simp
  · have hcore := eraseTx_find_ne s txid r h j c
    have : (mapFind r.1.mapOrphanTransactions j).isSome =
        (mapFind s.mapOrphanTransactions j).isSome := by
      have := congrArg Option.isSome hcore
      simpa using this
    rw [this]
    simp [c]

/-! ## The operations return on states satisfying the invariants -/

theorem resident_iff_some (s : TxOrphanage) (txid : TxId) :
    Resident s txid ↔ ∃ rec, mapFind s.mapOrphanTransactions txid = some rec := by
  unfold Resident
  cases mapFind s.mapOrphanTransactions txid <;> simp

theorem eraseForPeerLoop_total (peer : NodeId) :
    ∀ (ks : List TxId) (s : TxOrphanage), Inv s → ks.Nodup → (∀ k ∈ ks, Resident s k) →
      ∃ t, eraseForPeerLoop peer ks s = some t := by
  intro ks
  induction ks with
  | nil => intro s _ _ _; exact ⟨s, rfl⟩
  | cons k rest ih =>
    intro s hi hnd hres
    obtain ⟨rec, hf⟩ := (resident_iff_some s k).1 (hres k (List.mem_cons_self _ _))
    have hnd2 := List.nodup_cons.1 hnd
    unfold eraseForPeerLoop
    simp only [hf]
    by_cases c : rec.fromPeer = peer
    · simp only [c, if_true]
      have hid : rec.tx.id = k := hi.2.2.2.2 k rec hf
      rw [hid]
      obtain ⟨r, he⟩ := eraseTx_total s k hi.2.1
      simp only [he]
      apply ih r.1 (eraseTx_inv s k r hi he) hnd2.2
      intro j hj
      rw [eraseTx_resident_iff s k r hi.1.1 he j]
      refine ⟨hres j (List.mem_cons_of_mem _ hj), ?_⟩
      intro e
      rw [e] at hj
      exact hnd2.1 hj
    · simp only [c, if_false]
      exact ih s hi hnd2.2 (fun j hj => hres j (List.mem_cons_of_mem _ hj))

theorem sweepLoop_total (nNow : Int) :
    ∀ (ks : List TxId) (s : TxOrphanage) (m : Int), Inv s → ks.Nodup →
      (∀ k ∈ ks, Resident s k) → ∃ r, sweepLoop nNow ks s m = some r := by
  intro ks
  induction ks with
  | nil => intro s m _ _ _; exact ⟨(s, m), rfl⟩
  | cons k rest ih =>
    intro s m hi hnd hres
    obtain ⟨rec, hf⟩ := (resident_iff_some s k).1 (hres k (List.mem_cons_self _ _))
    have hnd2 := List.nodup_cons.1 hnd
    unfold sweepLoop
    simp only [hf]
    by_cases c : rec.nTimeExpire ≤ nNow
    · simp only [c, if_true]
      have hid : rec.tx.id = k := hi.2.2.2.2 k rec hf
      rw [hid]
      obtain ⟨r, he⟩ := eraseTx_total s k hi.2.1
      simp only [he]
      apply ih r.1 m (eraseTx_inv s k r hi he) hnd2.2
      intro j hj
      rw [eraseTx_resident_iff s k r hi.1.1 he j]
      refine ⟨hres j (List.mem_cons_of_mem _ hj), ?_⟩
      intro e
      rw [e] at hj
      exact hnd2.1 hj
    · simp only [c, if_false]
      exact ih s _ hi hnd2.2 (fun j hj => hres j (List.mem_cons_of_mem _ hj))

theorem keys_resident (s : TxOrphanage) :
    ∀ k ∈ mapKeys s.mapOrphanTransactions, Resident s k := by
  intro k hk
  exact (mapFind_isSome_iff _ _).2 hk

theorem evictLoop_total (rng : Nat → Nat) (nMaxOrphans : Nat) :
    ∀ (fuel : Nat) (s : TxOrphanage) (n : Nat), ListInv s →
      s.mapOrphanTransactions.length ≤ fuel + nMaxOrphans →
      ∃ r, evictLoop rng nMaxOrphans fuel s n = some r := by
  intro fuel
  induction fuel with
  | zero =>
    intro s n _ hlen
    unfold evictLoop
    have c : ¬ s.mapOrphanTransactions.length > nMaxOrphans := by omega
    simp [c]
  | succ fuel ih =>
    intro s n hok hlen
    unfold evictLoop
    by_cases c : s.mapOrphanTransactions.length > nMaxOrphans
    · simp only [c, if_true]
      have hok2 := hok
      unfold ListInv at hok2
      rw [listOK_iff] at hok2
      obtain ⟨hl, hpos⟩ := hok2
      have c0 : ¬ s.g_orphan_list.length = 0 := by omega
      simp only [c0, if_false]
      have hidx : rng n % s.g_orphan_list.length < s.g_orphan_list.length :=
        Nat.mod_lt _ (by omega)
      obtain ⟨h, rec, a1, a2, -⟩ := hpos _ hidx
      simp only [a1, a2]
      obtain ⟨r, he⟩ := eraseTx_total s h hok
      simp only [he]
      have hlen2 := (eraseTx_length s h r he ((resident_iff_some s h).2 ⟨rec, a2⟩)).2
      exact ih r.1 (n + 1) (eraseTx_listInv s h r hok he) (by omega)
    · simp [c]

theorem eraseAll_total :
    ∀ (ids : List TxId) (s : TxOrphanage), ListInv s → ∃ t, eraseAll ids s = some t := by
  intro ids
  induction ids with
  | nil => intro s _; exact ⟨s, rfl⟩
  | cons k rest ih =>
    intro s hok
    obtain ⟨r, he⟩ := eraseTx_total s k hok
    unfold eraseAll
    simp only [he]
    exact ih r.1 (eraseTx_listInv s k r hok he)

theorem bucketIds_total (s : TxOrphanage) :
    ∀ b : List TxId, (∀ h ∈ b, Resident s h) → ∃ ids, bucketIds s b = some ids := by
  intro b
  induction b with
  | nil => intro _; exact ⟨[], rfl⟩
  | cons h l ih =>
    intro hres
    obtain ⟨rec, hf⟩ := (resident_iff_some s h).1 (hres h (List.mem_cons_self _ _))
    obtain ⟨ids, hl⟩ := ih (fun x hx => hres x (List.mem_cons_of_mem _ hx))
    exact ⟨rec.tx.id :: ids, by simp [bucketIds, hf, hl]⟩

theorem collectInputs_total (s : TxOrphanage) (hsd : RevSound s) :
    ∀ vin : List CTxIn, ∃ ids, collectInputs s vin = some ids := by
  intro vin
  induction vin with
  | nil => exact ⟨[], rfl⟩
  | cons txin l ih =>
    obtain ⟨more, hm⟩ := ih
    unfold collectInputs
    cases hf : mapFind s.mapOrphanTransactionsByPrev txin.prevout with
    | none => exact ⟨more, by simp [hm]⟩
    | some b =>
      have hres : ∀ h ∈ b, Resident s h := by
        intro h hh
        obtain ⟨rec, hrec, -⟩ := (hsd _ b hf).2 h hh
        exact (resident_iff_some s h).2 ⟨rec, hrec⟩
      obtain ⟨ids, hb⟩ := bucketIds_total s b hres
      exact ⟨ids ++ more, by simp [hb, hm]⟩

theorem collectBlock_total (s : TxOrphanage) (hsd : RevSound s) :
    ∀ vtx : List CTransaction, ∃ ids, collectBlock s vtx = some ids := by
  intro vtx
  induction vtx with
  | nil => exact ⟨[], rfl⟩
  | cons tx l ih =>
    obtain ⟨more, hm⟩ := ih
    obtain ⟨ids, hi⟩ := collectInputs_total s hsd tx.vin
    exact ⟨ids ++ more, by simp [collectBlock, hi, hm]⟩

theorem eraseForPeer_total (s : TxOrphanage) (peer : NodeId) (hi : Inv s) :
    ∃ t, EraseForPeer s peer = some t :=
  eraseForPeerLoop_total peer _ s hi (nodup_of_sorted _ hi.1.1) (keys_resident s)

theorem eraseForBlock_total (s : TxOrphanage) (block : CBlock) (hi : Inv s) :
    ∃ t, EraseForBlock s block = some t := by
  obtain ⟨ids, hc⟩ := collectBlock_total s hi.2.2.2.1 block.vtx
  obtain ⟨t, ht⟩ := eraseAll_total ids s hi.2.1
  exact ⟨t, by simp [EraseForBlock, hc, ht]⟩

theorem sweepPhase_total (s : TxOrphanage) (nNow : Int) (hi : Inv s) :
    ∃ s1, sweepPhase s nNow = some s1 ∧ Inv s1 := by
  unfold sweepPhase
  by_cases c : s.nNextSweep ≤ nNow
  · simp only [c, if_true]
    obtain ⟨r, hr⟩ := sweepLoop_total nNow _ s
      (nNow + ORPHAN_TX_EXPIRE_TIME - ORPHAN_TX_EXPIRE_INTERVAL) hi
      (nodup_of_sorted _ hi.1.1) (keys_resident s)
    simp only [hr]
    refine ⟨_, rfl, ?_⟩
    exact sweepLoop_preserves Inv (fun s txid r => eraseTx_inv s txid r) nNow _ s _ r hi hr
  · simp only [c, if_false]
    exact ⟨s, rfl, hi⟩

theorem limitOrphans_total (s : TxOrphanage) (nMaxOrphans : Nat) (nNow : Int)
    (rng : Nat → Nat) (hi : Inv s) : ∃ r, LimitOrphans s nMaxOrphans nNow rng = some r := by
  obtain ⟨s1, h1, hi1⟩ := sweepPhase_total s nNow hi
  obtain ⟨r, hr⟩ := evictLoop_total rng nMaxOrphans s1.mapOrphanTransactions.length s1 0
    hi1.2.1 (by omega)
  exact ⟨r, by simp [LimitOrphans, h1, hr]⟩

/-! ## Erasing traversals -/

theorem eraseTx_coreAt (s : TxOrphanage) (txid : TxId) (r : TxOrphanage × Int)
    (hs : (mapKeys s.mapOrphanTransactions).Pairwise (· < ·))
    (h : EraseTx s txid = some r) (j : TxId) :
    coreAt r.1 j = if j = txid then none else coreAt s j := by
  unfold coreAt
  by_cases c : j = txid
  · rw [if_pos c, c, eraseTx_find_self s txid r hs h]
    rfl
  · rw [if_neg c]
    exact eraseTx_find_ne s txid r h j c

theorem eraseTx_nNextSweep (s : TxOrphanage) (txid : TxId) (r : TxOrphanage × Int)
    (h : EraseTx s txid = some r) : r.1.nNextSweep = s.nNextSweep := by
  rcases eraseTx_cases s txid r h with ⟨-, e⟩ | ⟨rec, m, l, -, -, -, e⟩
  · rw [e]
  · rw [e]

theorem coreAt_some_iff (s : TxOrphanage) (j : TxId) (c : CTransaction × NodeId × Int) :
    coreAt s j = some c ↔ ∃ rec, mapFind s.mapOrphanTransactions j = some rec ∧ rec.core = c := by
  unfold coreAt
  cases mapFind s.mapOrphanTransactions j with
  | none => simp
  | some rec => simp

theorem coreAt_isSome (s : TxOrphanage) (j : TxId) :
    (coreAt s j).isSome = true ↔ Resident s j := by
  unfold coreAt Resident
  cases mapFind s.mapOrphanTransactions j <;> simp

theorem condEraseLoop_spec (cond : CTransaction × NodeId × Int → Bool) :
    ∀ (ks : List TxId) (s : TxOrphanage), Inv s → ks.Nodup → (∀ k ∈ ks, Resident s k) →
      ∃ t, condEraseLoop cond ks s = some t ∧ Inv t ∧ t.nNextSweep = s.nNextSweep ∧
        ∀ j, coreAt t j =
          if j ∈ ks then (coreAt s j).filter (fun c => !cond c) else coreAt s j := by
  intro ks
  induction ks with
  | nil =>
    intro s hi _ _
    exact ⟨s, rfl, hi, rfl, fun j => by simp⟩
  | cons k rest ih =>
    intro s hi hnd hres
    obtain ⟨rec, hf⟩ := (resident_iff_some s k).1 (hres k (List.mem_cons_self _ _))
    have hnd2 := List.nodup_cons.1 hnd
    have hck : coreAt s k = some rec.core := by
      unfold coreAt
      rw [hf]
      rfl
    unfold condEraseLoop
    simp only [hf]
    by_cases c : cond rec.core = true
    · simp only [c, if_true]
      have hid : rec.tx.id = k := hi.2.2.2.2 k rec hf
      rw [hid]
      obtain ⟨r, he⟩ := eraseTx_total s k hi.2.1
      simp only [he]
      have hres2 : ∀ j ∈ rest, Resident r.1 j := by
        intro j hj
        rw [eraseTx_resident_iff s k r hi.1.1 he j]
        refine ⟨hres j (List.mem_cons_of_mem _ hj), ?_⟩
        intro e
        rw [e] at hj
        exact hnd2.1 hj
      obtain ⟨t, ht, hit, hn, hcore⟩ := ih r.1 (eraseTx_inv s k r hi he) hnd2.2 hres2
      refine ⟨t, ht, hit, by rw [hn, eraseTx_nNextSweep s k r he], ?_⟩
      intro j
      rw [hcore j, eraseTx_coreAt s k r hi.1.1 he j]
      by_cases cj : j = k
      · subst cj
        simp [Option.filter, hnd2.1, hck, c]
      · simp [cj]
    · simp only [c, if_false]
      obtain ⟨t, ht, hit, hn, hcore⟩ := ih s hi hnd2.2
        (fun j hj => hres j (List.mem_cons_of_mem _ hj))
      refine ⟨t, ht, hit, hn, ?_⟩
      intro j
      rw [hcore j]
      by_cases cj : j = k
      · subst cj
        simp [Option.filter, hnd2.1, hck, c]
      · simp [cj]

theorem coreAt_not_mem_keys (s : TxOrphanage) (j : TxId)
    (h : j ∉ mapKeys s.mapOrphanTransactions) : coreAt s j = none := by
  unfold coreAt
  rw [(mapFind_eq_none_iff _ _).2 h]
  rfl

theorem condEraseLoop_all (cond : CTransaction × NodeId × Int → Bool) (s : TxOrphanage)
    (hi : Inv s) :
    ∃ t, condEraseLoop cond (mapKeys s.mapOrphanTransactions) s = some t ∧ Inv t ∧
      t.nNextSweep = s.nNextSweep ∧
      ∀ j, coreAt t j = (coreAt s j).filter (fun c => !cond c) := by
  obtain ⟨t, ht, hit, hn, hcore⟩ := condEraseLoop_spec cond _ s hi
    (nodup_of_sorted _ hi.1.1) (keys_resident s)
  refine ⟨t, ht, hit, hn, ?_⟩
  intro j
  rw [hcore j]
  by_cases c : j ∈ mapKeys s.mapOrphanTransactions
  · rw [if_pos c]
  · rw [if_neg c, coreAt_not_mem_keys s j c]
    rfl

theorem eraseForPeerLoop_eq (peer : NodeId) :
    ∀ (ks : List TxId) (s : TxOrphanage),
      eraseForPeerLoop peer ks s = condEraseLoop (fun c => decide (c.2.1 = peer)) ks s := by
  intro ks
  induction ks with
  | nil => intro s; rfl
  | cons k rest ih =>
    intro s
    unfold eraseForPeerLoop condEraseLoop
    cases hf : mapFind s.mapOrphanTransactions k with
    | none => rfl
    | some rec =>
      simp only [COrphanTx.core, decide_eq_true_eq]
      by_cases c : rec.fromPeer = peer
      · simp only [c, if_true]
        cases he : EraseTx s rec.tx.id with
        | none => rfl
        | some r => exact ih r.1
      · simp only [c, if_false]
        exact ih s

theorem sweepLoop_fst (nNow : Int) :
    ∀ (ks : List TxId) (s : TxOrphanage) (m : Int),
      (sweepLoop nNow ks s m).map Prod.fst =
        condEraseLoop (fun c => decide (c.2.2 ≤ nNow)) ks s := by
  intro ks
  induction ks with
  | nil => intro s m; rfl
  | cons k rest ih =>
    intro s m
    unfold sweepLoop condEraseLoop
    cases hf : mapFind s.mapOrphanTransactions k with
    | none => rfl
    | some rec =>
      simp only [COrphanTx.core, decide_eq_true_eq]
      by_cases c : rec.nTimeExpire ≤ nNow
      · simp only [c, if_true]
        cases he : EraseTx s rec.tx.id with
        | none => rfl
        | some r => exact ih r.1 m
      · simp only [c, if_false]
        exact ih s _

theorem mem_keys_iff_entry (s : TxOrphanage) (hs : (mapKeys s.mapOrphanTransactions).Pairwise (· < ·))
    (j : TxId) (rec : COrphanTx) :
    mapFind s.mapOrphanTransactions j = some rec ↔ (j, rec) ∈ s.mapOrphanTransactions :=
  ⟨fun h => mapFind_mem _ _ _ h, fun h => mapFind_of_mem _ hs _ _ h⟩

theorem filtered_length (s t : TxOrphanage) (q : CTransaction × NodeId × Int → Bool)
    (hs : (mapKeys s.mapOrphanTransactions).Pairwise (· < ·))
    (ht : (mapKeys t.mapOrphanTransactions).Pairwise (· < ·))
    (hcore : ∀ j, coreAt t j = (coreAt s j).filter q) :
    t.mapOrphanTransactions.length =
      (s.mapOrphanTransactions.filter (fun e => q e.2.core)).length := by
  have n1 : (mapKeys t.mapOrphanTransactions).Nodup := nodup_of_sorted _ ht
  have n2 : ((s.mapOrphanTransactions.filter (fun e => q e.2.core)).map Prod.fst).Nodup :=
    List.Nodup.sublist (List.Sublist.map Prod.fst (List.filter_sublist _))
      (nodup_of_sorted _ hs)
  have hp : (mapKeys t.mapOrphanTransactions).Perm
      ((s.mapOrphanTransactions.filter (fun e => q e.2.core)).map Prod.fst) := by
    rw [List.perm_ext_iff_of_nodup n1 n2]
    intro j
    rw [← mapFind_isSome_iff]
    have h1 : (mapFind t.mapOrphanTransactions j).isSome = (coreAt t j).isSome := by
      unfold coreAt
      cases mapFind t.mapOrphanTransactions j <;> rfl
    rw [h1, hcore j]
    constructor
    · intro h
      cases hf : mapFind s.mapOrphanTransactions j with
      | none => simp [coreAt, hf, Option.filter] at h
      | some rec =>
        have hq : q rec.core = true := by
          by_cases c : q rec.core = true
          · exact c
          · simp [coreAt, hf, Option.filter, c] at h
        exact List.mem_map.2 ⟨(j, rec), List.mem_filter.2 ⟨mapFind_mem _ _ _ hf, hq⟩, rfl⟩
    · intro h
      obtain ⟨e, he, hej⟩ := List.mem_map.1 h
      obtain ⟨hm, hq⟩ := List.mem_filter.1 he
      obtain ⟨a, rec⟩ := e
      simp only at hej hq
      subst hej
      have hf := mapFind_of_mem _ hs a rec hm
      simp [coreAt, hf, Option.filter, hq]
  have := List.Perm.length_eq hp
  simpa [mapKeys] using this

theorem eraseForPeer_spec (s : TxOrphanage) (peer : NodeId) (hi : Inv s) :
    ∃ t, EraseForPeer s peer = some t ∧ Inv t ∧ t.nNextSweep = s.nNextSweep ∧
      ∀ j, coreAt t j = (coreAt s j).filter (fun c => !decide (c.2.1 = peer)) := by
  unfold EraseForPeer
  rw [eraseForPeerLoop_eq]
  exact condEraseLoop_all _ s hi

theorem exStatePeers_reachable : Reachable exStatePeers :=
  Reachable.step _ exStatePeers
    (Reachable.step _ _
      (Reachable.step TxOrphanage.empty _ Reachable.empty
        (Step.addTx TxOrphanage.empty exTxP1 1 0
          (⟨[(1, ⟨exTxP1, 1, 1200, 0⟩)], [(⟨7, 0⟩, [1])], [1], 0⟩, true) (by decide)))
      (Step.addTx _ exTxP2 2 0
        (⟨[(1, ⟨exTxP1, 1, 1200, 0⟩), (2, ⟨exTxP2, 2, 1200, 1⟩)],
          [(⟨7, 0⟩, [1]), (⟨7, 1⟩, [2])], [1, 2], 0⟩, true) (by decide)))
    (Step.addTx _ exTxP3 1 0 (exStatePeers, true) (by decide))

/-! ## `EraseForBlock` -/

theorem eraseAll_spec :
    ∀ (ids : List TxId) (s : TxOrphanage), Inv s →
      ∃ t, eraseAll ids s = some t ∧ Inv t ∧ t.nNextSweep = s.nNextSweep ∧
        ∀ j, coreAt t j = if j ∈ ids then none else coreAt s j := by
  intro ids
  induction ids with
  | nil =>
    intro s hi
    exact ⟨s, rfl, hi, rfl, fun j => by simp⟩
  | cons k rest ih =>
    intro s hi
    obtain ⟨r, he⟩ := eraseTx_total s k hi.2.1
    obtain ⟨t, ht, hit, hn, hcore⟩ := ih r.1 (eraseTx_inv s k r hi he)
    refine ⟨t, by simp [eraseAll, he, ht], hit,
      by rw [hn, eraseTx_nNextSweep s k r he], ?_⟩
    intro j
    rw [hcore j, eraseTx_coreAt s k r hi.1.1 he j]
    by_cases c1 : j = k
    · subst c1
      simp
    · by_cases c2 : j ∈ rest
      · simp [c2]
      · simp [c1, c2]

theorem bucketIds_eq (s : TxOrphanage) (hk : KeyInv s) :
    ∀ b : List TxId, (∀ h ∈ b, Resident s h) → bucketIds s b = some b := by
  intro b
  induction b with
  | nil => intro _; rfl
  | cons h l ih =>
    intro hres
    obtain ⟨rec, hf⟩ := (resident_iff_some s h).1 (hres h (List.mem_cons_self _ _))
    have hl := ih (fun x hx => hres x (List.mem_cons_of_mem _ hx))
    simp [bucketIds, hf, hl, hk h rec hf]

theorem bucket_resident (s : TxOrphanage) (hsd : RevSound s) (p : COutPoint) (b : List TxId)
    (hb : mapFind s.mapOrphanTransactionsByPrev p = some b) : ∀ h ∈ b, Resident s h := by
  intro h hh
  obtain ⟨rec, hrec, -⟩ := (hsd p b hb).2 h hh
  exact (resident_iff_some s h).2 ⟨rec, hrec⟩

theorem collectInputs_mem (s : TxOrphanage) (hi : Inv s) :
    ∀ vin : List CTxIn, ∃ ids, collectInputs s vin = some ids ∧
      ∀ x, x ∈ ids ↔ ∃ txin ∈ vin, ∃ b,
        mapFind s.mapOrphanTransactionsByPrev txin.prevout = some b ∧ x ∈ b := by
  intro vin
  induction vin with
  | nil => exact ⟨[], rfl, fun x => by simp⟩
  | cons txin l ih =>
    obtain ⟨more, hm, hmem⟩ := ih
    cases hf : mapFind s.mapOrphanTransactionsByPrev txin.prevout with
    | none =>
      refine ⟨more, by simp [collectInputs, hf, hm], ?_⟩
      intro x
      rw [hmem x]
      constructor
      · rintro ⟨t, ht, b, hb, hx⟩
        exact ⟨t, List.mem_cons_of_mem _ ht, b, hb, hx⟩
      · rintro ⟨t, ht, b, hb, hx⟩
        rcases List.mem_cons.1 ht with e | ht
        · rw [e, hf] at hb
          simp at hb
        · exact ⟨t, ht, b, hb, hx⟩
    | some b =>
      have hb := bucketIds_eq s hi.2.2.2.2 b (bucket_resident s hi.2.2.2.1 _ b hf)
      refine ⟨b ++ more, by simp [collectInputs, hf, hb, hm], ?_⟩
      intro x
      rw [List.mem_append, hmem x]
      constructor
      · rintro (hx | ⟨t, ht, b2, hb2, hx⟩)
        · exact ⟨txin, List.mem_cons_self _ _, b, hf, hx⟩
        · exact ⟨t, List.mem_cons_of_mem _ ht, b2, hb2, hx⟩
      · rintro ⟨t, ht, b2, hb2, hx⟩
        rcases List.mem_cons.1 ht with e | ht
        · rw [e, hf] at hb2
          injection hb2 with hb2
          rw [← hb2] at hx
          exact Or.inl hx
        · exact Or.inr ⟨t, ht, b2, hb2, hx⟩

theorem collectBlock_mem (s : TxOrphanage) (hi : Inv s) :
    ∀ vtx : List CTransaction, ∃ ids, collectBlock s vtx = some ids ∧
      ∀ x, x ∈ ids ↔ ∃ tx ∈ vtx, ∃ txin ∈ tx.vin, ∃ b,
        mapFind s.mapOrphanTransactionsByPrev txin.prevout = some b ∧ x ∈ b := by
  intro vtx
  induction vtx with
  | nil => exact ⟨[], rfl, fun x => by simp⟩
  | cons tx l ih =>
    obtain ⟨more, hm, hmem⟩ := ih
    obtain ⟨ids, hc, hmem1⟩ := collectInputs_mem s hi tx.vin
    refine ⟨ids ++ more, by simp [collectBlock, hc, hm], ?_⟩
    intro x
    rw [List.mem_append, hmem x, hmem1 x]
    constructor
    · rintro (⟨txin, h1, h2⟩ | ⟨t, ht, h2⟩)
      · exact ⟨tx, List.mem_cons_self _ _, txin, h1, h2⟩
      · exact ⟨t, List.mem_cons_of_mem _ ht, h2⟩
    · rintro ⟨t, ht, txin, h1, h2⟩
      rcases List.mem_cons.1 ht with e | ht
      · rw [e] at h1
        exact Or.inl ⟨txin, h1, h2⟩
      · exact Or.inr ⟨t, ht, txin, h1, h2⟩

theorem bucket_mem_iff (s : TxOrphanage) (hi : Inv s) (p : COutPoint) (x : TxId) :
    (∃ b, mapFind s.mapOrphanTransactionsByPrev p = some b ∧ x ∈ b) ↔
      ∃ rec, mapFind s.mapOrphanTransactions x = some rec ∧
        ∃ txin ∈ rec.tx.vin, txin.prevout = p := by
  constructor
  · rintro ⟨b, hb, hx⟩
    exact (hi.2.2.2.1 p b hb).2 x hx
  · rintro ⟨rec, hrec, txin, hin, hp⟩
    have := hi.2.2.1 x rec hrec txin hin
    rw [hp] at this
    exact this

theorem eraseForBlock_spec (s : TxOrphanage) (block : CBlock) (hi : Inv s) :
    ∃ t, EraseForBlock s block = some t ∧ Inv t ∧ t.nNextSweep = s.nNextSweep ∧
      ∀ j, coreAt t j = (coreAt s j).filter
        (fun c => !decide (∃ txin ∈ c.1.vin, blockSpends block txin.prevout)) := by
  obtain ⟨ids, hc, hmem⟩ := collectBlock_mem s hi block.vtx
  obtain ⟨t, ht, hit, hn, hcore⟩ := eraseAll_spec ids s hi
  refine ⟨t, by simp [EraseForBlock, hc, ht], hit, hn, ?_⟩
  intro j
  rw [hcore j]
  have key : j ∈ ids ↔ ∃ rec, mapFind s.mapOrphanTransactions j = some rec ∧
      ∃ txin ∈ rec.tx.vin, blockSpends block txin.prevout := by
    rw [hmem j]
    constructor
    · rintro ⟨tx, htx, bin, hbin, hb⟩
      obtain ⟨rec, hrec, txin, hin, hp⟩ := (bucket_mem_iff s hi bin.prevout j).1 hb
      exact ⟨rec, hrec, txin, hin, tx, htx, bin, hbin, hp.symm⟩
    · rintro ⟨rec, hrec, txin, hin, tx, htx, bin, hbin, hp⟩
      exact ⟨tx, htx, bin, hbin,
        (bucket_mem_iff s hi bin.prevout j).2 ⟨rec, hrec, txin, hin, hp.symm⟩⟩
  cases hf : mapFind s.mapOrphanTransactions j with
  | none =>
    have : coreAt s j = none := by
      unfold coreAt
      rw [hf]
      rfl
    rw [this]
    simp [Option.filter]
  | some rec =>
    have hcs : coreAt s j = some rec.core := by
      unfold coreAt
      rw [hf]
      rfl
    rw [hcs]
    by_cases c : ∃ txin ∈ rec.tx.vin, blockSpends block txin.prevout
    · have hj : j ∈ ids := key.2 ⟨rec, hf, c⟩
      have c2 : ∃ txin ∈ rec.core.1.vin, blockSpends block txin.prevout := c
      simp only [hj, if_true, Option.filter, c2, decide_True, Bool.not_true,
        Bool.false_eq_true, if_false]
    · have hj : j ∉ ids := by
        intro h
        obtain ⟨rec2, h2, h3⟩ := key.1 h
        rw [hf] at h2
        injection h2 with h2
        rw [← h2] at h3
        exact c h3
      have c2 : ¬ ∃ txin ∈ rec.core.1.vin, blockSpends block txin.prevout := c
      simp only [hj, if_false, Option.filter, c2, decide_False, Bool.not_false, if_true]

/-! ## `AddChildrenToWorkSet` -/

theorem addBucket_spec (s : TxOrphanage) :
    ∀ (b ws : List TxId), (∀ h ∈ b, Resident s h) →
      ∃ ws1, addBucket s b ws = some ws1 ∧ (∀ x, x ∈ ws1 ↔ x ∈ ws ∨ x ∈ b) ∧
        (ws.Pairwise (· < ·) → ws1.Pairwise (· < ·)) := by
  intro b
  induction b with
  | nil =>
    intro ws _
    exact ⟨ws, rfl, fun x => by simp, fun h => h⟩
  | cons h l ih =>
    intro ws hres
    obtain ⟨rec, hf⟩ := (resident_iff_some s h).1 (hres h (List.mem_cons_self _ _))
    obtain ⟨ws1, h1, h2, h3⟩ := ih (setInsert ws h)
      (fun x hx => hres x (List.mem_cons_of_mem _ hx))
    refine ⟨ws1, by simp [addBucket, hf, h1], ?_, fun hs => h3 (sorted_setInsert ws h hs)⟩
    intro x
    rw [h2 x, mem_setInsert, List.mem_cons]
    tauto

theorem addChildrenLoop_spec (s : TxOrphanage) (hsd : RevSound s) (txid : TxId) :
    ∀ (l : List Nat) (ws : List TxId),
      ∃ ws1, addChildrenLoop s txid l ws = some ws1 ∧
        (∀ x, x ∈ ws1 ↔ x ∈ ws ∨ ∃ i ∈ l, ∃ b,
          mapFind s.mapOrphanTransactionsByPrev ⟨txid, i⟩ = some b ∧ x ∈ b) ∧
        (ws.Pairwise (· < ·) → ws1.Pairwise (· < ·)) := by
  intro l
  induction l with
  | nil =>
    intro ws
    exact ⟨ws, rfl, fun x => by simp, fun h => h⟩
  | cons i l ih =>
    intro ws
    cases hf : mapFind s.mapOrphanTransactionsByPrev ⟨txid, i⟩ with
    | none =>
      obtain ⟨ws1, h1, h2, h3⟩ := ih ws
      refine ⟨ws1, by simp [addChildrenLoop, hf, h1], ?_, h3⟩
      intro x
      rw [h2 x]
      constructor
      · rintro (hx | ⟨k, hk, b, hb, hx⟩)
        · exact Or.inl hx
        · exact Or.inr ⟨k, List.mem_cons_of_mem _ hk, b, hb, hx⟩
      · rintro (hx | ⟨k, hk, b, hb, hx⟩)
        · exact Or.inl hx
        · rcases List.mem_cons.1 hk with e | hk
          · rw [e, hf] at hb
            simp at hb
          · exact Or.inr ⟨k, hk, b, hb, hx⟩
    | some b =>
      obtain ⟨wsb, g1, g2, g3⟩ := addBucket_spec s b ws (bucket_resident s hsd _ b hf)
      obtain ⟨ws1, h1, h2, h3⟩ := ih wsb
      refine ⟨ws1, by simp [addChildrenLoop, hf, g1, h1], ?_, fun hs => h3 (g3 hs)⟩
      intro x
      rw [h2 x, g2 x]
      constructor
      · rintro ((hx | hx) | ⟨k, hk, b2, hb, hx⟩)
        · exact Or.inl hx
        · exact Or.inr ⟨i, List.mem_cons_self _ _, b, hf, hx⟩
        · exact Or.inr ⟨k, List.mem_cons_of_mem _ hk, b2, hb, hx⟩
      · rintro (hx | ⟨k, hk, b2, hb, hx⟩)
        · exact Or.inl (Or.inl hx)
        · rcases List.mem_cons.1 hk with e | hk
          · rw [e, hf] at hb
            injection hb with hb
            rw [← hb] at hx
            exact Or.inl (Or.inr hx)
          · exact Or.inr ⟨k, hk, b2, hb, hx⟩

/-! ## `LimitOrphans` -/

theorem evictLoop_spec (rng : Nat → Nat) (nMaxOrphans : Nat) :
    ∀ (fuel : Nat) (s : TxOrphanage) (n : Nat), ListInv s →
      s.mapOrphanTransactions.length ≤ fuel + nMaxOrphans →
      ∃ r, evictLoop rng nMaxOrphans fuel s n = some r ∧
        r.1.mapOrphanTransactions.length = min s.mapOrphanTransactions.length nMaxOrphans ∧
        r.2 = n + (s.mapOrphanTransactions.length - nMaxOrphans) ∧
        r.1.nNextSweep = s.nNextSweep ∧
        (s.mapOrphanTransactions.length ≤ nMaxOrphans → r = (s, n)) := by
  intro fuel
  induction fuel with
  | zero =>
    intro s n _ hlen
    unfold evictLoop
    have c : ¬ s.mapOrphanTransactions.length > nMaxOrphans := by omega
    simp only [c, if_false]
    refine ⟨(s, n), rfl, ?_, ?_, rfl, fun _ => rfl⟩
    · simp only
      omega
    · simp only
      omega
  | succ fuel ih =>
    intro s n hok hlen
    unfold evictLoop
    by_cases c : s.mapOrphanTransactions.length > nMaxOrphans
    · simp only [c, if_true]
      have hok2 := hok
      unfold ListInv at hok2
      rw [listOK_iff] at hok2
      obtain ⟨hl, hpos⟩ := hok2
      have c0 : ¬ s.g_orphan_list.length = 0 := by omega
      simp only [c0, if_false]
      have hidx : rng n % s.g_orphan_list.length < s.g_orphan_list.length :=
        Nat.mod_lt _ (by omega)
      obtain ⟨h, rec, a1, a2, -⟩ := hpos _ hidx
      simp only [a1, a2]
      obtain ⟨r1, he⟩ := eraseTx_total s h hok
      simp only [he]
      have hlen2 := (eraseTx_length s h r1 he ((resident_iff_some s h).2 ⟨rec, a2⟩)).2
      obtain ⟨r, hr, g1, g2, g3, -⟩ :=
        ih r1.1 (n + 1) (eraseTx_listInv s h r1 hok he) (by omega)
      refine ⟨r, hr, ?_, ?_, ?_, ?_⟩
      · rw [g1]
        omega
      · rw [g2]
        omega
      · rw [g3, eraseTx_nNextSweep s h r1 he]
      · intro hle
        omega
    · simp only [c, if_false]
      refine ⟨(s, n), rfl, ?_, ?_, rfl, fun _ => rfl⟩
      · simp only
        omega
      · simp only
        omega

theorem evictLoop_sub (rng : Nat → Nat) (nMaxOrphans : Nat) (s0 : TxOrphanage) :
    ∀ (fuel : Nat) (s : TxOrphanage) (n : Nat) (r : TxOrphanage × Nat),
      (Inv s ∧ ∀ j c, coreAt s j = some c → coreAt s0 j = some c) →
      evictLoop rng nMaxOrphans fuel s n = some r →
      (Inv r.1 ∧ ∀ j c, coreAt r.1 j = some c → coreAt s0 j = some c) := by
  apply evictLoop_preserves
  intro s txid r hp he
  refine ⟨eraseTx_inv s txid r hp.1 he, ?_⟩
  intro j c hc
  rw [eraseTx_coreAt s txid r hp.1.1.1 he j] at hc
  by_cases cj : j = txid
  · rw [if_pos cj] at hc
    simp at hc
  · rw [if_neg cj] at hc
    exact hp.2 j c hc

theorem sweepLoop_min (nNow : Int) :
    ∀ (ks : List TxId) (s : TxOrphanage) (m : Int), Inv s → ks.Nodup →
      (∀ k ∈ ks, Resident s k) →
      ∃ r, sweepLoop nNow ks s m = some r ∧ r.2 ≤ m ∧
        (∀ k ∈ ks, ∀ c, coreAt s k = some c → nNow < c.2.2 → r.2 ≤ c.2.2) ∧
        (r.2 = m ∨ ∃ k ∈ ks, ∃ c, coreAt s k = some c ∧ nNow < c.2.2 ∧ c.2.2 = r.2) := by
  intro ks
  induction ks with
  | nil =>
    intro s m _ _ _
    exact ⟨(s, m), rfl, le_refl _, fun k hk => by simp at hk, Or.inl rfl⟩
  | cons k rest ih =>
    intro s m hi hnd hres
    obtain ⟨rec, hf⟩ := (resident_iff_some s k).1 (hres k (List.mem_cons_self _ _))
    have hnd2 := List.nodup_cons.1 hnd
    have hck : coreAt s k = some rec.core := by
      unfold coreAt
      rw [hf]
      rfl
    unfold sweepLoop
    simp only [hf]
    by_cases c : rec.nTimeExpire ≤ nNow
    · simp only [c, if_true]
      have hid : rec.tx.id = k := hi.2.2.2.2 k rec hf
      rw [hid]
      obtain ⟨r1, he⟩ := eraseTx_total s k hi.2.1
      simp only [he]
      have hres2 : ∀ j ∈ rest, Resident r1.1 j := by
        intro j hj
        rw [eraseTx_resident_iff s k r1 hi.1.1 he j]
        refine ⟨hres j (List.mem_cons_of_mem _ hj), ?_⟩
        intro e
        rw [e] at hj
        exact hnd2.1 hj
      have hsame : ∀ j ∈ rest, coreAt r1.1 j = coreAt s j := by
        intro j hj
        rw [eraseTx_coreAt s k r1 hi.1.1 he j, if_neg]
        intro e
        rw [e] at hj
        exact hnd2.1 hj
      obtain ⟨r, hr, g1, g2, g3⟩ := ih r1.1 m (eraseTx_inv s k r1 hi he) hnd2.2 hres2
      refine ⟨r, hr, g1, ?_, ?_⟩
      · intro j hj cc hcc hlt
        rcases List.mem_cons.1 hj with e | hj
        · rw [e, hck] at hcc
          injection hcc with hcc
          rw [← hcc] at hlt
          have : rec.core.2.2 = rec.nTimeExpire := rfl
          omega
        · rw [← hsame j hj] at hcc
          exact g2 j hj cc hcc hlt
      · rcases g3 with g3 | ⟨j, hj, cc, hcc, hlt, heq⟩
        · exact Or.inl g3
        · rw [hsame j hj] at hcc
          exact Or.inr ⟨j, List.mem_cons_of_mem _ hj, cc, hcc, hlt, heq⟩
    · simp only [c, if_false]
      obtain ⟨r, hr, g1, g2, g3⟩ := ih s (min rec.nTimeExpire m) hi hnd2.2
        (fun j hj => hres j (List.mem_cons_of_mem _ hj))
      refine ⟨r, hr, le_trans g1 (min_le_right _ _), ?_, ?_⟩
      · intro j hj cc hcc hlt
        rcases List.mem_cons.1 hj with e | hj
        · rw [e, hck] at hcc
          injection hcc with hcc
          rw [← hcc]
          exact le_trans g1 (min_le_left _ _)
        · exact g2 j hj cc hcc hlt
      · rcases g3 with g3 | ⟨j, hj, cc, hcc, hlt, heq⟩
        · rcases min_choice rec.nTimeExpire m with hm | hm
          · right
            refine ⟨k, List.mem_cons_self _ _, rec.core, hck, ?_, ?_⟩
            · exact not_le.1 c
            · rw [g3, hm]
              rfl
          · left
            rw [g3, hm]
        · exact Or.inr ⟨j, List.mem_cons_of_mem _ hj, cc, hcc, hlt, heq⟩

theorem sweepPhase_skip (s : TxOrphanage) (nNow : Int) (h : ¬ s.nNextSweep ≤ nNow) :
    sweepPhase s nNow = some s := by
  simp [sweepPhase, h]

theorem sweepPhase_due (s : TxOrphanage) (nNow : Int) (hi : Inv s)
    (hdue : s.nNextSweep ≤ nNow) :
    ∃ s1 m, sweepPhase s nNow = some s1 ∧ Inv s1 ∧
      (∀ j, coreAt s1 j = (coreAt s j).filter (fun c => !decide (c.2.2 ≤ nNow))) ∧
      s1.nNextSweep = m + 300 ∧ m ≤ nNow + 900 ∧
      (∀ k c, coreAt s k = some c → nNow < c.2.2 → m ≤ c.2.2) ∧
      (m = nNow + 900 ∨ ∃ k c, coreAt s k = some c ∧ nNow < c.2.2 ∧ c.2.2 = m) := by
  obtain ⟨r, hr, g1, g2, g3⟩ := sweepLoop_min nNow (mapKeys s.mapOrphanTransactions) s
    (nNow + ORPHAN_TX_EXPIRE_TIME - ORPHAN_TX_EXPIRE_INTERVAL) hi
    (nodup_of_sorted _ hi.1.1) (keys_resident s)
  obtain ⟨t, ht, hit, -, hcore⟩ := condEraseLoop_all (fun c => decide (c.2.2 ≤ nNow)) s hi
  have hfst := sweepLoop_fst nNow (mapKeys s.mapOrphanTransactions) s
    (nNow + ORPHAN_TX_EXPIRE_TIME - ORPHAN_TX_EXPIRE_INTERVAL)
  rw [hr, ht] at hfst
  simp only [Option.map_some', Option.some.injEq] at hfst
  have hseed : nNow + ORPHAN_TX_EXPIRE_TIME - ORPHAN_TX_EXPIRE_INTERVAL = nNow + 900 := by
    simp only [ORPHAN_TX_EXPIRE_TIME, ORPHAN_TX_EXPIRE_INTERVAL]
    omega
  rw [hseed] at g1 g3
  refine ⟨{ r.1 with nNextSweep := r.2 + ORPHAN_TX_EXPIRE_INTERVAL }, r.2, ?_, ?_, ?_, ?_,
    g1, ?_, ?_⟩
  · simp [sweepPhase, hdue, hr]
  · rw [hfst]
    exact hit
  · rw [hfst]
    exact hcore
  · simp only [ORPHAN_TX_EXPIRE_INTERVAL]
    omega
  · intro k c hc hlt
    by_cases hk : k ∈ mapKeys s.mapOrphanTransactions
    · exact g2 k hk c hc hlt
    · rw [coreAt_not_mem_keys s k hk] at hc
      simp at hc
  · rcases g3 with g3 | ⟨k, -, c, hc, hlt, heq⟩
    · exact Or.inl g3
    · exact Or.inr ⟨k, c, hc, hlt, heq⟩

theorem limitOrphans_spec (s : TxOrphanage) (nMaxOrphans : Nat) (nNow : Int)
    (rng : Nat → Nat) (hi : Inv s) :
    ∃ s1 r, sweepPhase s nNow = some s1 ∧ Inv s1 ∧
      LimitOrphans s nMaxOrphans nNow rng = some r ∧ Inv r.1 ∧
      r.1.mapOrphanTransactions.length = min s1.mapOrphanTransactions.length nMaxOrphans ∧
      r.2 = s1.mapOrphanTransactions.length - nMaxOrphans ∧
      r.1.nNextSweep = s1.nNextSweep ∧
      (s1.mapOrphanTransactions.length ≤ nMaxOrphans → r = (s1, 0)) ∧
      (∀ j c, coreAt r.1 j = some c → coreAt s1 j = some c) := by
  obtain ⟨s1, h1, hi1⟩ := sweepPhase_total s nNow hi
  obtain ⟨r, hr, g1, g2, g3, g4⟩ :=
    evictLoop_spec rng nMaxOrphans s1.mapOrphanTransactions.length s1 0 hi1.2.1 (by omega)
  have hsub := evictLoop_sub rng nMaxOrphans s1 _ s1 0 r ⟨hi1, fun _ _ h => h⟩ hr
  refine ⟨s1, r, h1, hi1, by simp [LimitOrphans, h1, hr], hsub.1, g1, ?_, g3, g4, hsub.2⟩
  rw [g2]
  omega

theorem coreAt_entry (s : TxOrphanage) (hs : (mapKeys s.mapOrphanTransactions).Pairwise (· < ·))
    (e : TxId × COrphanTx) (he : e ∈ s.mapOrphanTransactions) :
    coreAt s e.1 = some e.2.core := by
  unfold coreAt
  rw [mapFind_of_mem _ hs e.1 e.2 he]
  rfl

theorem coreAt_filter_some (o : Option (CTransaction × NodeId × Int))
    (q : CTransaction × NodeId × Int → Bool) (c : CTransaction × NodeId × Int) :
    o.filter q = some c ↔ o = some c ∧ q c = true := by
  cases o with
  | none => simp [Option.filter]
  | some d =>
    by_cases hq : q d = true
    · simp only [Option.filter, hq, if_true, Option.some.injEq]
      constructor
      · intro h
        rw [← h]
        exact ⟨rfl, hq⟩
      · intro h
        exact h.1
    · simp only [Option.filter, hq, if_false]
      constructor
      · intro h
        simp at h
      · rintro ⟨h1, h2⟩
        injection h1 with h1
        rw [h1] at hq
        exact absurd h2 hq

/-! ## Frame lemmas for the public mutations -/

theorem sub_eraseTx (s0 : TxOrphanage) (s : TxOrphanage) (txid : TxId) (r : TxOrphanage × Int)
    (hp : Inv s ∧ ∀ j c, coreAt s j = some c → coreAt s0 j = some c)
    (he : EraseTx s txid = some r) :
    Inv r.1 ∧ ∀ j c, coreAt r.1 j = some c → coreAt s0 j = some c := by
  refine ⟨eraseTx_inv s txid r hp.1 he, ?_⟩
  intro j c hc
  rw [eraseTx_coreAt s txid r hp.1.1.1 he j] at hc
  by_cases cj : j = txid
  · rw [if_pos cj] at hc
    simp at hc
  · rw [if_neg cj] at hc
    exact hp.2 j c hc

theorem addTx_coreAt (s : TxOrphanage) (tx : CTransaction) (peer : NodeId) (now : Int)
    (r : TxOrphanage × Bool) (h : AddTx s tx peer now = some r) (j : TxId) :
    coreAt r.1 j =
      if r.2 = true ∧ j = tx.id then some (tx, peer, now + 1200) else coreAt s j := by
  rcases addTx_cases s tx peer now r h with ⟨e, -⟩ | ⟨hn, -, e⟩
  · rw [e]
    simp
  · rw [e]
    unfold coreAt
    simp only [true_and]
    rw [mapFind_emplace_of_none _ _ _ _ hn]
    by_cases c : j = tx.id
    · rw [if_pos c, if_pos c]
      rfl
    · rw [if_neg c, if_neg c]

/-- The four erasing mutations only remove records: what is resident
afterwards was resident before, with the same fixed part. -/
theorem erasing_sub (s : TxOrphanage) (hi : Inv s) :
    (∀ txid r, EraseTx s txid = some r →
      Inv r.1 ∧ ∀ j c, coreAt r.1 j = some c → coreAt s j = some c) ∧
    (∀ peer t, EraseForPeer s peer = some t →
      Inv t ∧ ∀ j c, coreAt t j = some c → coreAt s j = some c) ∧
    (∀ block t, EraseForBlock s block = some t →
      Inv t ∧ ∀ j c, coreAt t j = some c → coreAt s j = some c) ∧
    (∀ nMaxOrphans nNow rng r, LimitOrphans s nMaxOrphans nNow rng = some r →
      Inv r.1 ∧ ∀ j c, coreAt r.1 j = some c → coreAt s j = some c) := by
  have hp : Inv s ∧ ∀ j c, coreAt s j = some c → coreAt s j = some c :=
    ⟨hi, fun _ _ h => h⟩
  refine ⟨?_, ?_, ?_, ?_⟩
  · intro txid r he
    exact sub_eraseTx s s txid r hp he
  · intro peer t h
    exact eraseForPeerLoop_preserves _ (sub_eraseTx s) peer _ s t hp h
  · intro block t h
    unfold EraseForBlock at h
    cases hc : collectBlock s block.vtx with
    | none => simp [hc] at h
    | some ids =>
      simp only [hc] at h
      exact eraseAll_preserves _ (sub_eraseTx s) ids s t hp h
  · intro nMaxOrphans nNow rng r h
    unfold LimitOrphans at h
    cases hs : sweepPhase s nNow with
    | none => simp [hs] at h
    | some s1 =>
      simp only [hs] at h
      have hp1 : Inv s1 ∧ ∀ j c, coreAt s1 j = some c → coreAt s j = some c := by
        unfold sweepPhase at hs
        by_cases c : s.nNextSweep ≤ nNow
        · simp only [c, if_true] at hs
          cases hl : sweepLoop nNow (mapKeys s.mapOrphanTransactions) s
              (nNow + ORPHAN_TX_EXPIRE_TIME - ORPHAN_TX_EXPIRE_INTERVAL) with
          | none => simp [hl] at hs
          | some r1 =>
            simp only [hl, Option.some.injEq] at hs
            rw [← hs]
            exact sweepLoop_preserves _ (sub_eraseTx s) nNow _ s _ r1 hp hl
        · simp only [c, if_false, Option.some.injEq] at hs
          rw [← hs]
          exact hp
      exact evictLoop_preserves _ (sub_eraseTx s) rng nMaxOrphans _ s1 0 r hp1 h

theorem step_core (s t : TxOrphanage) (hst : Step s t) (hi : Inv s)
    (j : TxId) (c c2 : CTransaction × NodeId × Int)
    (h1 : coreAt s j = some c) (h2 : coreAt t j = some c2) : c2 = c := by
  obtain ⟨e1, e2, e3, e4⟩ := erasing_sub s hi
  have fin : coreAt s j = some c2 → c2 = c := by
    intro h
    rw [h1] at h
    injection h with h
    exact h.symm
  cases hst with
  | addTx tx peer now r h =>
    rw [addTx_coreAt s tx peer now r h j] at h2
    by_cases cc : r.2 = true ∧ j = tx.id
    · exfalso
      rcases addTx_cases s tx peer now r h with ⟨e, -⟩ | ⟨hn, -, -⟩
      · rw [e] at cc
        simp at cc
      · rw [cc.2] at h1
        unfold coreAt at h1
        rw [hn] at h1
        simp at h1
    · rw [if_neg cc] at h2
      exact fin h2
  | eraseTx txid r h => exact fin ((e1 txid r h).2 j c2 h2)
  | eraseForPeer peer t0 h => exact fin ((e2 peer t h).2 j c2 h2)
  | eraseForBlock block t0 h => exact fin ((e3 block t h).2 j c2 h2)
  | limitOrphans nMaxOrphans nNow rng r h =>
    exact fin ((e4 nMaxOrphans nNow rng r h).2 j c2 h2)

theorem step_recordsKept (s t : TxOrphanage) (hst : Step s t) (hi : Inv s) :
    RecordsKept s t := by
  intro j rec rec2 h1 h2
  have c1 : coreAt s j = some rec.core := by
    unfold coreAt
    rw [h1]
    rfl
  have c2 : coreAt t j = some rec2.core := by
    unfold coreAt
    rw [h2]
    rfl
  have := step_core s t hst hi j rec.core rec2.core c1 c2
  simp only [COrphanTx.core, Prod.mk.injEq] at this
  exact this

theorem sub_length (s t : TxOrphanage) (hit : Inv t)
    (hsub : ∀ j c, coreAt t j = some c → coreAt s j = some c) :
    t.mapOrphanTransactions.length ≤ s.mapOrphanTransactions.length := by
  have hss : mapKeys t.mapOrphanTransactions ⊆ mapKeys s.mapOrphanTransactions := by
    intro j hj
    have hres := (mapFind_isSome_iff _ _).2 hj
    obtain ⟨rec, hrec⟩ := (resident_iff_some t j).1 hres
    have hc : coreAt t j = some rec.core := by
      unfold coreAt
      rw [hrec]
      rfl
    have hs := hsub j rec.core hc
    obtain ⟨rec0, h0, -⟩ := (coreAt_some_iff s j rec.core).1 hs
    exact (mapFind_isSome_iff _ _).1 (by rw [h0]; rfl)
  have := List.Subperm.length_le
    (List.subperm_of_subset (nodup_of_sorted _ hit.1.1) hss)
  simpa [mapKeys] using this

theorem step_size (s t : TxOrphanage) (hst : Step s t) (hi : Inv s)
    (hsz : ∀ j c, coreAt s j = some c → c.1.totalSize ≤ MAX_STANDARD_TX_SIZE) :
    ∀ j c, coreAt t j = some c → c.1.totalSize ≤ MAX_STANDARD_TX_SIZE := by
  obtain ⟨e1, e2, e3, e4⟩ := erasing_sub s hi
  intro j c hc
  cases hst with
  | addTx tx peer now r h =>
    rw [addTx_coreAt s tx peer now r h j] at hc
    by_cases cc : r.2 = true ∧ j = tx.id
    · rw [if_pos cc] at hc
      injection hc with hc
      rw [← hc]
      rcases addTx_cases s tx peer now r h with ⟨e, -⟩ | ⟨-, hle, -⟩
      · rw [e] at cc
        simp at cc
      · exact hle
    · rw [if_neg cc] at hc
      exact hsz j c hc
  | eraseTx txid r h => exact hsz j c ((e1 txid r h).2 j c hc)
  | eraseForPeer peer t0 h => exact hsz j c ((e2 peer t h).2 j c hc)
  | eraseForBlock block t0 h => exact hsz j c ((e3 block t h).2 j c hc)
  | limitOrphans nMaxOrphans nNow rng r h =>
    exact hsz j c ((e4 nMaxOrphans nNow rng r h).2 j c hc)

theorem reachable_size (s : TxOrphanage) (hr : Reachable s) :
    ∀ j c, coreAt s j = some c → c.1.totalSize ≤ MAX_STANDARD_TX_SIZE := by
  induction hr with
  | empty =>
    intro j c hc
    simp [coreAt, TxOrphanage.empty, mapFind] at hc
  | step s t hs hst ih => exact step_size s t hst (reachable_inv s hs) ih

theorem addTx_total (s : TxOrphanage) (tx : CTransaction) (peer : NodeId) (now : Int) :
    ∃ r, AddTx s tx peer now = some r := by
  rw [addTx_eq]
  by_cases c : (mapFind s.mapOrphanTransactions tx.id).isSome = true ∨
      tx.totalSize > MAX_STANDARD_TX_SIZE
  · rw [if_pos c]
    exact ⟨_, rfl⟩
  · rw [if_neg c]
    exact ⟨_, rfl⟩

/-! ## Admit-then-erase -/

theorem mapErase_emplace_of_none {K V : Type} [LinearOrder K] (m : List (K × V)) (k : K)
    (v : V) (h : mapFind m k = none) : mapErase (mapEmplace m k v).1 k = m := by
  induction m with
  | nil => simp [mapEmplace, mapErase]
  | cons e l ih =>
    obtain ⟨a, w⟩ := e
    have hak : a ≠ k := by
      intro c
      simp [mapFind, c] at h
    have hl : mapFind l k = none := by
      rw [mapFind_cons_ne l a k w hak] at h
      exact h
    by_cases c1 : k < a
    · rw [mapEmplace_cons_lt l a k w v c1]
      simp [mapErase]
    · have c3 : a < k := lt_of_le_of_ne (not_lt.1 c1) hak
      rw [mapEmplace_cons_gt l a k w v c3]
      simp [mapErase, hak, ih hl]

theorem map_ext_sorted {K V : Type} [LinearOrder K] :
    ∀ (m1 m2 : List (K × V)), (mapKeys m1).Pairwise (· < ·) → (mapKeys m2).Pairwise (· < ·) →
      (∀ k, mapFind m1 k = mapFind m2 k) → m1 = m2 := by
  intro m1
  induction m1 with
  | nil =>
    intro m2 _ _ h
    cases m2 with
    | nil => rfl
    | cons e l =>
      obtain ⟨b, w⟩ := e
      have := h b
      rw [mapFind_cons_eq] at this
      simp [mapFind] at this
  | cons e1 l1 ih =>
    intro m2 hs1 hs2 h
    obtain ⟨a, v⟩ := e1
    cases m2 with
    | nil =>
      have := h a
      rw [mapFind_cons_eq] at this
      simp [mapFind] at this
    | cons e2 l2 =>
      obtain ⟨b, w⟩ := e2
      have hs1' := hs1
      have hs2' := hs2
      simp only [mapKeys, List.map_cons, List.pairwise_cons] at hs1' hs2'
      have hab : a = b := by
        have h1 := h a
        rw [mapFind_cons_eq] at h1
        have h2 := h b
        rw [mapFind_cons_eq] at h2
        by_contra hne
        have ha : a ∈ mapKeys l2 := by
          rw [mapFind_cons_ne _ _ _ _ (fun e => hne e.symm)] at h1
          exact (mapFind_isSome_iff l2 a).1 (by rw [← h1]; rfl)
        have hb : b ∈ mapKeys l1 := by
          rw [mapFind_cons_ne _ _ _ _ hne] at h2
          exact (mapFind_isSome_iff l1 b).1 (by rw [h2]; rfl)
        have l1' := hs1'.1 b hb
        have l2' := hs2'.1 a ha
        exact lt_irrefl a (lt_trans l1' l2')
      subst hab
      have hvw : v = w := by
        have h1 := h a
        rw [mapFind_cons_eq, mapFind_cons_eq] at h1
        injection h1
      subst hvw
      have htail : ∀ k, mapFind l1 k = mapFind l2 k := by
        intro k
        by_cases c : a = k
        · subst c
          have n1 : mapFind l1 a = none := by
            rw [mapFind_eq_none_iff]
            intro hk
            exact lt_irrefl a (hs1'.1 a hk)
          have n2 : mapFind l2 a = none := by
            rw [mapFind_eq_none_iff]
            intro hk
            exact lt_irrefl a (hs2'.1 a hk)
          rw [n1, n2]
        · have := h k
          rw [mapFind_cons_ne _ _ _ _ c, mapFind_cons_ne _ _ _ _ c] at this
          exact this
      rw [ih l2 hs1'.2 hs2'.2 htail]

theorem byPrev_roundtrip (bp : List (COutPoint × List TxId)) (vin : List CTxIn) (h : TxId)
    (hs : (mapKeys bp).Pairwise (· < ·))
    (hb : ∀ p b, mapFind bp p = some b → b.Pairwise (· < ·))
    (hne : ∀ p b, mapFind bp p = some b → b ≠ [])
    (hh : ∀ p b, mapFind bp p = some b → h ∉ b) :
    byPrevEraseAll (byPrevInsertAll bp vin h) vin h = bp := by
  have hs1 := sorted_byPrevInsertAll vin h bp hs
  have hf1 := fun q => mapFind_byPrevInsertAll vin h bp q hs
  have hb1 : ∀ p b, mapFind (byPrevInsertAll bp vin h) p = some b → b.Pairwise (· < ·) := by
    intro p b hp
    rw [hf1 p] at hp
    by_cases c : ∃ txin ∈ vin, txin.prevout = p
    · rw [if_pos c] at hp
      injection hp with hp
      rw [← hp]
      apply sorted_setInsert
      cases hf : mapFind bp p with
      | none => simp
      | some b0 => exact hb p b0 hf
    · rw [if_neg c] at hp
      exact hb p b hp
  obtain ⟨hs2, hf2⟩ := byPrevEraseAll_spec vin h _ hs1 hb1
  apply map_ext_sorted _ _ hs2 hs
  intro q
  rw [hf2 q, hf1 q]
  by_cases c : ∃ txin ∈ vin, txin.prevout = q
  · rw [if_pos c, if_pos c]
    cases hf : mapFind bp q with
    | none => simp [eraseView, setInsert, setErase]
    | some b0 =>
      have hn := hh q b0 hf
      have hnn := hne q b0 hf
      simp [eraseView, setErase_setInsert b0 h hn, hnn]
  · rw [if_neg c, if_neg c]

/-! ## Sweep deadline -/

theorem sweepPhase_len (s : TxOrphanage) (nNow : Int) (hi : Inv s) (s1 : TxOrphanage)
    (h1 : sweepPhase s nNow = some s1) :
    s1.mapOrphanTransactions.length ≤ s.mapOrphanTransactions.length := by
  by_cases hd : s.nNextSweep ≤ nNow
  · obtain ⟨s2, m, h2, hi2, hcore, -⟩ := sweepPhase_due s nNow hi hd
    rw [h1] at h2
    injection h2 with h2
    subst h2
    apply sub_length s s1 hi2
    intro j c hc
    rw [hcore j] at hc
    exact ((coreAt_filter_some _ _ _).1 hc).1
  · rw [sweepPhase_skip s nNow hd] at h1
    injection h1 with h1
    rw [← h1]

theorem limitOrphans_small (s : TxOrphanage) (nMaxOrphans : Nat) (nNow : Int)
    (rng : Nat → Nat) (hi : Inv s) (hle : s.mapOrphanTransactions.length ≤ nMaxOrphans) :
    ∃ s1, sweepPhase s nNow = some s1 ∧ Inv s1 ∧
      LimitOrphans s nMaxOrphans nNow rng = some (s1, 0) := by
  obtain ⟨s1, r, h1, hi1, h, -, -, -, -, hsame, -⟩ :=
    limitOrphans_spec s nMaxOrphans nNow rng hi
  have hlen := sweepPhase_len s nNow hi s1 h1
  rw [hsame (le_trans hlen hle)] at h
  exact ⟨s1, h1, hi1, h⟩

theorem sweepPhase_due_entries (s : TxOrphanage) (nNow : Int) (hi : Inv s)
    (hdue : s.nNextSweep ≤ nNow) :
    ∃ s1 m, sweepPhase s nNow = some s1 ∧ Inv s1 ∧ s1.nNextSweep = m + 300 ∧
      m ≤ nNow + 900 ∧
      (∀ e ∈ s1.mapOrphanTransactions, m ≤ e.2.nTimeExpire) ∧
      (m = nNow + 900 ∨ ∃ e ∈ s1.mapOrphanTransactions, e.2.nTimeExpire = m) := by
  obtain ⟨s1, m, h1, hi1, hcore, hns, g1, g2, g3⟩ := sweepPhase_due s nNow hi hdue
  refine ⟨s1, m, h1, hi1, hns, g1, ?_, ?_⟩
  · intro e he
    have hc := coreAt_entry s1 hi1.1.1 e he
    rw [hcore e.1] at hc
    obtain ⟨hc1, hc2⟩ := (coreAt_filter_some _ _ _).1 hc
    have hlt : nNow < e.2.core.2.2 := by
      by_cases hx : e.2.core.2.2 ≤ nNow
      · simp [hx] at hc2
      · exact not_le.1 hx
    exact g2 e.1 e.2.core hc1 hlt
  · rcases g3 with g3 | ⟨k, c, hc, hlt, heq⟩
    · exact Or.inl g3
    · right
      have hc1 : coreAt s1 k = some c := by
        rw [hcore k]
        apply (coreAt_filter_some _ _ _).2
        refine ⟨hc, ?_⟩
        simp [not_le.2 hlt]
      obtain ⟨rec, hrec, hrc⟩ := (coreAt_some_iff s1 k c).1 hc1
      refine ⟨(k, rec), mapFind_mem _ _ _ hrec, ?_⟩
      rw [← heq, ← hrc]
      rfl

/-! ## Reachable example states -/

theorem exStateA_reachable : Reachable exStateA :=
  Reachable.step TxOrphanage.empty exStateA Reachable.empty
    (Step.addTx TxOrphanage.empty exTxA 7 100 (exStateA, true) (by decide))

theorem exStateAB_reachable : Reachable exStateAB :=
  Reachable.step exStateA exStateAB exStateA_reachable
    (Step.addTx exStateA exTxB 8 150 (exStateAB, true) (by decide))

theorem exStateABSwept_reachable : Reachable exStateABSwept :=
  Reachable.step exStateAB exStateABSwept exStateAB_reachable
    (Step.limitOrphans exStateAB 5 200 (fun _ => 0) (exStateABSwept, 0) (by decide))

/-! ## The claims -/

/-- C1. Positional-list consistency is an invariant.  It holds in the empty
orphanage, and whenever it holds before `AddTx`, `EraseTx`, `EraseForPeer`,
`EraseForBlock` or `LimitOrphans` it holds in the state the call returns: the
positional list is as long as the primary store and the handle at each
position `i` resolves to a resident record whose `list_pos` is `i`.  On every
reachable state each of the five operations does return. -/
theorem listInv_invariant :
    ListInv TxOrphanage.empty ∧
    (∀ s tx peer now r, ListInv s → AddTx s tx peer now = some r → ListInv r.1) ∧
    (∀ s txid r, ListInv s → EraseTx s txid = some r → ListInv r.1) ∧
    (∀ s peer t, ListInv s → EraseForPeer s peer = some t → ListInv t) ∧
    (∀ s block t, ListInv s → EraseForBlock s block = some t → ListInv t) ∧
    (∀ s nMaxOrphans nNow rng r, ListInv s →
      LimitOrphans s nMaxOrphans nNow rng = some r → ListInv r.1) ∧
    (∀ s, Reachable s →
      (∀ tx peer now, ∃ r, AddTx s tx peer now = some r) ∧
      (∀ txid, ∃ r, EraseTx s txid = some r) ∧
      (∀ peer, ∃ t, EraseForPeer s peer = some t) ∧
      (∀ block, ∃ t, EraseForBlock s block = some t) ∧
      (∀ nMaxOrphans nNow rng, ∃ r, LimitOrphans s nMaxOrphans nNow rng = some r)) := by
  have hA : ∀ s tx peer now r, ListInv s → AddTx s tx peer now = some r → ListInv r.1 :=
    fun s tx peer now r => addTx_listInv s tx peer now r
  have hE : ∀ s txid r, ListInv s → EraseTx s txid = some r → ListInv r.1 :=
    fun s txid r => eraseTx_listInv s txid r
  have hS : ∀ s t, Step s t → ListInv s → ListInv t :=
    step_preserves ListInv hA hE (fun _ _ h => h)
  refine ⟨by decide, hA, hE, ?_, ?_, ?_, ?_⟩
  · intro s peer t hi h
    exact hS s t (Step.eraseForPeer s peer t h) hi
  · intro s block t hi h
    exact hS s t (Step.eraseForBlock s block t h) hi
  · intro s nMaxOrphans nNow rng r hi h
    exact hS s r.1 (Step.limitOrphans s nMaxOrphans nNow rng r h) hi
  · intro s hr
    have hi := reachable_inv s hr
    refine ⟨?_, fun txid => eraseTx_total s txid hi.2.1,
      fun peer => eraseForPeer_total s peer hi,
      fun block => eraseForBlock_total s block hi,
      fun nMaxOrphans nNow rng => limitOrphans_total s nMaxOrphans nNow rng hi⟩
    intro tx peer now
    rw [addTx_eq]
    by_cases c : (mapFind s.mapOrphanTransactions tx.id).isSome = true ∨
        tx.totalSize > MAX_STANDARD_TX_SIZE
    · rw [if_pos c]
      exact ⟨_, rfl⟩
    · rw [if_neg c]
      exact ⟨_, rfl⟩

/-- Witness for C1: erasing `A` from the two-orphan example, where list
compaction moves `B` to position 0, and evicting down to one orphan. -/
theorem listInv_invariant_witness :
    ListInv exStateAB ∧ EraseTx exStateAB 10 = some (exStateB, 1) ∧ ListInv exStateB ∧
    LimitOrphans exStateAB 1 200 (fun _ => 0) = some ({ exStateB with nNextSweep := 1400 }, 1) ∧
    ListInv { exStateB with nNextSweep := 1400 } :=
  ⟨by decide, by decide,
   listInv_invariant.2.2.1 exStateAB 10 (exStateB, 1) (by decide) (by decide),
   by decide,
   listInv_invariant.2.2.2.2.2.1 exStateAB 1 200 (fun _ => 0)
     ({ exStateB with nNextSweep := 1400 }, 1) (by decide) (by decide)⟩

/-- C2. Reverse-index completeness is an invariant: in every state reachable
from the empty orphanage by the public operations, for every entry of the
primary store and every input of its transaction (the same outpoint may occur
in several inputs), the reverse index has a bucket at the input's outpoint and
the bucket contains the entry's handle. -/
theorem revComplete_reachable (s : TxOrphanage) (hr : Reachable s) :
    ∀ e ∈ s.mapOrphanTransactions, ∀ txin ∈ e.2.tx.vin,
      ∃ b, mapFind s.mapOrphanTransactionsByPrev txin.prevout = some b ∧ e.1 ∈ b := by
  obtain ⟨hwf, -, hc, -, -⟩ := reachable_inv s hr
  intro e he txin hin
  exact hc e.1 e.2 (mapFind_of_mem _ hwf.1 e.1 e.2 he) txin hin

/-- Witness for C2: orphan `A` lists the outpoint `(1, 0)` in two inputs and
shares it with `B`. -/
theorem revComplete_reachable_witness :
    ∃ b, mapFind exStateAB.mapOrphanTransactionsByPrev ⟨1, 0⟩ = some b ∧ 10 ∈ b :=
  revComplete_reachable exStateAB exStateAB_reachable (10, ⟨exTxA, 7, 1300, 0⟩)
    (by decide) ⟨⟨1, 0⟩⟩ (by decide)

/-- C3. Reverse-index soundness is an invariant: in every state reachable from
the empty orphanage by the public operations, no bucket of the reverse index
is empty, and every handle in the bucket at outpoint `p` resolves to a
resident orphan whose transaction has an input referencing `p`. -/
theorem revSound_reachable (s : TxOrphanage) (hr : Reachable s) :
    ∀ e ∈ s.mapOrphanTransactionsByPrev,
      e.2 ≠ [] ∧
      ∀ h ∈ e.2, ∃ rec, mapFind s.mapOrphanTransactions h = some rec ∧
        ∃ txin ∈ rec.tx.vin, txin.prevout = e.1 := by
  obtain ⟨hwf, -, -, hsd, -⟩ := reachable_inv s hr
  intro e he
  exact hsd e.1 e.2 (mapFind_of_mem _ hwf.2.1 e.1 e.2 he)

/-- Witness for C3: the bucket at `(1, 0)` of the two-orphan example. -/
theorem revSound_reachable_witness :
    ([5, 10] : List TxId) ≠ [] ∧
    ∀ h ∈ ([5, 10] : List TxId), ∃ rec, mapFind exStateAB.mapOrphanTransactions h = some rec ∧
      ∃ txin ∈ rec.tx.vin, txin.prevout = ⟨1, 0⟩ :=
  revSound_reachable exStateAB exStateAB_reachable (⟨1, 0⟩, [5, 10]) (by decide)

/-- C4. `AddTx(tx, peer)` always returns, and it returns true exactly when
`tx`'s id is not resident and `tx`'s total size is at most
`MAX_STANDARD_TX_SIZE`; so a non-resident transaction of exactly the maximum
size is admitted and one of the maximum size plus one byte is rejected. -/
theorem addTx_result (s : TxOrphanage) (tx : CTransaction) (peer : NodeId) (now : Int) :
    ∃ r, AddTx s tx peer now = some r ∧
      (r.2 = true ↔ (¬ Resident s tx.id ∧ tx.totalSize ≤ MAX_STANDARD_TX_SIZE)) ∧
      (¬ Resident s tx.id → tx.totalSize = MAX_STANDARD_TX_SIZE → r.2 = true) ∧
      (tx.totalSize = MAX_STANDARD_TX_SIZE + 1 → r.2 = false) := by
  have key : ∃ r, AddTx s tx peer now = some r ∧
      (r.2 = true ↔ (¬ Resident s tx.id ∧ tx.totalSize ≤ MAX_STANDARD_TX_SIZE)) := by
    rw [addTx_eq]
    unfold Resident
    by_cases c : (mapFind s.mapOrphanTransactions tx.id).isSome = true ∨
        tx.totalSize > MAX_STANDARD_TX_SIZE
    · rw [if_pos c]
      refine ⟨_, rfl, ?_⟩
      simp only [Bool.false_eq_true, false_iff, not_and, not_le]
      intro h
      rcases c with c | c
      · exact absurd c h
      · exact c
    · rw [if_neg c]
      refine ⟨_, rfl, ?_⟩
      simp only [true_iff]
      exact ⟨fun h => c (Or.inl h), not_lt.1 (fun h => c (Or.inr h))⟩
  obtain ⟨r, h1, h2⟩ := key
  refine ⟨r, h1, h2, ?_, ?_⟩
  · intro hn hsz
    exact h2.2 ⟨hn, le_of_eq hsz⟩
  · intro hsz
    cases hb : r.2 with
    | false => rfl
    | true =>
      have := (h2.1 hb).2
      omega

/-- C5. Whenever `AddTx` returns false (duplicate id or oversize transaction)
the state it returns is the state before the call: primary store, reverse
index, positional list and sweep deadline are unchanged. -/
theorem addTx_false_unchanged (s : TxOrphanage) (tx : CTransaction) (peer : NodeId)
    (now : Int) (r : TxOrphanage × Bool) (h : AddTx s tx peer now = some r)
    (hb : r.2 = false) : r.1 = s := by
  rcases addTx_cases s tx peer now r h with ⟨e, -⟩ | ⟨-, -, e⟩
  · rw [e]
  · rw [e] at hb
    simp at hb

/-- Witness for C5: a second admission of `A` (from another peer, later) and
an oversize transaction both leave the one-orphan example unchanged. -/
theorem addTx_false_unchanged_witness :
    AddTx exStateA exTxA 9 500 = some (exStateA, false) ∧
    AddTx exStateA exTxBig 9 500 = some (exStateA, false) ∧
    (exStateA, false).1 = exStateA :=
  ⟨by decide, by decide,
   addTx_false_unchanged exStateA exTxBig 9 500 (exStateA, false) (by decide) rfl⟩

/-- C6. Whenever `AddTx(tx, peer)` returns true at time `now`, the primary
store has under `tx`'s id the record with transaction `tx`, `fromPeer = peer`,
`nTimeExpire = now + 1200` and `list_pos` the length of the positional list
before the call; `HaveTx(id)` is then true and `GetTx(id)` returns
`(tx, peer)`. -/
theorem addTx_true_record (s : TxOrphanage) (tx : CTransaction) (peer : NodeId)
    (now : Int) (r : TxOrphanage × Bool) (h : AddTx s tx peer now = some r)
    (hb : r.2 = true) :
    mapFind r.1.mapOrphanTransactions tx.id =
      some { tx := tx, fromPeer := peer, nTimeExpire := now + 1200,
             list_pos := s.g_orphan_list.length } ∧
    HaveTx r.1 tx.id = true ∧ GetTx r.1 tx.id = (some tx, peer) := by
  rcases addTx_cases s tx peer now r h with ⟨e, -⟩ | ⟨hn, -, e⟩
  · rw [e] at hb
    simp at hb
  · have hf : mapFind r.1.mapOrphanTransactions tx.id =
        some { tx := tx, fromPeer := peer, nTimeExpire := now + 1200,
               list_pos := s.g_orphan_list.length } := by
      rw [e]
      simp only
      rw [mapFind_emplace_of_none _ _ _ _ hn, if_pos rfl]
      rfl
    refine ⟨hf, ?_, ?_⟩
    · simp [HaveTx, mapCount, hf]
    · simp [GetTx, hf]

/-- Witness for C6: admitting `B` from peer 8 at time 150 to the one-orphan
example. -/
theorem addTx_true_record_witness :
    mapFind exStateAB.mapOrphanTransactions 5 =
      some { tx := exTxB, fromPeer := 8, nTimeExpire := 150 + 1200, list_pos := 1 } ∧
    HaveTx exStateAB 5 = true ∧ GetTx exStateAB 5 = (some exTxB, 8) :=
  addTx_true_record exStateA exTxB 8 150 (exStateAB, true) (by decide) rfl

/-- C7. Re-admission is a no-op: when `AddTx(t, p1)` at time `now1` admitted
`t`, a following `AddTx(t, p2)` at any time `now2` returns false and the same
state, so `GetTx(t.id)` is still `(t, p1)` and the record still has
`nTimeExpire = now1 + 1200`. -/
theorem addTx_readmission (s : TxOrphanage) (t : CTransaction) (p1 p2 : NodeId)
    (now1 now2 : Int) (r1 : TxOrphanage × Bool) (h : AddTx s t p1 now1 = some r1)
    (hb : r1.2 = true) :
    AddTx r1.1 t p2 now2 = some (r1.1, false) ∧
    GetTx r1.1 t.id = (some t, p1) ∧
    ∃ rec, mapFind r1.1.mapOrphanTransactions t.id = some rec ∧
      rec.fromPeer = p1 ∧ rec.nTimeExpire = now1 + 1200 := by
  obtain ⟨hf, -, hg⟩ := addTx_true_record s t p1 now1 r1 h hb
  refine ⟨?_, hg, _, hf, rfl, rfl⟩
  rw [addTx_eq, if_pos (Or.inl (by rw [hf]; rfl))]

/-- Witness for C7: `B`, admitted from peer 8 at time 150, is offered again by
peer 3 at time 9000. -/
theorem addTx_readmission_witness :
    AddTx exStateAB exTxB 3 9000 = some (exStateAB, false) ∧
    GetTx exStateAB 5 = (some exTxB, 8) ∧
    ∃ rec, mapFind exStateAB.mapOrphanTransactions 5 = some rec ∧
      rec.fromPeer = 8 ∧ rec.nTimeExpire = 150 + 1200 :=
  addTx_readmission exStateA exTxB 8 3 150 9000 (exStateAB, true) (by decide) rfl

/-- C8. In every reachable state, `EraseTx(id)` returns 0 and the unchanged
state when `id` is not resident; when `id` is resident it returns 1, and the
resident ids afterwards are exactly the previous ones without `id`, the
primary store holding one entry fewer. -/
theorem eraseTx_result (s : TxOrphanage) (txid : TxId) (hr : Reachable s) :
    (¬ Resident s txid → EraseTx s txid = some (s, 0)) ∧
    (Resident s txid → ∃ t, EraseTx s txid = some (t, 1) ∧
      (∀ j, Resident t j ↔ (Resident s j ∧ j ≠ txid)) ∧
      t.mapOrphanTransactions.length + 1 = s.mapOrphanTransactions.length) := by
  obtain ⟨hwf, hok, -, -, -⟩ := reachable_inv s hr
  constructor
  · intro hn
    apply eraseTx_absent
    unfold Resident at hn
    cases hf : mapFind s.mapOrphanTransactions txid with
    | none => rfl
    | some x => simp [hf] at hn
  · intro hres
    obtain ⟨r, h⟩ := eraseTx_total s txid hok
    obtain ⟨h1, h2⟩ := eraseTx_length s txid r h hres
    refine ⟨r.1, ?_, fun j => eraseTx_resident_iff s txid r hwf.1 h j, h2⟩
    rw [h, ← h1]

/-- Witness for C8: erasing the absent id 11 and the resident `A` (id 10) in
the two-orphan example. -/
theorem eraseTx_result_witness :
    EraseTx exStateAB 11 = some (exStateAB, 0) ∧
    ∃ t, EraseTx exStateAB 10 = some (t, 1) ∧
      (∀ j, Resident t j ↔ (Resident exStateAB j ∧ j ≠ 10)) ∧
      t.mapOrphanTransactions.length + 1 = exStateAB.mapOrphanTransactions.length :=
  ⟨(eraseTx_result exStateAB 11 exStateAB_reachable).1 (by decide),
   (eraseTx_result exStateAB 10 exStateAB_reachable).2 (by decide)⟩

/-- C9. Idempotent removal: in every reachable state, two calls of
`EraseTx(id)` in a row both return; they return 1 then 0 when `id` was
resident and 0 then 0 when it was absent, and the state after the second
call is the state after the first. -/
theorem eraseTx_twice (s : TxOrphanage) (txid : TxId) (hr : Reachable s) :
    ∃ r1 r2, EraseTx s txid = some r1 ∧ EraseTx r1.1 txid = some r2 ∧
      r2.1 = r1.1 ∧ r2.2 = 0 ∧
      (Resident s txid → r1.2 = 1) ∧ (¬ Resident s txid → r1.2 = 0) := by
  obtain ⟨hwf, hok, -, -, -⟩ := reachable_inv s hr
  obtain ⟨r1, h1⟩ := eraseTx_total s txid hok
  have hn : mapFind r1.1.mapOrphanTransactions txid = none :=
    eraseTx_find_self s txid r1 hwf.1 h1
  refine ⟨r1, (r1.1, 0), h1, eraseTx_absent r1.1 txid hn, rfl, rfl, ?_, ?_⟩
  · intro hres
    exact (eraseTx_length s txid r1 h1 hres).1
  · intro hres
    have h0 := (eraseTx_result s txid hr).1 hres
    rw [h0] at h1
    injection h1 with h1
    rw [← h1]

/-- Witness for C9: erasing `A` twice from the two-orphan example. -/
theorem eraseTx_twice_witness :
    EraseTx exStateAB 10 = some (exStateB, 1) ∧ EraseTx exStateB 10 = some (exStateB, 0) ∧
    ∃ r1 r2, EraseTx exStateAB 10 = some r1 ∧ EraseTx r1.1 10 = some r2 ∧
      r2.1 = r1.1 ∧ r2.2 = 0 ∧
      (Resident exStateAB 10 → r1.2 = 1) ∧ (¬ Resident exStateAB 10 → r1.2 = 0) :=
  ⟨by decide, by decide, eraseTx_twice exStateAB 10 exStateAB_reachable⟩

/-- C10. `GetTx(id)` returns the transaction and the source peer of the entry
stored under `id`, and the null pair `(null, -1)` when the primary store has
no entry under `id`; `HaveTx(id)` is true exactly when it has one.  Both are
functions of the state alone and return no new state. -/
theorem getTx_haveTx_result (s : TxOrphanage) (txid : TxId) :
    (txid ∈ mapKeys s.mapOrphanTransactions →
      ∃ rec, (txid, rec) ∈ s.mapOrphanTransactions ∧
        mapFind s.mapOrphanTransactions txid = some rec ∧
        GetTx s txid = (some rec.tx, rec.fromPeer)) ∧
    (txid ∉ mapKeys s.mapOrphanTransactions → GetTx s txid = (none, -1)) ∧
    (HaveTx s txid = true ↔ txid ∈ mapKeys s.mapOrphanTransactions) ∧
    (HaveTx s txid = true ↔ Resident s txid) := by
  refine ⟨?_, ?_, ?_, ?_⟩
  · intro hk
    have := (mapFind_isSome_iff s.mapOrphanTransactions txid).2 hk
    cases hf : mapFind s.mapOrphanTransactions txid with
    | none => simp [hf] at this
    | some rec =>
      exact ⟨rec, mapFind_mem _ _ _ hf, rfl, by simp [GetTx, hf]⟩
  · intro hk
    have := (mapFind_eq_none_iff s.mapOrphanTransactions txid).2 hk
    simp [GetTx, this]
  · rw [← mapFind_isSome_iff]
    unfold HaveTx
    simp [mapCount_ne_zero_iff]
  · unfold HaveTx Resident
    simp [mapCount_ne_zero_iff]

/-- C11. Peer removal completeness: on every reachable state `EraseForPeer(p)`
returns, and no entry of the primary store it leaves has `fromPeer` equal to
`p`. -/
theorem eraseForPeer_complete (s : TxOrphanage) (peer : NodeId) (hr : Reachable s) :
    ∃ t, EraseForPeer s peer = some t ∧
      ∀ e ∈ t.mapOrphanTransactions, e.2.fromPeer ≠ peer := by
  have hi := reachable_inv s hr
  obtain ⟨t, ht, hit, -, hcore⟩ := eraseForPeer_spec s peer hi
  refine ⟨t, ht, ?_⟩
  intro e he hp
  have hf := mapFind_of_mem _ hit.1.1 e.1 e.2 he
  have h1 : coreAt t e.1 = some e.2.core := by
    unfold coreAt
    rw [hf]
    rfl
  rw [hcore e.1] at h1
  cases hc : coreAt s e.1 with
  | none => simp [hc, Option.filter] at h1
  | some c =>
    rw [hc] at h1
    by_cases cp : c.2.1 = peer
    · simp [Option.filter, cp] at h1
    · simp only [Option.filter, cp, decide_False, Bool.not_false, if_true,
        Option.some.injEq] at h1
      rw [h1] at cp
      exact cp hp

/-- Witness for C11: `EraseForPeer(1)` in the peer scenario leaves no orphan
from peer 1. -/
theorem eraseForPeer_complete_witness :
    EraseForPeer exStatePeers 1 = some exStatePeersB ∧
    ∃ t, EraseForPeer exStatePeers 1 = some t ∧
      ∀ e ∈ t.mapOrphanTransactions, e.2.fromPeer ≠ 1 :=
  ⟨by decide, eraseForPeer_complete exStatePeers 1 exStatePeers_reachable⟩

/-- C12. `EraseForPeer(p)` removes only `p`'s orphans: every entry present
before the call whose `fromPeer` differs from `p` is still resident afterwards
(with the same transaction, peer and expiry), and the positional list is as
long as the number of those entries. -/
theorem eraseForPeer_frame (s : TxOrphanage) (peer : NodeId) (hr : Reachable s) :
    ∃ t, EraseForPeer s peer = some t ∧
      (∀ e ∈ s.mapOrphanTransactions, e.2.fromPeer ≠ peer →
        Resident t e.1 ∧ coreAt t e.1 = some e.2.core) ∧
      t.g_orphan_list.length =
        (s.mapOrphanTransactions.filter (fun e => decide (e.2.fromPeer ≠ peer))).length := by
  have hi := reachable_inv s hr
  obtain ⟨t, ht, hit, -, hcore⟩ := eraseForPeer_spec s peer hi
  refine ⟨t, ht, ?_, ?_⟩
  · intro e he hp
    have hf := mapFind_of_mem _ hi.1.1 e.1 e.2 he
    have h1 : coreAt s e.1 = some e.2.core := by
      unfold coreAt
      rw [hf]
      rfl
    have h2 : coreAt t e.1 = some e.2.core := by
      rw [hcore e.1, h1]
      have : ¬ e.2.core.2.1 = peer := hp
      simp [Option.filter, this]
    refine ⟨?_, h2⟩
    rw [← coreAt_isSome, h2]
    rfl
  · rw [hit.2.1.1]
    have := filtered_length s t (fun c => !decide (c.2.1 = peer)) hi.1.1 hit.1.1 hcore
    rw [this]
    congr 1
    apply List.filter_congr
    intro e _
    simp [COrphanTx.core]

/-- Witness for C12: with `A` from peer 1, `B` from peer 2 and `C` from peer 1,
`EraseForPeer(1)` leaves exactly `B`, the list has length 1 and `B` is at list
position 0. -/
theorem eraseForPeer_frame_witness :
    EraseForPeer exStatePeers 1 = some exStatePeersB ∧
    mapKeys exStatePeersB.mapOrphanTransactions = [2] ∧
    exStatePeersB.g_orphan_list.length = 1 ∧
    (mapFind exStatePeersB.mapOrphanTransactions 2).map (fun r => r.list_pos) = some 0 ∧
    ∃ t, EraseForPeer exStatePeers 1 = some t ∧
      (∀ e ∈ exStatePeers.mapOrphanTransactions, e.2.fromPeer ≠ 1 →
        Resident t e.1 ∧ coreAt t e.1 = some e.2.core) ∧
      t.g_orphan_list.length =
        (exStatePeers.mapOrphanTransactions.filter (fun e => decide (e.2.fromPeer ≠ 1))).length :=
  ⟨by decide, by decide, by decide, by decide,
   eraseForPeer_frame exStatePeers 1 exStatePeers_reachable⟩

/-- C13. On every reachable state `EraseForBlock(block)` returns, and
afterwards no entry of the primary store has an input whose outpoint is spent
by an input of a transaction of the block, and the reverse index has no bucket
at any such outpoint. -/
theorem eraseForBlock_clears (s : TxOrphanage) (block : CBlock) (hr : Reachable s) :
    ∃ t, EraseForBlock s block = some t ∧
      (∀ e ∈ t.mapOrphanTransactions, ∀ txin ∈ e.2.tx.vin,
        ¬ blockSpends block txin.prevout) ∧
      (∀ p, blockSpends block p → p ∉ mapKeys t.mapOrphanTransactionsByPrev) := by
  have hi := reachable_inv s hr
  obtain ⟨t, ht, hit, -, hcore⟩ := eraseForBlock_spec s block hi
  have h1 : ∀ j rec, mapFind t.mapOrphanTransactions j = some rec →
      ∀ txin ∈ rec.tx.vin, ¬ blockSpends block txin.prevout := by
    intro j rec hf txin hin hb
    have hc : coreAt t j = some rec.core := by
      unfold coreAt
      rw [hf]
      rfl
    rw [hcore j] at hc
    cases hs : coreAt s j with
    | none => simp [hs, Option.filter] at hc
    | some c =>
      rw [hs] at hc
      by_cases cb : ∃ txin ∈ c.1.vin, blockSpends block txin.prevout
      · simp [Option.filter, cb] at hc
      · simp only [Option.filter, cb, decide_False, Bool.not_false, if_true,
          Option.some.injEq] at hc
        rw [hc] at cb
        exact cb ⟨txin, hin, hb⟩
  refine ⟨t, ht, ?_, ?_⟩
  · intro e he
    exact h1 e.1 e.2 (mapFind_of_mem _ hit.1.1 e.1 e.2 he)
  · intro p hp
    rw [← mapFind_eq_none_iff]
    cases hf : mapFind t.mapOrphanTransactionsByPrev p with
    | none => rfl
    | some b =>
      exfalso
      obtain ⟨hne, hall⟩ := hit.2.2.2.1 p b hf
      cases b with
      | nil => exact hne rfl
      | cons x l =>
        obtain ⟨rec, hrec, txin, hin, hpp⟩ := hall x (List.mem_cons_self _ _)
        rw [← hpp] at hp
        exact h1 x rec hrec txin hin hp

/-- Witness for C13: the orphans `A` and `B` both spend `(1, 0)`; a block whose
transaction spends `(1, 0)` removes both, the bucket at `(1, 0)` is gone and
the primary store is empty. -/
theorem eraseForBlock_clears_witness :
    EraseForBlock exStateAB ⟨[exTxSpend]⟩ = some TxOrphanage.empty ∧
    ∃ t, EraseForBlock exStateAB ⟨[exTxSpend]⟩ = some t ∧
      (∀ e ∈ t.mapOrphanTransactions, ∀ txin ∈ e.2.tx.vin,
        ¬ blockSpends ⟨[exTxSpend]⟩ txin.prevout) ∧
      (∀ p, blockSpends ⟨[exTxSpend]⟩ p → p ∉ mapKeys t.mapOrphanTransactionsByPrev) :=
  ⟨by decide, eraseForBlock_clears exStateAB ⟨[exTxSpend]⟩ exStateAB_reachable⟩

/-- Counterexample for C14: the orphan `A` (id 10) has an input referencing
output 0 of the transaction with id 1; a block containing that transaction,
which spends `(99, 0)`, leaves the orphanage unchanged and `A` resident. -/
theorem eraseForBlock_children_counterexample :
    Reachable exStateA ∧
    (10, (⟨exTxA, 7, 1300, 0⟩ : COrphanTx)) ∈ exStateA.mapOrphanTransactions ∧
    (∃ txin ∈ exTxA.vin, ∃ i, i < exTxParent.vout.length ∧
      txin.prevout = ⟨exTxParent.id, i⟩) ∧
    EraseForBlock exStateA ⟨[exTxParent]⟩ = some exStateA ∧
    Resident exStateA 10 :=
  ⟨exStateA_reachable, by decide, ⟨⟨⟨1, 0⟩⟩, by decide, 0, by decide, by decide⟩,
   by decide, by decide⟩

/-- C14, amended. `EraseForBlock` evicts the orphans that spend an outpoint
spent by the block: on every reachable state the call returns, and every entry
present before the call that has an input whose outpoint is spent by an input
of a transaction of the block is no longer resident afterwards. -/
theorem eraseForBlock_evicts_spenders (s : TxOrphanage) (block : CBlock)
    (hr : Reachable s) :
    ∃ t, EraseForBlock s block = some t ∧
      ∀ e ∈ s.mapOrphanTransactions,
        (∃ txin ∈ e.2.tx.vin, blockSpends block txin.prevout) → ¬ Resident t e.1 := by
  have hi := reachable_inv s hr
  obtain ⟨t, ht, -, -, hcore⟩ := eraseForBlock_spec s block hi
  refine ⟨t, ht, ?_⟩
  intro e he hb hres
  have hf := mapFind_of_mem _ hi.1.1 e.1 e.2 he
  have hcs : coreAt s e.1 = some e.2.core := by
    unfold coreAt
    rw [hf]
    rfl
  rw [← coreAt_isSome, hcore e.1, hcs] at hres
  have hb2 : ∃ txin ∈ e.2.core.1.vin, blockSpends block txin.prevout := hb
  simp [Option.filter, hb2] at hres

/-- Witness for the amended C14: `B` spends `(1, 0)`, which the block
transaction spends, and is gone afterwards. -/
theorem eraseForBlock_evicts_spenders_witness :
    ∃ t, EraseForBlock exStateAB ⟨[exTxSpend]⟩ = some t ∧
      ∀ e ∈ exStateAB.mapOrphanTransactions,
        (∃ txin ∈ e.2.tx.vin, blockSpends ⟨[exTxSpend]⟩ txin.prevout) → ¬ Resident t e.1 :=
  eraseForBlock_evicts_spenders exStateAB ⟨[exTxSpend]⟩ exStateAB_reachable

/-- C15. On every reachable state `AddChildrenToWorkSet(t, W)` returns a work
set whose members are exactly the members of `W` together with the ids of the
resident orphans that have an input whose outpoint is `(t.id, i)` for an
output index `i < |t.vout|`; nothing of `W` is lost, and a work set without
repetitions (a `std::set`) stays without repetitions, so an orphan referencing
several outputs of `t` appears once. -/
theorem addChildrenToWorkSet_result (s : TxOrphanage) (t : CTransaction) (W : List TxId)
    (hr : Reachable s) :
    ∃ W1, AddChildrenToWorkSet s t W = some W1 ∧
      (∀ x, x ∈ W1 ↔ x ∈ W ∨ ∃ rec, mapFind s.mapOrphanTransactions x = some rec ∧
        ∃ txin ∈ rec.tx.vin, ∃ i, i < t.vout.length ∧ txin.prevout = ⟨t.id, i⟩) ∧
      (W.Pairwise (· < ·) → W1.Pairwise (· < ·)) := by
  have hi := reachable_inv s hr
  obtain ⟨W1, h1, h2, h3⟩ :=
    addChildrenLoop_spec s hi.2.2.2.1 t.id (List.range t.vout.length) W
  refine ⟨W1, h1, ?_, h3⟩
  intro x
  rw [h2 x]
  constructor
  · rintro (hx | ⟨i, hil, hb⟩)
    · exact Or.inl hx
    · obtain ⟨rec, hrec, txin, hin, hp⟩ := (bucket_mem_iff s hi ⟨t.id, i⟩ x).1 hb
      exact Or.inr ⟨rec, hrec, txin, hin, i, List.mem_range.1 hil, hp⟩
  · rintro (hx | ⟨rec, hrec, txin, hin, i, hil, hp⟩)
    · exact Or.inl hx
    · exact Or.inr ⟨i, List.mem_range.2 hil,
        (bucket_mem_iff s hi ⟨t.id, i⟩ x).2 ⟨rec, hrec, txin, hin, hp⟩⟩

/-- Witness for C15: the children of the transaction with id 1 and one output
in the two-orphan example are `B` (id 5) and `A` (id 10, which names `(1, 0)`
in two inputs); they join the work set `[3]`, each once. -/
theorem addChildrenToWorkSet_result_witness :
    AddChildrenToWorkSet exStateAB exTxParent [3] = some [3, 5, 10] ∧
    ∃ W1, AddChildrenToWorkSet exStateAB exTxParent [3] = some W1 ∧
      (∀ x, x ∈ W1 ↔ x ∈ [3] ∨ ∃ rec, mapFind exStateAB.mapOrphanTransactions x = some rec ∧
        ∃ txin ∈ rec.tx.vin, ∃ i, i < exTxParent.vout.length ∧
          txin.prevout = ⟨exTxParent.id, i⟩) ∧
      (([3] : List TxId).Pairwise (· < ·) → W1.Pairwise (· < ·)) :=
  ⟨by decide, addChildrenToWorkSet_result exStateAB exTxParent [3] exStateAB_reachable⟩

/-- C16. Overflow bound: on every reachable state, for every time, cap and
sequence of random draws, `LimitOrphans(cap)` returns and the primary store
then holds at most `cap` orphans; with cap 0 the pool is left empty (primary
store, positional list and reverse index). -/
theorem limitOrphans_bound (s : TxOrphanage) (nMaxOrphans : Nat) (nNow : Int)
    (rng : Nat → Nat) (hr : Reachable s) :
    ∃ r, LimitOrphans s nMaxOrphans nNow rng = some r ∧
      r.1.mapOrphanTransactions.length ≤ nMaxOrphans ∧
      (nMaxOrphans = 0 → r.1.mapOrphanTransactions = [] ∧ r.1.g_orphan_list = [] ∧
        r.1.mapOrphanTransactionsByPrev = []) := by
  have hi := reachable_inv s hr
  obtain ⟨s1, r, -, -, h, hir, hlen, -, -, -, -⟩ :=
    limitOrphans_spec s nMaxOrphans nNow rng hi
  refine ⟨r, h, by rw [hlen]; exact min_le_right _ _, ?_⟩
  intro h0
  have hm : r.1.mapOrphanTransactions = [] := by
    apply List.eq_nil_of_length_eq_zero
    rw [hlen, h0]
    simp
  refine ⟨hm, ?_, ?_⟩
  · apply List.eq_nil_of_length_eq_zero
    rw [hir.2.1.1, hm]
    rfl
  · cases hb : r.1.mapOrphanTransactionsByPrev with
    | nil => rfl
    | cons e l =>
      exfalso
      obtain ⟨p, b⟩ := e
      have hf : mapFind r.1.mapOrphanTransactionsByPrev p = some b := by
        rw [hb]
        exact mapFind_cons_eq l p b
      obtain ⟨hne, hall⟩ := hir.2.2.2.1 p b hf
      cases b with
      | nil => exact hne rfl
      | cons x t =>
        obtain ⟨rec, hrec, -⟩ := hall x (List.mem_cons_self _ _)
        rw [hm] at hrec
        simp [mapFind] at hrec

/-- Witness for C16: `LimitOrphans(0)` at time 200 empties the two-orphan
example (no record is expired; both are evicted). -/
theorem limitOrphans_bound_witness :
    LimitOrphans exStateAB 0 200 (fun k => k + 1) =
      some ({ TxOrphanage.empty with nNextSweep := 1400 }, 2) ∧
    ∃ r, LimitOrphans exStateAB 0 200 (fun k => k + 1) = some r ∧
      r.1.mapOrphanTransactions.length ≤ 0 ∧
      (0 = 0 → r.1.mapOrphanTransactions = [] ∧ r.1.g_orphan_list = [] ∧
        r.1.mapOrphanTransactionsByPrev = []) :=
  ⟨by decide, limitOrphans_bound exStateAB 0 200 (fun k => k + 1) exStateAB_reachable⟩

/-- C17. `LimitOrphans(cap)` returns the number of overflow evictions only.
With `n` the number of entries the sweep phase leaves (the entries with
`nTimeExpire > now` when the sweep runs, all entries when it is skipped), the
return value is `n - cap` (0 when `n ≤ cap`) and the final count is
`min n cap`.  In particular, when every entry is in date and there are
`cap + 1` of them, the return value is 1 and `cap` entries remain. -/
theorem limitOrphans_return (s : TxOrphanage) (nMaxOrphans : Nat) (nNow : Int)
    (rng : Nat → Nat) (hr : Reachable s) :
    ∃ s1 r, sweepPhase s nNow = some s1 ∧ LimitOrphans s nMaxOrphans nNow rng = some r ∧
      (s.nNextSweep ≤ nNow → s1.mapOrphanTransactions.length =
        (s.mapOrphanTransactions.filter (fun e => decide (nNow < e.2.nTimeExpire))).length) ∧
      (¬ s.nNextSweep ≤ nNow → s1 = s) ∧
      r.2 = s1.mapOrphanTransactions.length - nMaxOrphans ∧
      r.1.mapOrphanTransactions.length = min s1.mapOrphanTransactions.length nMaxOrphans ∧
      ((∀ e ∈ s.mapOrphanTransactions, nNow < e.2.nTimeExpire) →
        s.mapOrphanTransactions.length = nMaxOrphans + 1 →
        r.2 = 1 ∧ r.1.mapOrphanTransactions.length = nMaxOrphans) := by
  have hi := reachable_inv s hr
  obtain ⟨s1, r, h1, hi1, h, -, hlen, hret, -, -, -⟩ :=
    limitOrphans_spec s nMaxOrphans nNow rng hi
  have hdue : s.nNextSweep ≤ nNow → s1.mapOrphanTransactions.length =
      (s.mapOrphanTransactions.filter (fun e => decide (nNow < e.2.nTimeExpire))).length := by
    intro hd
    obtain ⟨s2, m, h2, -, hcore, -⟩ := sweepPhase_due s nNow hi hd
    rw [h1] at h2
    injection h2 with h2
    subst h2
    rw [filtered_length s s1 (fun c => !decide (c.2.2 ≤ nNow)) hi.1.1 hi1.1.1 hcore]
    congr 1
    apply List.filter_congr
    intro e _
    by_cases hx : e.2.nTimeExpire ≤ nNow
    · simp [COrphanTx.core, hx, not_lt.2 hx]
    · simp [COrphanTx.core, hx, not_le.1 hx]
  have hskip : ¬ s.nNextSweep ≤ nNow → s1 = s := by
    intro hd
    rw [sweepPhase_skip s nNow hd] at h1
    injection h1 with h1
    exact h1.symm
  refine ⟨s1, r, h1, h, hdue, hskip, hret, hlen, ?_⟩
  intro hall hcnt
  have hn : s1.mapOrphanTransactions.length = nMaxOrphans + 1 := by
    by_cases hd : s.nNextSweep ≤ nNow
    · rw [hdue hd, List.filter_eq_self.2, hcnt]
      intro e he
      simp [hall e he]
    · rw [hskip hd, hcnt]
  rw [hret, hlen, hn]
  constructor
  · omega
  · simp

/-- Witness for C17: at time 1320 the sweep removes the expired `A`, which is
not counted, and with cap 0 the one survivor `B` is evicted: the return value
is 1. -/
theorem limitOrphans_return_witness :
    LimitOrphans exStateAB 0 1320 (fun _ => 7) =
      some ({ TxOrphanage.empty with nNextSweep := 1650 }, 1) ∧
    ∃ s1 r, sweepPhase exStateAB 1320 = some s1 ∧
      LimitOrphans exStateAB 0 1320 (fun _ => 7) = some r ∧
      (exStateAB.nNextSweep ≤ 1320 → s1.mapOrphanTransactions.length =
        (exStateAB.mapOrphanTransactions.filter
          (fun e => decide ((1320 : Int) < e.2.nTimeExpire))).length) ∧
      (¬ exStateAB.nNextSweep ≤ 1320 → s1 = exStateAB) ∧
      r.2 = s1.mapOrphanTransactions.length - 0 ∧
      r.1.mapOrphanTransactions.length = min s1.mapOrphanTransactions.length 0 ∧
      ((∀ e ∈ exStateAB.mapOrphanTransactions, (1320 : Int) < e.2.nTimeExpire) →
        exStateAB.mapOrphanTransactions.length = 0 + 1 →
        r.2 = 1 ∧ r.1.mapOrphanTransactions.length = 0) :=
  ⟨by decide, limitOrphans_return exStateAB 0 1320 (fun _ => 7) exStateAB_reachable⟩

/-- C18. When `LimitOrphans` is called at time `now` with
`nNextSweep ≤ now`, the sweep removes exactly the records with
`nTimeExpire ≤ now`: the sweep phase leaves precisely the other records, after
the call no entry has `nTimeExpire ≤ now`, and when the number of unexpired
entries is at most the cap every entry with `nTimeExpire > now` is still
resident (with the same transaction, peer and expiry). -/
theorem limitOrphans_sweep (s : TxOrphanage) (nMaxOrphans : Nat) (nNow : Int)
    (rng : Nat → Nat) (hr : Reachable s) (hdue : s.nNextSweep ≤ nNow) :
    ∃ s1 r, sweepPhase s nNow = some s1 ∧ LimitOrphans s nMaxOrphans nNow rng = some r ∧
      (∀ j, coreAt s1 j = (coreAt s j).filter (fun c => decide (nNow < c.2.2))) ∧
      (∀ e ∈ r.1.mapOrphanTransactions, nNow < e.2.nTimeExpire) ∧
      ((s.mapOrphanTransactions.filter (fun e => decide (nNow < e.2.nTimeExpire))).length
          ≤ nMaxOrphans →
        ∀ e ∈ s.mapOrphanTransactions, nNow < e.2.nTimeExpire →
          Resident r.1 e.1 ∧ coreAt r.1 e.1 = some e.2.core) := by
  have hi := reachable_inv s hr
  obtain ⟨s1, r, h1, hi1, h, hir, -, -, -, hsame, hsub⟩ :=
    limitOrphans_spec s nMaxOrphans nNow rng hi
  obtain ⟨s2, m, h2, -, hcore, -⟩ := sweepPhase_due s nNow hi hdue
  rw [h1] at h2
  injection h2 with h2
  subst h2
  have hq : (fun c : CTransaction × NodeId × Int => !decide (c.2.2 ≤ nNow)) =
      (fun c => decide (nNow < c.2.2)) := by
    funext c
    by_cases hx : c.2.2 ≤ nNow
    · simp [hx, not_lt.2 hx]
    · simp [hx, not_le.1 hx]
  rw [hq] at hcore
  refine ⟨s1, r, h1, h, hcore, ?_, ?_⟩
  · intro e he
    have hc := hsub e.1 e.2.core (coreAt_entry r.1 hir.1.1 e he)
    rw [hcore e.1] at hc
    have := ((coreAt_filter_some _ _ _).1 hc).2
    simpa [COrphanTx.core] using this
  · intro hcnt e he hlt
    have hlen : s1.mapOrphanTransactions.length ≤ nMaxOrphans := by
      rw [filtered_length s s1 (fun c => decide (nNow < c.2.2)) hi.1.1 hi1.1.1 hcore]
      exact hcnt
    have hrs := hsame hlen
    have hc : coreAt s1 e.1 = some e.2.core := by
      rw [hcore e.1]
      apply (coreAt_filter_some _ _ _).2
      exact ⟨coreAt_entry s hi.1.1 e he, by simpa [COrphanTx.core] using hlt⟩
    rw [hrs]
    refine ⟨?_, hc⟩
    rw [← coreAt_isSome, hc]
    rfl

/-- Witness for C18: at time 1320 with cap 5 the sweep removes `A` (expiry
1300) and keeps `B` (expiry 1350). -/
theorem limitOrphans_sweep_witness :
    LimitOrphans exStateAB 5 1320 (fun _ => 0) =
      some ({ exStateB with nNextSweep := 1650 }, 0) ∧
    ∃ s1 r, sweepPhase exStateAB 1320 = some s1 ∧
      LimitOrphans exStateAB 5 1320 (fun _ => 0) = some r ∧
      (∀ j, coreAt s1 j = (coreAt exStateAB j).filter (fun c => decide (1320 < c.2.2))) ∧
      (∀ e ∈ r.1.mapOrphanTransactions, 1320 < e.2.nTimeExpire) ∧
      ((exStateAB.mapOrphanTransactions.filter
          (fun e => decide ((1320 : Int) < e.2.nTimeExpire))).length ≤ 5 →
        ∀ e ∈ exStateAB.mapOrphanTransactions, 1320 < e.2.nTimeExpire →
          Resident r.1 e.1 ∧ coreAt r.1 e.1 = some e.2.core) :=
  ⟨by decide,
   limitOrphans_sweep exStateAB 5 1320 (fun _ => 0) exStateAB_reachable (by decide)⟩

/-- C19. When `LimitOrphans(cap)` is called at time `now` with
`now < nNextSweep`, the sweep is skipped: `nNextSweep` is unchanged and the
only removals are the overflow evictions the return value counts, so when the
resident count is at most the cap the whole state is unchanged and the return
value is 0, expired records included. -/
theorem limitOrphans_skip (s : TxOrphanage) (nMaxOrphans : Nat) (nNow : Int)
    (rng : Nat → Nat) (hr : Reachable s) (hskip : nNow < s.nNextSweep) :
    ∃ r, LimitOrphans s nMaxOrphans nNow rng = some r ∧
      r.1.nNextSweep = s.nNextSweep ∧
      r.2 = s.mapOrphanTransactions.length - nMaxOrphans ∧
      r.1.mapOrphanTransactions.length = min s.mapOrphanTransactions.length nMaxOrphans ∧
      (s.mapOrphanTransactions.length ≤ nMaxOrphans → r = (s, 0)) := by
  have hi := reachable_inv s hr
  obtain ⟨s1, r, h1, -, h, -, hlen, hret, hn, hsame, -⟩ :=
    limitOrphans_spec s nMaxOrphans nNow rng hi
  rw [sweepPhase_skip s nNow (not_le.2 hskip)] at h1
  injection h1 with h1
  subst h1
  exact ⟨r, h, hn, hret, hlen, hsame⟩

/-- Witness for C19: at time 1399, before the sweep deadline 1400, both
records of the example are past their expiry (1300 and 1350) and
`LimitOrphans(5)` still returns 0 and the same state. -/
theorem limitOrphans_skip_witness :
    (∀ e ∈ exStateABSwept.mapOrphanTransactions, e.2.nTimeExpire ≤ 1399) ∧
    LimitOrphans exStateABSwept 5 1399 (fun _ => 0) = some (exStateABSwept, 0) ∧
    ∃ r, LimitOrphans exStateABSwept 5 1399 (fun _ => 0) = some r ∧
      r.1.nNextSweep = exStateABSwept.nNextSweep ∧
      r.2 = exStateABSwept.mapOrphanTransactions.length - 5 ∧
      r.1.mapOrphanTransactions.length = min exStateABSwept.mapOrphanTransactions.length 5 ∧
      (exStateABSwept.mapOrphanTransactions.length ≤ 5 → r = (exStateABSwept, 0)) :=
  ⟨by decide, by decide,
   limitOrphans_skip exStateABSwept 5 1399 (fun _ => 0) exStateABSwept_reachable (by decide)⟩

/-- C20. After a sweep run by `LimitOrphans` at time `now`, `nNextSweep` is
`m + 300` where `m` is the minimum of `now + 900` and the `nTimeExpire` of the
records the sweep left: `m` is at most `now + 900` and at most every such
expiry, and it is one of these values.  This does not depend on the previous
value of `nNextSweep`; when the sweep leaves no record, `nNextSweep` is
`now + 1200`. -/
theorem limitOrphans_next_sweep (s : TxOrphanage) (nMaxOrphans : Nat) (nNow : Int)
    (rng : Nat → Nat) (hr : Reachable s) (hdue : s.nNextSweep ≤ nNow) :
    ∃ s1 r m, sweepPhase s nNow = some s1 ∧ LimitOrphans s nMaxOrphans nNow rng = some r ∧
      r.1.nNextSweep = m + 300 ∧ m ≤ nNow + 900 ∧
      (∀ e ∈ s1.mapOrphanTransactions, m ≤ e.2.nTimeExpire) ∧
      (m = nNow + 900 ∨ ∃ e ∈ s1.mapOrphanTransactions, e.2.nTimeExpire = m) ∧
      (s1.mapOrphanTransactions = [] → r.1.nNextSweep = nNow + 1200) := by
  have hi := reachable_inv s hr
  obtain ⟨s1, r, h1, hi1, h, -, -, -, hn, -, -⟩ :=
    limitOrphans_spec s nMaxOrphans nNow rng hi
  obtain ⟨s2, m, h2, -, hcore, hns, g1, g2, g3⟩ := sweepPhase_due s nNow hi hdue
  rw [h1] at h2
  injection h2 with h2
  subst h2
  have hle : ∀ e ∈ s1.mapOrphanTransactions, m ≤ e.2.nTimeExpire := by
    intro e he
    have hc := coreAt_entry s1 hi1.1.1 e he
    rw [hcore e.1] at hc
    obtain ⟨hc1, hc2⟩ := (coreAt_filter_some _ _ _).1 hc
    have hlt : nNow < e.2.core.2.2 := by
      by_cases hx : e.2.core.2.2 ≤ nNow
      · simp [hx] at hc2
      · exact not_le.1 hx
    exact g2 e.1 e.2.core hc1 hlt
  have hatt : m = nNow + 900 ∨ ∃ e ∈ s1.mapOrphanTransactions, e.2.nTimeExpire = m := by
    rcases g3 with g3 | ⟨k, c, hc, hlt, heq⟩
    · exact Or.inl g3
    · right
      have hc1 : coreAt s1 k = some c := by
        rw [hcore k]
        apply (coreAt_filter_some _ _ _).2
        refine ⟨hc, ?_⟩
        simp [not_le.2 hlt]
      obtain ⟨rec, hrec, hrc⟩ := (coreAt_some_iff s1 k c).1 hc1
      refine ⟨(k, rec), mapFind_mem _ _ _ hrec, ?_⟩
      rw [← heq, ← hrc]
      rfl
  refine ⟨s1, r, m, h1, h, by rw [hn, hns], g1, hle, hatt, ?_⟩
  intro hnil
  rw [hn, hns]
  rcases hatt with hm | ⟨e, he, -⟩
  · rw [hm]
    omega
  · rw [hnil] at he
    simp at he

/-- Witness for C20: at time 1320 the sweep leaves `B` with expiry 1350, below
`1320 + 900`, so the next sweep is due at `1350 + 300`; at time 5000 nothing
is left and the next sweep is due at `5000 + 1200`. -/
theorem limitOrphans_next_sweep_witness :
    (LimitOrphans exStateAB 5 1320 (fun _ => 0)).map (fun r => r.1.nNextSweep) =
      some (1350 + 300) ∧
    (LimitOrphans exStateAB 5 5000 (fun _ => 0)).map (fun r => r.1.nNextSweep) =
      some (5000 + 1200) ∧
    ∃ s1 r m, sweepPhase exStateAB 1320 = some s1 ∧
      LimitOrphans exStateAB 5 1320 (fun _ => 0) = some r ∧
      r.1.nNextSweep = m + 300 ∧ m ≤ 1320 + 900 ∧
      (∀ e ∈ s1.mapOrphanTransactions, m ≤ e.2.nTimeExpire) ∧
      (m = 1320 + 900 ∨ ∃ e ∈ s1.mapOrphanTransactions, e.2.nTimeExpire = m) ∧
      (s1.mapOrphanTransactions = [] → r.1.nNextSweep = 1320 + 1200) :=
  ⟨by decide, by decide,
   limitOrphans_next_sweep exStateAB 5 1320 (fun _ => 0) exStateAB_reachable (by decide)⟩

/-- C23. Records are immutable apart from `list_pos`: on every reachable state
each of `AddTx`, `EraseTx`, `EraseForPeer`, `EraseForBlock` and `LimitOrphans`
returns, and every id resident both before and after the call has the same
transaction, the same `fromPeer` and the same `nTimeExpire` afterwards. -/
theorem records_immutable (s : TxOrphanage) (hr : Reachable s) :
    (∀ tx peer now, ∃ r, AddTx s tx peer now = some r ∧ RecordsKept s r.1) ∧
    (∀ txid, ∃ r, EraseTx s txid = some r ∧ RecordsKept s r.1) ∧
    (∀ peer, ∃ t, EraseForPeer s peer = some t ∧ RecordsKept s t) ∧
    (∀ block, ∃ t, EraseForBlock s block = some t ∧ RecordsKept s t) ∧
    (∀ nMaxOrphans nNow rng, ∃ r, LimitOrphans s nMaxOrphans nNow rng = some r ∧
      RecordsKept s r.1) := by
  have hi := reachable_inv s hr
  refine ⟨?_, ?_, ?_, ?_, ?_⟩
  · intro tx peer now
    obtain ⟨r, h⟩ := addTx_total s tx peer now
    exact ⟨r, h, step_recordsKept s r.1 (Step.addTx s tx peer now r h) hi⟩
  · intro txid
    obtain ⟨r, h⟩ := eraseTx_total s txid hi.2.1
    exact ⟨r, h, step_recordsKept s r.1 (Step.eraseTx s txid r h) hi⟩
  · intro peer
    obtain ⟨t, h⟩ := eraseForPeer_total s peer hi
    exact ⟨t, h, step_recordsKept s t (Step.eraseForPeer s peer t h) hi⟩
  · intro block
    obtain ⟨t, h⟩ := eraseForBlock_total s block hi
    exact ⟨t, h, step_recordsKept s t (Step.eraseForBlock s block t h) hi⟩
  · intro nMaxOrphans nNow rng
    obtain ⟨r, h⟩ := limitOrphans_total s nMaxOrphans nNow rng hi
    exact ⟨r, h, step_recordsKept s r.1 (Step.limitOrphans s nMaxOrphans nNow rng r h) hi⟩

/-- Witness for C23: erasing `A` from the two-orphan example moves `B` from
list position 1 to 0 and leaves its transaction, peer and expiry as they
were. -/
theorem records_immutable_witness :
    EraseTx exStateAB 10 = some (exStateB, 1) ∧
    mapFind exStateAB.mapOrphanTransactions 5 = some ⟨exTxB, 8, 1350, 1⟩ ∧
    mapFind exStateB.mapOrphanTransactions 5 = some ⟨exTxB, 8, 1350, 0⟩ ∧
    ∃ r, EraseTx exStateAB 10 = some r ∧ RecordsKept exStateAB r.1 :=
  ⟨by decide, by decide, by decide,
   (records_immutable exStateAB exStateAB_reachable).2.1 10⟩

/-- C24. Size bound invariant: in every state reachable from the empty
orphanage by the public operations, the transaction of every entry of the
primary store has total size at most `MAX_STANDARD_TX_SIZE`. -/
theorem size_bound_reachable (s : TxOrphanage) (hr : Reachable s) :
    ∀ e ∈ s.mapOrphanTransactions, e.2.tx.totalSize ≤ MAX_STANDARD_TX_SIZE := by
  have hi := reachable_inv s hr
  intro e he
  exact reachable_size s hr e.1 e.2.core (coreAt_entry s hi.1.1 e he)

/-- Witness for C24: the entry of `B`, a transaction of exactly the maximum
size, in the two-orphan example. -/
theorem size_bound_reachable_witness :
    exTxB.totalSize ≤ MAX_STANDARD_TX_SIZE :=
  size_bound_reachable exStateAB exStateAB_reachable (5, ⟨exTxB, 8, 1350, 1⟩) (by decide)

/-- Counterexample for C25: the one-orphan example holds 1 orphan, within the
cap 1; `AddTx(B)` returns true and leaves 2 orphans. -/
theorem count_bound_counterexample :
    Reachable exStateA ∧ exStateA.mapOrphanTransactions.length ≤ 1 ∧
    AddTx exStateA exTxB 8 150 = some (exStateAB, true) ∧
    ¬ exStateAB.mapOrphanTransactions.length ≤ 1 :=
  ⟨exStateA_reachable, by decide, by decide, by decide⟩

/-- C25, amended. For every cap `c` and every reachable state holding at most
`c` orphans, the count is still at most `c` on return from `EraseTx`,
`EraseForPeer`, `EraseForBlock` and `LimitOrphans(c)`; `AddTx`, which takes no
cap, returns with at most `c + 1`. -/
theorem count_bound_mutations (s : TxOrphanage) (c : Nat) (hr : Reachable s)
    (hle : s.mapOrphanTransactions.length ≤ c) :
    (∀ txid, ∃ r, EraseTx s txid = some r ∧ r.1.mapOrphanTransactions.length ≤ c) ∧
    (∀ peer, ∃ t, EraseForPeer s peer = some t ∧ t.mapOrphanTransactions.length ≤ c) ∧
    (∀ block, ∃ t, EraseForBlock s block = some t ∧ t.mapOrphanTransactions.length ≤ c) ∧
    (∀ nNow rng, ∃ r, LimitOrphans s c nNow rng = some r ∧
      r.1.mapOrphanTransactions.length ≤ c) ∧
    (∀ tx peer now, ∃ r, AddTx s tx peer now = some r ∧
      r.1.mapOrphanTransactions.length ≤ c + 1) := by
  have hi := reachable_inv s hr
  obtain ⟨e1, e2, e3, e4⟩ := erasing_sub s hi
  refine ⟨?_, ?_, ?_, ?_, ?_⟩
  · intro txid
    obtain ⟨r, h⟩ := eraseTx_total s txid hi.2.1
    exact ⟨r, h, le_trans (sub_length s r.1 (e1 txid r h).1 (e1 txid r h).2) hle⟩
  · intro peer
    obtain ⟨t, h⟩ := eraseForPeer_total s peer hi
    exact ⟨t, h, le_trans (sub_length s t (e2 peer t h).1 (e2 peer t h).2) hle⟩
  · intro block
    obtain ⟨t, h⟩ := eraseForBlock_total s block hi
    exact ⟨t, h, le_trans (sub_length s t (e3 block t h).1 (e3 block t h).2) hle⟩
  · intro nNow rng
    obtain ⟨r, h⟩ := limitOrphans_total s c nNow rng hi
    exact ⟨r, h, le_trans (sub_length s r.1 (e4 c nNow rng r h).1 (e4 c nNow rng r h).2) hle⟩
  · intro tx peer now
    obtain ⟨r, h⟩ := addTx_total s tx peer now
    refine ⟨r, h, ?_⟩
    rcases addTx_cases s tx peer now r h with ⟨e, -⟩ | ⟨hn, -, e⟩
    · rw [e]
      exact Nat.le_succ_of_le hle
    · rw [e]
      simp only
      rw [mapEmplace_length_of_none _ _ _ hn]
      omega

/-- Witness for the amended C25: the two-orphan example with cap 2. -/
theorem count_bound_mutations_witness :
    (∀ txid, ∃ r, EraseTx exStateAB txid = some r ∧
      r.1.mapOrphanTransactions.length ≤ 2) ∧
    (∀ peer, ∃ t, EraseForPeer exStateAB peer = some t ∧
      t.mapOrphanTransactions.length ≤ 2) ∧
    (∀ block, ∃ t, EraseForBlock exStateAB block = some t ∧
      t.mapOrphanTransactions.length ≤ 2) ∧
    (∀ nNow rng, ∃ r, LimitOrphans exStateAB 2 nNow rng = some r ∧
      r.1.mapOrphanTransactions.length ≤ 2) ∧
    (∀ tx peer now, ∃ r, AddTx exStateAB tx peer now = some r ∧
      r.1.mapOrphanTransactions.length ≤ 2 + 1) :=
  count_bound_mutations exStateAB 2 exStateAB_reachable (by decide)

/-- C28. `EraseForBlock` removes only conflicting orphans: on every reachable
state it returns; every entry present before the call none of whose input
outpoints is spent by an input of a transaction of the block is still resident
afterwards (with the same transaction, peer and expiry), and if no entry
shares an input outpoint with the block the whole state is unchanged. -/
theorem eraseForBlock_frame (s : TxOrphanage) (block : CBlock) (hr : Reachable s) :
    ∃ t, EraseForBlock s block = some t ∧
      (∀ e ∈ s.mapOrphanTransactions,
        (∀ txin ∈ e.2.tx.vin, ¬ blockSpends block txin.prevout) →
        Resident t e.1 ∧ coreAt t e.1 = some e.2.core) ∧
      ((∀ e ∈ s.mapOrphanTransactions, ∀ txin ∈ e.2.tx.vin,
        ¬ blockSpends block txin.prevout) → t = s) := by
  have hi := reachable_inv s hr
  obtain ⟨t, ht, -, -, hcore⟩ := eraseForBlock_spec s block hi
  refine ⟨t, ht, ?_, ?_⟩
  · intro e he hno
    have hcs := coreAt_entry s hi.1.1 e he
    have hct : coreAt t e.1 = some e.2.core := by
      rw [hcore e.1, hcs]
      apply (coreAt_filter_some _ _ _).2
      refine ⟨rfl, ?_⟩
      have : ¬ ∃ txin ∈ e.2.core.1.vin, blockSpends block txin.prevout := by
        rintro ⟨txin, hin, hb⟩
        exact hno txin hin hb
      simp [this]
    refine ⟨?_, hct⟩
    rw [← coreAt_isSome, hct]
    rfl
  · intro hno
    obtain ⟨ids, hc, hmem⟩ := collectBlock_mem s hi block.vtx
    have hnil : ids = [] := by
      apply List.eq_nil_iff_forall_not_mem.2
      intro x hx
      obtain ⟨tx, htx, bin, hbin, hb⟩ := (hmem x).1 hx
      obtain ⟨rec, hrec, txin, hin, hp⟩ := (bucket_mem_iff s hi bin.prevout x).1 hb
      exact hno (x, rec) (mapFind_mem _ _ _ hrec) txin hin ⟨tx, htx, bin, hbin, hp.symm⟩
    have h2 : EraseForBlock s block = some s := by
      simp [EraseForBlock, hc, hnil, eraseAll]
    rw [ht] at h2
    injection h2

/-- Witness for C28: a block spending `(0, 3)` removes `A` and keeps `B`; a
block spending only `(99, 0)` leaves the two-orphan example unchanged. -/
theorem eraseForBlock_frame_witness :
    EraseForBlock exStateAB ⟨[⟨60, [⟨⟨0, 3⟩⟩], [], 100⟩]⟩ = some exStateB ∧
    EraseForBlock exStateAB ⟨[exTxParent]⟩ = some exStateAB ∧
    ∃ t, EraseForBlock exStateAB ⟨[exTxParent]⟩ = some t ∧
      (∀ e ∈ exStateAB.mapOrphanTransactions,
        (∀ txin ∈ e.2.tx.vin, ¬ blockSpends ⟨[exTxParent]⟩ txin.prevout) →
        Resident t e.1 ∧ coreAt t e.1 = some e.2.core) ∧
      ((∀ e ∈ exStateAB.mapOrphanTransactions, ∀ txin ∈ e.2.tx.vin,
        ¬ blockSpends ⟨[exTxParent]⟩ txin.prevout) → t = exStateAB) :=
  ⟨by decide, by decide,
   eraseForBlock_frame exStateAB ⟨[exTxParent]⟩ exStateAB_reachable⟩

/-- C29. The overflow loop of `LimitOrphans` terminates.  The state on which
`LimitOrphans` enters the loop is reachable; on every reachable state, for
every cap and stream of draws, the loop returns after exactly
`size - cap` rounds (0 when `size ≤ cap`) whenever it is given at least that
many; and when a round runs (`size > cap`) the positional list is not empty,
the drawn position holds a resident id, and `EraseTx` of that id returns 1 and
leaves a reachable state with exactly one entry fewer, on which the loop
continues. -/
theorem evictLoop_terminates (s : TxOrphanage) (nMaxOrphans : Nat) (rng : Nat → Nat)
    (hr : Reachable s) :
    (∀ nNow, ∃ s1, sweepPhase s nNow = some s1 ∧ Reachable s1) ∧
    (∀ fuel n, s.mapOrphanTransactions.length ≤ fuel + nMaxOrphans →
      ∃ r, evictLoop rng nMaxOrphans fuel s n = some r ∧
        r.2 = n + (s.mapOrphanTransactions.length - nMaxOrphans) ∧
        r.1.mapOrphanTransactions.length ≤ nMaxOrphans) ∧
    (s.mapOrphanTransactions.length > nMaxOrphans →
      s.g_orphan_list.length ≠ 0 ∧
      ∀ n, ∃ h t, s.g_orphan_list[rng n % s.g_orphan_list.length]? = some h ∧
        Resident s h ∧ EraseTx s h = some (t, 1) ∧ Reachable t ∧
        t.mapOrphanTransactions.length + 1 = s.mapOrphanTransactions.length ∧
        ∀ fuel, evictLoop rng nMaxOrphans (fuel + 1) s n =
          evictLoop rng nMaxOrphans fuel t (n + 1)) := by
  have hi := reachable_inv s hr
  refine ⟨?_, ?_, ?_⟩
  · intro nNow
    obtain ⟨s1, h1, -⟩ := sweepPhase_total s nNow hi
    obtain ⟨s2, r, h2, -, h, -, -, -, -, hsame, -⟩ :=
      limitOrphans_spec s s1.mapOrphanTransactions.length nNow rng hi
    rw [h1] at h2
    injection h2 with h2
    subst h2
    have hstep := Step.limitOrphans s s1.mapOrphanTransactions.length nNow rng r h
    rw [hsame (le_refl _)] at hstep
    exact ⟨s1, h1, Reachable.step s s1 hr hstep⟩
  · intro fuel n hfuel
    obtain ⟨r, h, g1, g2, -, -⟩ := evictLoop_spec rng nMaxOrphans fuel s n hi.2.1 hfuel
    exact ⟨r, h, g2, by rw [g1]; exact min_le_right _ _⟩
  · intro hgt
    have hok := hi.2.1
    unfold ListInv at hok
    rw [listOK_iff] at hok
    obtain ⟨hl, hpos⟩ := hok
    have c0 : s.g_orphan_list.length ≠ 0 := by omega
    refine ⟨c0, ?_⟩
    intro n
    have hidx : rng n % s.g_orphan_list.length < s.g_orphan_list.length :=
      Nat.mod_lt _ (by omega)
    obtain ⟨h, rec, a1, a2, -⟩ := hpos _ hidx
    have hres : Resident s h := (resident_iff_some s h).2 ⟨rec, a2⟩
    obtain ⟨r1, he⟩ := eraseTx_total s h hi.2.1
    obtain ⟨hone, hlen⟩ := eraseTx_length s h r1 he hres
    have he2 : EraseTx s h = some (r1.1, 1) := by
      rw [he, ← hone]
    refine ⟨h, r1.1, a1, hres, he2, ?_, hlen, ?_⟩
    · exact Reachable.step s r1.1 hr (Step.eraseTx s h r1 he)
    · intro fuel
      conv_lhs => unfold evictLoop
      simp only [hgt, if_true, c0, if_false, a1, a2, he2]

/-- Witness for C29: in the two-orphan example with cap 0 the loop runs two
rounds; the first draw (position `7 % 2 = 1`) evicts `B`. -/
theorem evictLoop_terminates_witness :
    evictLoop (fun _ => 7) 0 2 exStateAB 0 = some (TxOrphanage.empty, 2) ∧
    (exStateAB.mapOrphanTransactions.length > 0 →
      exStateAB.g_orphan_list.length ≠ 0 ∧
      ∀ n, ∃ h t, exStateAB.g_orphan_list[(fun _ => 7) n % exStateAB.g_orphan_list.length]?
          = some h ∧
        Resident exStateAB h ∧ EraseTx exStateAB h = some (t, 1) ∧ Reachable t ∧
        t.mapOrphanTransactions.length + 1 = exStateAB.mapOrphanTransactions.length ∧
        ∀ fuel, evictLoop (fun _ => 7) 0 (fuel + 1) exStateAB n =
          evictLoop (fun _ => 7) 0 fuel t (n + 1)) :=
  ⟨by decide, (evictLoop_terminates exStateAB 0 (fun _ => 7) exStateAB_reachable).2.2⟩

/-- C30. The two assertions never fail on reachable states.  When `AddTx` gets
to the `emplace` (the id has count 0) the insertion takes place; the
`list_pos` of every resident record is a valid index of the positional list
whose slot holds the record's own handle; and all five operations return, so
no `EraseTx` call made by `EraseForPeer`, `EraseForBlock` or either phase of
`LimitOrphans` fails its assertion. -/
theorem assertions_hold (s : TxOrphanage) (hr : Reachable s) :
    (∀ tx peer now, mapCount s.mapOrphanTransactions tx.id = 0 →
      (mapEmplace s.mapOrphanTransactions tx.id
        { tx := tx, fromPeer := peer, nTimeExpire := now + ORPHAN_TX_EXPIRE_TIME,
          list_pos := s.g_orphan_list.length }).2 = true) ∧
    (∀ txid rec, mapFind s.mapOrphanTransactions txid = some rec →
      rec.list_pos < s.g_orphan_list.length ∧
      s.g_orphan_list[rec.list_pos]? = some txid) ∧
    (∀ tx peer now, ∃ r, AddTx s tx peer now = some r) ∧
    (∀ txid, ∃ r, EraseTx s txid = some r) ∧
    (∀ peer, ∃ t, EraseForPeer s peer = some t) ∧
    (∀ block, ∃ t, EraseForBlock s block = some t) ∧
    (∀ nMaxOrphans nNow rng, ∃ r, LimitOrphans s nMaxOrphans nNow rng = some r) := by
  have hi := reachable_inv s hr
  refine ⟨?_, ?_, fun tx peer now => addTx_total s tx peer now,
    fun txid => eraseTx_total s txid hi.2.1,
    fun peer => eraseForPeer_total s peer hi,
    fun block => eraseForBlock_total s block hi,
    fun nMaxOrphans nNow rng => limitOrphans_total s nMaxOrphans nNow rng hi⟩
  · intro tx peer now hc
    apply mapEmplace_snd_of_none
    cases hf : mapFind s.mapOrphanTransactions tx.id with
    | none => rfl
    | some x =>
      exfalso
      have := (mapCount_ne_zero_iff s.mapOrphanTransactions tx.id).2 (by rw [hf]; rfl)
      exact this hc
  · intro txid rec hf
    have hl := listOK_handle _ _ hi.2.1 txid rec hf
    exact ⟨(List.getElem?_eq_some.1 hl).1, hl⟩

/-- Witness for C30: in the two-orphan example the record of `B` has
`list_pos` 1 and slot 1 of the list holds `B`'s handle. -/
theorem assertions_hold_witness :
    (1 < exStateAB.g_orphan_list.length ∧ exStateAB.g_orphan_list[1]? = some 5) ∧
    ∃ r, EraseTx exStateAB 5 = some r :=
  ⟨(assertions_hold exStateAB exStateAB_reachable).2.1 5 ⟨exTxB, 8, 1350, 1⟩ (by decide),
   (assertions_hold exStateAB exStateAB_reachable).2.2.2.1 5⟩

/-- C26. List compaction in `EraseTx`.  When the list invariant holds and a
resident record at list position `p` is erased, `EraseTx` returns 1 and the
list is one shorter.  If `p` is not the last position, the handle that was
last is now at position `p` and its record has `list_pos = p`, every other
slot of the shorter list is as before and every other surviving record is
unchanged.  If `p` is the last position the list only loses its last slot and
every surviving record is unchanged. -/
theorem eraseTx_compaction (s : TxOrphanage) (txid : TxId) (rec : COrphanTx)
    (hok : ListInv s) (hf : mapFind s.mapOrphanTransactions txid = some rec) :
    ∃ t, EraseTx s txid = some (t, 1) ∧
      t.g_orphan_list.length + 1 = s.g_orphan_list.length ∧
      (rec.list_pos + 1 ≠ s.g_orphan_list.length →
        ∃ last rl, s.g_orphan_list.getLast? = some last ∧
          mapFind s.mapOrphanTransactions last = some rl ∧
          t.g_orphan_list[rec.list_pos]? = some last ∧
          mapFind t.mapOrphanTransactions last =
            some { rl with list_pos := rec.list_pos } ∧
          (∀ i, i < t.g_orphan_list.length → i ≠ rec.list_pos →
            t.g_orphan_list[i]? = s.g_orphan_list[i]?) ∧
          (∀ j, j ≠ txid → j ≠ last →
            mapFind t.mapOrphanTransactions j = mapFind s.mapOrphanTransactions j)) ∧
      (rec.list_pos + 1 = s.g_orphan_list.length →
        t.g_orphan_list = s.g_orphan_list.dropLast ∧
        ∀ j, j ≠ txid →
          mapFind t.mapOrphanTransactions j = mapFind s.mapOrphanTransactions j) := by
  have hl := listOK_handle _ _ hok txid rec hf
  obtain ⟨hp, -⟩ := List.getElem?_eq_some.1 hl
  obtain ⟨m, l, hc, he⟩ := eraseTx_present s txid rec hok hf
  refine ⟨_, he, ?_, ?_, ?_⟩
  · simp only
    unfold compactList at hc
    by_cases c : rec.list_pos + 1 = s.g_orphan_list.length
    · simp only [c, ne_eq, not_true_eq_false, if_false, Option.some.injEq,
        Prod.mk.injEq] at hc
      rw [← hc.2, List.length_dropLast]
      omega
    · simp only [c, ne_eq, not_false_eq_true, if_true] at hc
      cases hlast : s.g_orphan_list.getLast? with
      | none => simp [hlast] at hc
      | some it_last =>
        cases hfl : mapFind s.mapOrphanTransactions it_last with
        | none => simp [hlast, hfl] at hc
        | some rl =>
          simp only [hlast, hfl, Option.some.injEq, Prod.mk.injEq] at hc
          rw [← hc.2, List.length_dropLast, List.length_set]
          omega
  · intro c
    simp only
    unfold compactList at hc
    simp only [c, ne_eq, not_false_eq_true, if_true] at hc
    cases hlast : s.g_orphan_list.getLast? with
    | none => simp [hlast] at hc
    | some it_last =>
      cases hfl : mapFind s.mapOrphanTransactions it_last with
      | none => simp [hlast, hfl] at hc
      | some rl =>
        simp only [hlast, hfl, Option.some.injEq, Prod.mk.injEq] at hc
        have hne : it_last ≠ txid := by
          intro e
          have hok2 := hok
          unfold ListInv at hok2
          rw [listOK_iff] at hok2
          obtain ⟨h0, r0, e1, e2, e3⟩ := hok2.2 (s.g_orphan_list.length - 1) (by omega)
          rw [← List.getLast?_eq_getElem?, hlast] at e1
          injection e1 with e1
          rw [← e1, e, hf] at e2
          injection e2 with e2
          rw [← e2] at e3
          omega
        refine ⟨it_last, rl, rfl, hfl, ?_, ?_, ?_, ?_⟩
        · rw [← hc.2, List.getElem?_dropLast, List.length_set,
            if_pos (by omega), List.getElem?_set, if_pos rfl, if_pos hp]
        · rw [← hc.1, mapFind_erase_ne _ _ _ hne, mapFind_modify, if_pos rfl, hfl]
          rfl
        · intro i hi hin
          rw [← hc.2] at hi ⊢
          rw [List.length_dropLast, List.length_set] at hi
          rw [List.getElem?_dropLast, List.length_set, if_pos hi, List.getElem?_set,
            if_neg (fun e => hin e.symm)]
        · intro j hj1 hj2
          rw [← hc.1, mapFind_erase_ne _ _ _ hj1, mapFind_modify, if_neg hj2]
  · intro c
    simp only
    unfold compactList at hc
    simp only [c, ne_eq, not_true_eq_false, if_false, Option.some.injEq,
      Prod.mk.injEq] at hc
    refine ⟨hc.2.symm, ?_⟩
    intro j hj
    rw [← hc.1, mapFind_erase_ne _ _ _ hj]

/-- Witness for C26: erasing `A` (list position 0, not the last) from the
two-orphan example moves `B` from position 1 to position 0. -/
theorem eraseTx_compaction_witness :
    EraseTx exStateAB 10 = some (exStateB, 1) ∧
    ∃ t, EraseTx exStateAB 10 = some (t, 1) ∧
      t.g_orphan_list.length + 1 = exStateAB.g_orphan_list.length ∧
      ((0 : Nat) + 1 ≠ exStateAB.g_orphan_list.length →
        ∃ last rl, exStateAB.g_orphan_list.getLast? = some last ∧
          mapFind exStateAB.mapOrphanTransactions last = some rl ∧
          t.g_orphan_list[(0 : Nat)]? = some last ∧
          mapFind t.mapOrphanTransactions last = some { rl with list_pos := 0 } ∧
          (∀ i, i < t.g_orphan_list.length → i ≠ 0 →
            t.g_orphan_list[i]? = exStateAB.g_orphan_list[i]?) ∧
          (∀ j, j ≠ 10 → j ≠ last →
            mapFind t.mapOrphanTransactions j =
              mapFind exStateAB.mapOrphanTransactions j)) ∧
      ((0 : Nat) + 1 = exStateAB.g_orphan_list.length →
        t.g_orphan_list = exStateAB.g_orphan_list.dropLast ∧
        ∀ j, j ≠ 10 →
          mapFind t.mapOrphanTransactions j =
            mapFind exStateAB.mapOrphanTransactions j) :=
  ⟨by decide,
   eraseTx_compaction exStateAB 10 ⟨exTxA, 7, 1300, 0⟩ (by decide) (by decide)⟩

/-- C27. Admit-then-erase round trip: for every reachable state `s` and every
transaction whose id is not resident in `s` and whose size is within the
limit, `AddTx(tx, peer)` returns true and a following `EraseTx(tx.id)` returns
1 and the state `s` itself: primary store, reverse index and positional list
(and the sweep deadline) are those of `s`. -/
theorem addTx_eraseTx_roundtrip (s : TxOrphanage) (tx : CTransaction) (peer : NodeId)
    (now : Int) (hr : Reachable s) (hn : ¬ Resident s tx.id)
    (hsz : tx.totalSize ≤ MAX_STANDARD_TX_SIZE) :
    ∃ t, AddTx s tx peer now = some (t, true) ∧ EraseTx t tx.id = some (s, 1) := by
  have hi := reachable_inv s hr
  have hnone : mapFind s.mapOrphanTransactions tx.id = none := by
    unfold Resident at hn
    cases hf : mapFind s.mapOrphanTransactions tx.id with
    | none => rfl
    | some x => simp [hf] at hn
  have hcond : ¬ ((mapFind s.mapOrphanTransactions tx.id).isSome = true ∨
      tx.totalSize > MAX_STANDARD_TX_SIZE) := by
    rintro (h | h)
    · exact hn h
    · omega
  refine ⟨_, by rw [addTx_eq, if_neg hcond], ?_⟩
  have hfind : mapFind (mapEmplace s.mapOrphanTransactions tx.id
      { tx := tx, fromPeer := peer, nTimeExpire := now + ORPHAN_TX_EXPIRE_TIME,
        list_pos := s.g_orphan_list.length }).1 tx.id =
      some { tx := tx, fromPeer := peer, nTimeExpire := now + ORPHAN_TX_EXPIRE_TIME,
             list_pos := s.g_orphan_list.length } := by
    rw [mapFind_emplace_of_none _ _ _ _ hnone, if_pos rfl]
  have hcompact : compactList (mapEmplace s.mapOrphanTransactions tx.id
      { tx := tx, fromPeer := peer, nTimeExpire := now + ORPHAN_TX_EXPIRE_TIME,
        list_pos := s.g_orphan_list.length }).1 (s.g_orphan_list ++ [tx.id])
      s.g_orphan_list.length =
      some ((mapEmplace s.mapOrphanTransactions tx.id
        { tx := tx, fromPeer := peer, nTimeExpire := now + ORPHAN_TX_EXPIRE_TIME,
          list_pos := s.g_orphan_list.length }).1, s.g_orphan_list) := by
    unfold compactList
    simp
  have hbp : byPrevEraseAll (byPrevInsertAll s.mapOrphanTransactionsByPrev tx.vin tx.id)
      tx.vin tx.id = s.mapOrphanTransactionsByPrev := by
    apply byPrev_roundtrip _ _ _ hi.1.2.1 hi.1.2.2
    · intro p b hp
      exact (hi.2.2.2.1 p b hp).1
    · intro p b hp hmem
      obtain ⟨rec, hrec, -⟩ := (hi.2.2.2.1 p b hp).2 tx.id hmem
      rw [hnone] at hrec
      simp at hrec
  unfold EraseTx
  simp only [hfind, List.getElem?_concat_length, ne_eq, not_true_eq_false, if_false,
    hcompact, hbp, mapErase_emplace_of_none _ _ _ hnone]

/-- Witness for C27: admitting `B` to the one-orphan example and erasing it
again gives the one-orphan example back. -/
theorem addTx_eraseTx_roundtrip_witness :
    AddTx exStateA exTxB 8 150 = some (exStateAB, true) ∧
    EraseTx exStateAB 5 = some (exStateA, 1) ∧
    ∃ t, AddTx exStateA exTxB 8 150 = some (t, true) ∧ EraseTx t 5 = some (exStateA, 1) :=
  ⟨by decide, by decide,
   addTx_eraseTx_roundtrip exStateA exTxB 8 150 exStateA_reachable (by decide) (by decide)⟩

/-- Counterexample for C21: the sweep run by `LimitOrphans(5)` at time 200 on
the two-orphan example leaves both records, the earliest expiring at 1300, and
sets the next sweep to 1400, which is earlier than `1300 + 300`. -/
theorem next_sweep_lower_bound_counterexample :
    Reachable exStateAB ∧ exStateAB.nNextSweep ≤ 200 ∧
    LimitOrphans exStateAB 5 200 (fun _ => 0) = some (exStateABSwept, 0) ∧
    (∀ e ∈ exStateABSwept.mapOrphanTransactions, 1300 ≤ e.2.nTimeExpire) ∧
    (∃ e ∈ exStateABSwept.mapOrphanTransactions, e.2.nTimeExpire = 1300) ∧
    ¬ (exStateABSwept.nNextSweep ≥ 1300 + 300) :=
  ⟨exStateAB_reachable, by decide, by decide, by decide, by decide, by decide⟩

/-- C21, amended. After a sweep run by `LimitOrphans` at time `now`,
`nNextSweep` is at most the expiry of every record the sweep left plus 300:
the next sweep is due no later than five minutes after the earliest surviving
entry would expire.  It is due exactly then when that earliest expiry is at
most `now + 900`, and at `now + 1200` when every surviving expiry is later
than `now + 900`. -/
theorem next_sweep_upper_bound (s : TxOrphanage) (nMaxOrphans : Nat) (nNow : Int)
    (rng : Nat → Nat) (hr : Reachable s) (hdue : s.nNextSweep ≤ nNow) :
    ∃ s1 r, sweepPhase s nNow = some s1 ∧ LimitOrphans s nMaxOrphans nNow rng = some r ∧
      (∀ e ∈ s1.mapOrphanTransactions, r.1.nNextSweep ≤ e.2.nTimeExpire + 300) ∧
      (∀ e ∈ s1.mapOrphanTransactions,
        (∀ e2 ∈ s1.mapOrphanTransactions, e.2.nTimeExpire ≤ e2.2.nTimeExpire) →
        e.2.nTimeExpire ≤ nNow + 900 → r.1.nNextSweep = e.2.nTimeExpire + 300) ∧
      ((∀ e ∈ s1.mapOrphanTransactions, nNow + 900 < e.2.nTimeExpire) →
        r.1.nNextSweep = nNow + 1200) := by
  have hi := reachable_inv s hr
  obtain ⟨s1, r, h1, -, h, -, -, -, hn, -, -⟩ :=
    limitOrphans_spec s nMaxOrphans nNow rng hi
  obtain ⟨s2, m, h2, -, hns, g1, g2, g3⟩ := sweepPhase_due_entries s nNow hi hdue
  rw [h1] at h2
  injection h2 with h2
  subst h2
  refine ⟨s1, r, h1, h, ?_, ?_, ?_⟩
  · intro e he
    rw [hn, hns]
    have := g2 e he
    omega
  · intro e he hmin hle
    rw [hn, hns]
    rcases g3 with g3 | ⟨e2, he2, heq⟩
    · have := g2 e he
      omega
    · have h3 := hmin e2 he2
      have h4 := g2 e he
      omega
  · intro hall
    rw [hn, hns]
    rcases g3 with g3 | ⟨e2, he2, heq⟩
    · omega
    · have := hall e2 he2
      omega

/-- Witness for the amended C21: at time 200 both survivors expire after
`200 + 900`, so the next sweep is due at `200 + 1200`; this is before
`1300 + 300`. -/
theorem next_sweep_upper_bound_witness :
    ∃ s1 r, sweepPhase exStateAB 200 = some s1 ∧
      LimitOrphans exStateAB 5 200 (fun _ => 0) = some r ∧
      (∀ e ∈ s1.mapOrphanTransactions, r.1.nNextSweep ≤ e.2.nTimeExpire + 300) ∧
      (∀ e ∈ s1.mapOrphanTransactions,
        (∀ e2 ∈ s1.mapOrphanTransactions, e.2.nTimeExpire ≤ e2.2.nTimeExpire) →
        e.2.nTimeExpire ≤ 200 + 900 → r.1.nNextSweep = e.2.nTimeExpire + 300) ∧
      ((∀ e ∈ s1.mapOrphanTransactions, 200 + 900 < e.2.nTimeExpire) →
        r.1.nNextSweep = 200 + 1200) :=
  next_sweep_upper_bound exStateAB 5 200 (fun _ => 0) exStateAB_reachable (by decide)

/-- Counterexample for C22: with `A` admitted to the empty orphanage at time
100 (expiry 1300), `LimitOrphans(100)` at time `100 + 1199` sweeps, keeps `A`
and sets the next sweep to 1600; `LimitOrphans(100)` at time `100 + 1201`
then skips the sweep and `A` is still resident. -/
theorem expiry_scenario_counterexample :
    TxOrphanage.empty.nNextSweep ≤ 100 ∧
    AddTx TxOrphanage.empty exTxA 7 100 = some (exStateA, true) ∧
    LimitOrphans exStateA 100 (100 + 1199) (fun _ => 0) =
      some ({ exStateA with nNextSweep := 1600 }, 0) ∧
    LimitOrphans { exStateA with nNextSweep := 1600 } 100 (100 + 1201) (fun _ => 0) =
      some ({ exStateA with nNextSweep := 1600 }, 0) ∧
    Resident { exStateA with nNextSweep := 1600 } 10 :=
  ⟨by decide, by decide, by decide, by decide, by decide⟩

/-- C22, amended. Expiry scenario: starting from an empty orphanage whose
sweep deadline `d` is in the past (`d ≤ t0`), `AddTx(A)` at time `t0` admits
`A`; `LimitOrphans(100)` at time `t0 + 1199` evicts nothing, keeps `A` and
moves the sweep deadline to `t0 + 1500`; a following `LimitOrphans(100)` at
time `t0 + 1201` skips the sweep, returns 0 and leaves the state as it is,
`A` included; a following `LimitOrphans(100)` at any time from `t0 + 1500` on
removes `A` and returns 0. -/
theorem expiry_scenario (tx : CTransaction) (peer : NodeId) (t0 d : Int)
    (rng1 rng2 : Nat → Nat) (hd : d ≤ t0) (hsz : tx.totalSize ≤ MAX_STANDARD_TX_SIZE) :
    ∃ s1 s2, AddTx { TxOrphanage.empty with nNextSweep := d } tx peer t0 = some (s1, true) ∧
      LimitOrphans s1 100 (t0 + 1199) rng1 = some (s2, 0) ∧
      Resident s2 tx.id ∧ s2.nNextSweep = t0 + 1500 ∧
      LimitOrphans s2 100 (t0 + 1201) rng2 = some (s2, 0) ∧
      ∀ (T : Int) (rng3 : Nat → Nat), t0 + 1500 ≤ T →
        ∃ s3, LimitOrphans s2 100 T rng3 = some (s3, 0) ∧ ¬ Resident s3 tx.id := by
  have hi0 : Inv { TxOrphanage.empty with nNextSweep := d } := inv_empty
  have hc0 : ∀ j, coreAt { TxOrphanage.empty with nNextSweep := d } j = none := by
    intro j
    rfl
  obtain ⟨r, hadd⟩ := addTx_total { TxOrphanage.empty with nNextSweep := d } tx peer t0
  have hr2 : r.2 = true ∧ r.1.mapOrphanTransactions.length = 1 ∧ r.1.nNextSweep = d := by
    rcases addTx_cases _ tx peer t0 r hadd with ⟨-, hbad⟩ | ⟨hn, -, e⟩
    · exfalso
      rcases hbad with hbad | hbad
      · simp [TxOrphanage.empty, mapFind] at hbad
      · omega
    · rw [e]
      refine ⟨rfl, ?_, rfl⟩
      simp only
      rw [mapEmplace_length_of_none _ _ _ hn]
      rfl
  obtain ⟨hb, hlen1, hns1⟩ := hr2
  have hi1 : Inv r.1 := addTx_inv _ tx peer t0 r hi0 hadd
  have hc1 : ∀ j, coreAt r.1 j = if j = tx.id then some (tx, peer, t0 + 1200) else none := by
    intro j
    rw [addTx_coreAt _ tx peer t0 r hadd j, hc0 j]
    simp [hb]
  -- first call, at `t0 + 1199`
  obtain ⟨s2, hsw2, hi2, hl2⟩ := limitOrphans_small r.1 100 (t0 + 1199) rng1 hi1 (by omega)
  obtain ⟨s2', m, hsw2', -, hcore2, hns2, -, g2, g3⟩ :=
    sweepPhase_due r.1 (t0 + 1199) hi1 (by omega)
  rw [hsw2] at hsw2'
  injection hsw2' with hsw2'
  subst hsw2'
  have hm : m = t0 + 1200 := by
    have h1 := g2 tx.id (tx, peer, t0 + 1200) (by rw [hc1]; simp) (by simp)
    rcases g3 with g3 | ⟨k, c, hkc, -, heq⟩
    · simp only at h1
      omega
    · rw [hc1 k] at hkc
      by_cases ck : k = tx.id
      · rw [if_pos ck] at hkc
        injection hkc with hkc
        rw [← heq, ← hkc]
      · rw [if_neg ck] at hkc
        simp at hkc
  have hc2 : coreAt s2 tx.id = some (tx, peer, t0 + 1200) := by
    rw [hcore2 tx.id, hc1 tx.id, if_pos rfl]
    apply (coreAt_filter_some _ _ _).2
    refine ⟨rfl, ?_⟩
    simp
  have hres2 : Resident s2 tx.id := by
    rw [← coreAt_isSome, hc2]
    rfl
  have hlen2 : s2.mapOrphanTransactions.length ≤ 100 := by
    have := sweepPhase_len r.1 (t0 + 1199) hi1 s2 hsw2
    omega
  have hnext : s2.nNextSweep = t0 + 1500 := by
    rw [hns2, hm]
    omega
  have hrr : r = (r.1, true) := by
    rw [← hb]
  rw [hrr] at hadd
  refine ⟨r.1, s2, hadd, hl2, hres2, hnext, ?_, ?_⟩
  · -- second call, at `t0 + 1201`
    obtain ⟨s2b, hsw, -, hl⟩ := limitOrphans_small s2 100 (t0 + 1201) rng2 hi2 hlen2
    rw [sweepPhase_skip s2 (t0 + 1201) (by rw [hnext]; omega)] at hsw
    injection hsw with hsw
    rw [← hsw] at hl
    exact hl
  · -- a call at `T ≥ t0 + 1500`
    intro T rng3 hT
    obtain ⟨s3, hsw3, -, hl3⟩ := limitOrphans_small s2 100 T rng3 hi2 hlen2
    obtain ⟨s3', m3, hsw3', -, hcore3, -⟩ := sweepPhase_due s2 T hi2 (by rw [hnext]; exact hT)
    rw [hsw3] at hsw3'
    injection hsw3' with hsw3'
    subst hsw3'
    refine ⟨s3, hl3, ?_⟩
    rw [← coreAt_isSome, hcore3 tx.id, hc2]
    have : t0 + 1200 ≤ T := by omega
    simp [Option.filter, this]

/-- Witness for the amended C22: `A` admitted at time 100 with the deadline 0
in the past. -/
theorem expiry_scenario_witness :
    ∃ s1 s2, AddTx { TxOrphanage.empty with nNextSweep := 0 } exTxA 7 100 = some (s1, true) ∧
      LimitOrphans s1 100 (100 + 1199) (fun _ => 0) = some (s2, 0) ∧
      Resident s2 exTxA.id ∧ s2.nNextSweep = 100 + 1500 ∧
      LimitOrphans s2 100 (100 + 1201) (fun _ => 0) = some (s2, 0) ∧
      ∀ (T : Int) (rng3 : Nat → Nat), 100 + 1500 ≤ T →
        ∃ s3, LimitOrphans s2 100 T rng3 = some (s3, 0) ∧ ¬ Resident s3 exTxA.id :=
  expiry_scenario exTxA 7 100 0 (fun _ => 0) (fun _ => 0) (by decide) (by decide)

/-- C31. Key/id agreement is an invariant: in every reachable state the key of
each entry of the primary store is the id of the transaction stored in it.
Hence `EraseTx` called with the stored transaction's id of a visited entry
returns 1 and removes that very entry and no other; this is the call the
traversals of `EraseForPeer` and of the expiry sweep make before moving on to
the remaining keys, and the ids `EraseForBlock` collects from a bucket are the
keys of the bucket's handles. -/
theorem keyInv_reachable (s : TxOrphanage) (hr : Reachable s) :
    (∀ e ∈ s.mapOrphanTransactions, e.2.tx.id = e.1) ∧
    (∀ e ∈ s.mapOrphanTransactions, ∃ t, EraseTx s e.2.tx.id = some (t, 1) ∧
      ¬ Resident t e.1 ∧ (∀ j, j ≠ e.1 → (Resident t j ↔ Resident s j)) ∧
      (∀ peer rest, e.2.fromPeer = peer →
        eraseForPeerLoop peer (e.1 :: rest) s = eraseForPeerLoop peer rest t) ∧
      (∀ nNow rest m, e.2.nTimeExpire ≤ nNow →
        sweepLoop nNow (e.1 :: rest) s m = sweepLoop nNow rest t m)) ∧
    (∀ e ∈ s.mapOrphanTransactionsByPrev, bucketIds s e.2 = some e.2) := by
  have hi := reachable_inv s hr
  have hkey : ∀ e ∈ s.mapOrphanTransactions, e.2.tx.id = e.1 := by
    intro e he
    exact hi.2.2.2.2 e.1 e.2 (mapFind_of_mem _ hi.1.1 e.1 e.2 he)
  refine ⟨hkey, ?_, ?_⟩
  · intro e he
    have hf := mapFind_of_mem _ hi.1.1 e.1 e.2 he
    have hres : Resident s e.1 := (resident_iff_some s e.1).2 ⟨e.2, hf⟩
    obtain ⟨r, h⟩ := eraseTx_total s e.1 hi.2.1
    obtain ⟨hone, -⟩ := eraseTx_length s e.1 r h hres
    have h2 : EraseTx s e.1 = some (r.1, 1) := by
      rw [h, ← hone]
    rw [hkey e he]
    refine ⟨r.1, h2, ?_, ?_, ?_, ?_⟩
    · intro hc
      exact ((eraseTx_resident_iff s e.1 r hi.1.1 h e.1).1 hc).2 rfl
    · intro j hj
      rw [eraseTx_resident_iff s e.1 r hi.1.1 h j]
      exact ⟨fun hc => hc.1, fun hc => ⟨hc, hj⟩⟩
    · intro peer rest hp
      conv_lhs => unfold eraseForPeerLoop
      simp only [hf, hp, if_true, hkey e he, h2]
    · intro nNow rest m hexp
      conv_lhs => unfold sweepLoop
      simp only [hf, hexp, if_true, hkey e he, h2]
  · intro e he
    have hf := mapFind_of_mem _ hi.1.2.1 e.1 e.2 he
    exact bucketIds_eq s hi.2.2.2.2 e.2 (bucket_resident s hi.2.2.2.1 e.1 e.2 hf)

/-- Witness for C31: in the two-orphan example the entry under key 10 stores
the transaction `A` with id 10, and erasing by that id removes it. -/
theorem keyInv_reachable_witness :
    exTxA.id = 10 ∧ EraseTx exStateAB exTxA.id = some (exStateB, 1) ∧
    ∃ t, EraseTx exStateAB exTxA.id = some (t, 1) ∧
      ¬ Resident t 10 ∧ (∀ j, j ≠ 10 → (Resident t j ↔ Resident exStateAB j)) ∧
      (∀ peer rest, (7 : NodeId) = peer →
        eraseForPeerLoop peer (10 :: rest) exStateAB = eraseForPeerLoop peer rest t) ∧
      (∀ nNow rest m, (1300 : Int) ≤ nNow →
        sweepLoop nNow (10 :: rest) exStateAB m = sweepLoop nNow rest t m) :=
  ⟨(keyInv_reachable exStateAB exStateAB_reachable).1 (10, ⟨exTxA, 7, 1300, 0⟩) (by decide),
   by decide,
   (keyInv_reachable exStateAB exStateAB_reachable).2.1 (10, ⟨exTxA, 7, 1300, 0⟩) (by decide)⟩

end TxOrphanageModel
